import Mathlib

/-!
Verification of eraser-head, a recursive delete with a progress bar.

Shallow embedding of `src/main.c` and proofs about the deletion plan built by
`loadFileList`, its execution by `recursiveDelete`, the ETA arithmetic of
`progress`, and the control flow of `main`.

Modelling conventions
* A C string is the list of its characters before the terminating NUL.
* The linked list `struct FileList` is a Lean list (order = `next` chain)
  together with its `count` field.
* The directory reader (`opendir`/`readdir`) is a finite tree `Node`: what
  `readdir` yields in each directory, in the order it yields it, including the
  `.` and `..` pseudo-entries when the reader reports them.
* `unlink`, `rmdir`, `time` and the terminal are oracles collected in `Sys`;
  the state the removal primitives act on is an arbitrary type `σ`.
* A call that does not return (a trapping division, a `NULL` dereference, a
  loop whose `int` counter overflows) gives the outcome `none`; the functions
  that call `progress` return an `Option` together with the world as it is
  when they return or stop.
* Every externally visible action is appended to a chronological trace of
  `Event`s.
* `time_t` is a 64-bit signed integer (the source reads `d_namlen`, a BSD/macOS
  field, where `time_t` is `long`), `int` is 32-bit.
-/

namespace Eraser

/-- A C string: its characters before the terminating NUL. -/
abbrev CStr := List Char

/-! ## Data model (main.c lines 22-46) -/

/-- The C `struct File`; the `next` pointer is the position in the list. -/
structure File where
  filename : CStr
  isDir : Bool
deriving DecidableEq, Repr

/-- The C `struct FileList`: the chain from `head` to `tail`, and `count`. -/
structure FileList where
  files : List File
  count : Nat
deriving DecidableEq, Repr

/-- Lines 34-46: link `f` after the tail (or as head of an empty list) and
increment `count`. -/
def FileList_Add (l : FileList) (f : File) : FileList :=
  match l.files with
  | [] => { files := [f], count := l.count + 1 }
  | h :: t => { files := (h :: t) ++ [f], count := l.count + 1 }

/-! ## The directory reader -/

/-- What the directory reader reports below one entry. `file` is an entry whose
`d_type` is not `DT_DIR` (as the root: a path that is not a directory, on which
`opendir` fails); `dir canOpen entries` is an entry whose `d_type` is `DT_DIR`,
`canOpen` tells whether `opendir` on it succeeds, and `entries` is the sequence
of `(d_name, entry)` that `readdir` then yields. -/
inductive Node where
  | file : Node
  | dir (canOpen : Bool) (entries : List (CStr × Node)) : Node
deriving Repr

/-- The test `entry->d_type == DT_DIR`. -/
def Node.isDir : Node → Bool
  | .file => false
  | .dir _ _ => true

/-- The name of the self pseudo-entry. -/
def dot : CStr := ['.']

/-- The name of the parent pseudo-entry. -/
def dotdot : CStr := ['.', '.']

/-- Line 60: `strcmp(d_name, ".") && strcmp(d_name, "..")`. -/
def notPseudo (d_name : CStr) : Bool :=
  decide (d_name ≠ dot) && decide (d_name ≠ dotdot)

/-- Lines 62-68: `strcpy(filename, path)`, then `strcat(filename, "/")` when
`filename` is non-empty and does not end in `/`, then
`strcat(filename, d_name)`. -/
def childPath (path d_name : CStr) : CStr :=
  let filename := path
  let filename :=
    if filename.length ≠ 0 ∧ filename.getLast? ≠ some '/' then filename ++ ['/']
    else filename
  filename ++ d_name

/-! ## Effects -/

/-- Externally visible actions, in the order the program performs them. -/
inductive Event where
  | opendir (path : CStr) (ok : Bool)
  | closedir (path : CStr)
  | add (f : File)
  | time (now : Int)
  | perror (s : CStr)
  | stderr (text : CStr)
  | stdout (text : CStr)
  | scanProgress (count : Nat)
  | progress (value max elapsed : Int)
  | unlink (path : CStr) (ret : Int)
  | rmdir (path : CStr) (ret : Int)
deriving DecidableEq, Repr

/-- The external primitives: the wall clock (`time k` is the value of the
`k`-th call of `time(NULL)`), the two removal primitives, which return the
C return value (0 on success) and the new filesystem state, and the terminal:
`tty k` is what `/dev/tty` answered to the last query of `termSize` (line 229
or the `SIGWINCH` handler, line 210) made before the `k`-th reading of the
clock was used; `none`: it cannot be opened, `some none`: the `ioctl` fails,
`some (some (col, row))`: the window size reported in `ws_col` and `ws_row`. -/
structure Sys (σ : Type) where
  time : Nat → Int
  unlink : CStr → σ → Int × σ
  rmdir : CStr → σ → Int × σ
  tty : Nat → Option (Option (Nat × Nat))

/-- The state outside the program's own variables: the state the removal
primitives act on, the number of clock readings made so far, and the trace. -/
structure World (σ : Type) where
  fs : σ
  ticks : Nat
  trace : List Event

/-- Append one event to the trace. -/
def World.emit {σ : Type} (w : World σ) (e : Event) : World σ :=
  { w with trace := w.trace ++ [e] }

/-- The call `time(NULL)`. -/
def World.now {σ : Type} (sys : Sys σ) (w : World σ) : Int × World σ :=
  (sys.time w.ticks,
   { w with ticks := w.ticks + 1, trace := w.trace ++ [Event.time (sys.time w.ticks)] })

/-- The variables `loadFileList` works on through its pointer arguments
(`*fl`, `*lastProgress`) together with the outside world. -/
structure Scan (σ : Type) where
  fl : FileList
  lastProgress : Int
  world : World σ

/-- The call `FileList_Add(fl, f)` inside the scan. -/
def Scan.add {σ : Type} (s : Scan σ) (f : File) : Scan σ :=
  { s with fl := FileList_Add s.fl f, world := s.world.emit (.add f) }

/-- Lines 84-88: read the clock and print the bare counter when more than one
second passed since the last print. -/
def scanTick {σ : Type} (sys : Sys σ) (s : Scan σ) : Scan σ :=
  let r := s.world.now sys
  if r.1 - s.lastProgress > 1 then
    { s with lastProgress := r.1, world := r.2.emit (.scanProgress s.fl.count) }
  else
    { s with world := r.2 }

/-- The text of `fprintf(stderr, "Path: \"%s\"\n", path)`. -/
def pathDiagnostic (path : CStr) : CStr :=
  "Path: \"".toList ++ path ++ "\"\n".toList

/-- Lines 51-56: `opendir` returned NULL; `perror("opendir")` and the `Path:`
line go to standard error. -/
def openFailed {σ : Type} (path : CStr) (w : World σ) : World σ :=
  ((w.emit (.opendir path false)).emit (.perror "opendir".toList)).emit
    (.stderr (pathDiagnostic path))

mutual
/-- Lines 48-97. The result is the returned `bool` and the state left behind
(the list is modified in place, also when the function fails). -/
def loadFileList {σ : Type} (sys : Sys σ) (path : CStr) : Node → Scan σ → Bool × Scan σ
  | .dir true entries, s =>
    let s := { s with world := s.world.emit (.opendir path true) }
    match readdirLoop sys path entries s with
    | (false, s) => (false, s)
    | (true, s) =>
      let s := { s with world := s.world.emit (.closedir path) }
      (true, s.add { filename := path, isDir := true })
  | _, s => (false, { s with world := openFailed path s.world })
/-- Lines 58-89: the `while((entry = readdir(dir)) != NULL)` loop over the
entries that are still to be read. `false` means the function has returned
`false` from inside the loop (after `closedir`). -/
def readdirLoop {σ : Type} (sys : Sys σ) (path : CStr) :
    List (CStr × Node) → Scan σ → Bool × Scan σ
  | [], s => (true, s)
  | (d_name, node) :: rest, s =>
    if notPseudo d_name then
      let filename := childPath path d_name
      if node.isDir then
        match loadFileList sys filename node s with
        | (false, s) => (false, { s with world := s.world.emit (.closedir path) })
        | (true, s) => readdirLoop sys path rest (scanTick sys s)
      else
        readdirLoop sys path rest
          (scanTick sys (s.add { filename := filename, isDir := node.isDir }))
    else
      readdirLoop sys path rest (scanTick sys s)
end

/-! ## progress (lines 99-143): the arithmetic and the status text -/

/-- Conversion of a `size_t` to `int` (argument passing at lines 172, 250). -/
def toInt (n : Nat) : Int := ((n : Int) + 2 ^ 31) % 2 ^ 32 - 2 ^ 31

/-- Reduction of a mathematical integer to the range of `time_t`. -/
def wrapLong (x : Int) : Int := (x + 2 ^ 63) % 2 ^ 64 - 2 ^ 63

/-- Division of two `time_t` values: truncating; `none` when the division
traps (zero divisor, or the one quotient that is out of range). -/
def cdiv (a b : Int) : Option Int :=
  if b = 0 ∨ (a = -(2 ^ 63) ∧ b = -1) then none else some (Int.tdiv a b)

/-- Lines 111-115: `if(value) eta = (max * elapsed) / value; else eta = 0;`
with the product computed in `time_t`. -/
def progress_eta (value max elapsed : Int) : Option Int :=
  if value ≠ 0 then cdiv (wrapLong (max * elapsed)) value else some 0

/-- Two decimal digits, zero padded. -/
def twoDigits (n : Nat) : CStr := [Nat.digitChar (n / 10), Nat.digitChar (n % 10)]

/-- The time of day `HH:MM:SS` of `t` seconds after the epoch. -/
def timeOfDay (t : Int) : CStr :=
  let s := (t % 86400).toNat
  twoDigits (s / 3600) ++ [':'] ++ twoDigits (s % 3600 / 60) ++ [':'] ++ twoDigits (s % 60)

/-- The first second of the year `INT_MIN + 1900`, the smallest `time_t` that
`gmtime` converts (the field `tm_year`, the year minus 1900, is an `int`). -/
def gmtimeMin : Int := -67768040609740800

/-- The last second of the year `INT_MAX + 1900`, the largest `time_t` that
`gmtime` converts. -/
def gmtimeMax : Int := 67768036191676799

/-- Lines 117-121: `strftime(buf, 32, "%H:%M:%S", gmtime(&t))`. Outside the
range of `gmtime` the call `gmtime(&t)` returns `NULL`, which `strftime`
dereferences: `none`. -/
def strftimeHMS (t : Int) : Option CStr :=
  if gmtimeMin ≤ t ∧ t ≤ gmtimeMax then some (timeOfDay t) else none

/-- The conversion `%d`. -/
def fmtInt (i : Int) : CStr :=
  if i < 0 then '-' :: Nat.toDigits 10 i.natAbs else Nat.toDigits 10 i.toNat

/-- The conversion `%*d` with a non-negative width: right-aligned, padded
with spaces. -/
def padLeft (width : Nat) (s : CStr) : CStr :=
  List.replicate (width - s.length) ' ' ++ s

/-- Lines 120-121: the text `seta` shown after `ETA`. -/
def progress_seta (value max elapsed : Int) : Option CStr :=
  (progress_eta value max elapsed).bind strftimeHMS

/-- Lines 104-125: the status text; `none` when computing it traps (the
division at line 113, or `strftime` on the `NULL` of a failed `gmtime` at
lines 118 and 121). -/
def progress_status (value max elapsed : Int) : Option CStr :=
  let number_width := (fmtInt max).length
  match progress_eta value max elapsed with
  | none => none
  | some eta =>
    match strftimeHMS elapsed with
    | none => none
    | some selapsed =>
      match strftimeHMS eta with
      | none => none
      | some seta =>
        some (" ".toList ++ padLeft number_width (fmtInt value) ++ "/".toList ++ fmtInt max
          ++ " Elapsed ".toList ++ selapsed ++ " ETA ".toList ++ seta)

/-- Conversion of an integer value to `size_t` (64-bit, unsigned). -/
def toSize (x : Int) : Nat := (x % 2 ^ 64).toNat

/-- Lines 133 and 138: `_termSize.w - 2 - status_text_size`, where the `int`
`_termSize.w - 2` is converted to `size_t` for the subtraction. -/
def progress_barWidth (w : Int) (statusLen : Nat) : Nat := toSize (w - 2 - statusLen)

/-- Line 133: `int width = (value * (_termSize.w - 2 - status_text_size)) / max`:
`value` and `max` are converted to `size_t`, the product and the quotient are
computed in `size_t`, and the quotient is converted to `int`; `none` when the
division traps. -/
def progress_width (value max w : Int) (statusLen : Nat) : Option Int :=
  if toSize max = 0 then none
  else some (toInt ((toSize value * progress_barWidth w statusLen) % 2 ^ 64 / toSize max))

/-- Number of rounds of `for(int i = 0; i < bound; i++)` for a `size_t` bound:
`none` when the counter `i` would pass the largest `int` first. -/
def loopCount (bound : Nat) : Option Nat := if bound < 2 ^ 31 then some bound else none

/-- Line 132: the text of `printf("\e[%dD", 1000)`. -/
def cursorLeft : CStr := ['\x1b', '[', '1', '0', '0', '0', 'D']

/-- Lines 134-141: the line `progress` prints for a status text, at terminal
width `w`: `[`, `width` block glyphs (none when `width` is negative), the
spaces of the second loop, `]` and the status text. -/
def progress_bar (value max w : Int) (status : CStr) : Option CStr :=
  match progress_width value max w status.length with
  | none => none
  | some width =>
    match loopCount (toSize ((progress_barWidth w status.length : Int) - width)) with
    | none => none
    | some spaces =>
      some (['['] ++ List.replicate width.toNat '█' ++ List.replicate spaces ' ' ++ [']']
        ++ status)

/-- Lines 99-143: everything one call of `progress` writes, at terminal width
`w`; `none` when the call does not complete. -/
def progress (w value max elapsed : Int) : Option CStr :=
  match progress_status value max elapsed with
  | none => none
  | some status => (progress_bar value max w status).map (fun line => cursorLeft ++ line)

/-- Lines 179-205: the terminal size. `tty = none`: `/dev/tty` cannot be
opened; `some none`: the `ioctl` fails; `some (some (col, row))`: the window
size the terminal reports in the two `unsigned short` fields `ws_col` and
`ws_row`. The result is `(w, h)`. -/
def termSize (tty : Option (Option (Nat × Nat))) : Int × Int :=
  match tty with
  | none => (80, 25)
  | some none => (80, 25)
  | some (some (col, row)) =>
    (if (0 : Int) ≤ ((col % 2 ^ 16 : Nat) : Int) then ((col % 2 ^ 16 : Nat) : Int) else 80,
     if (0 : Int) ≤ ((row % 2 ^ 16 : Nat) : Int) then ((row % 2 ^ 16 : Nat) : Int) else 25)

/-- The value of `_termSize.w` when the `k`-th reading of the clock is used. -/
def termWidth {σ : Type} (sys : Sys σ) (k : Nat) : Int := (termSize (sys.tty k)).1

/-! ## recursiveDelete (lines 145-177) -/

/-- Lines 168-174 after `currentCount++`: read the clock and call `progress`
when more than one second passed since the last render. The call is recorded
in the trace when it is made. The result is the new `lastProgress`, or `none`
when the call of `progress` does not return. -/
def deleteTick {σ : Type} (sys : Sys σ) (count : Nat) (startTime lastProgress : Int)
    (currentCount : Nat) (w : World σ) : Option Int × World σ :=
  let r := w.now sys
  if r.1 - lastProgress > 1 then
    ((progress (termWidth sys w.ticks) (toInt currentCount) (toInt count)
        (r.1 - startTime)).map (fun _ => r.1),
      r.2.emit (.progress (toInt currentCount) (toInt count) (r.1 - startTime)))
  else
    (some lastProgress, r.2)

/-- Lines 153-175: the `for` loop over the entries still to be removed. The
result is the returned `bool`, or `none` when a call of `progress` did not
return, and the world at that moment. -/
def deleteLoop {σ : Type} (sys : Sys σ) (count : Nat) (startTime : Int) :
    List File → Int → Nat → World σ → Option Bool × World σ
  | [], _, _, w => (some true, w)
  | f :: rest, lastProgress, currentCount, w =>
    if f.isDir then
      let r := sys.rmdir f.filename w.fs
      let w := ({ w with fs := r.2 }).emit (.rmdir f.filename r.1)
      if r.1 ≠ 0 then (some false, w.emit (.perror "rmdir".toList))
      else
        match deleteTick sys count startTime lastProgress (currentCount + 1) w with
        | (none, w) => (none, w)
        | (some last, w) => deleteLoop sys count startTime rest last (currentCount + 1) w
    else
      let r := sys.unlink f.filename w.fs
      let w := ({ w with fs := r.2 }).emit (.unlink f.filename r.1)
      if r.1 ≠ 0 then (some false, w.emit (.perror "unlink".toList))
      else
        match deleteTick sys count startTime lastProgress (currentCount + 1) w with
        | (none, w) => (none, w)
        | (some last, w) => deleteLoop sys count startTime rest last (currentCount + 1) w

/-- Lines 145-177. -/
def recursiveDelete {σ : Type} (sys : Sys σ) (lst : FileList) (startTime : Int)
    (w : World σ) : Option Bool × World σ :=
  deleteLoop sys lst.count startTime lst.files startTime 0 (w.emit (.stdout "\n".toList))

/-! ## main (lines 221-253) -/

/-- The text printed by `usage`. -/
def usageText (program : CStr) : CStr :=
  "Usage: ".toList ++ program ++ " <filename>\n".toList

/-- The state `main` hands to the scan: `lst = {0}`, `lastProgress = 0`, after
printing the `Scanning` line. -/
def scanStart {σ : Type} (path : CStr) (w : World σ) : Scan σ :=
  { fl := { files := [], count := 0 }, lastProgress := 0,
    world := w.emit (.stdout ("Scanning \"".toList ++ path ++ "\"\n".toList)) }

/-- The line `Total files: <count>` printed after the scan (line 242). -/
def totalText (count : Nat) : CStr :=
  "\nTotal files: ".toList ++ Nat.toDigits 10 count ++ "\n".toList

/-- Line 250: the forced call `progress(lst.count, lst.count, time(NULL) -
startTime)` and the `return 0` that follows it when the call returns. -/
def finalRender {σ : Type} (sys : Sys σ) (count : Nat) (startTime : Int) (w : World σ) :
    Option Int × World σ :=
  let fin := w.now sys
  ((progress (termWidth sys w.ticks) (toInt count) (toInt count) (fin.1 - startTime)).map
      (fun _ => 0),
    fin.2.emit (.progress (toInt count) (toInt count) (fin.1 - startTime)))

/-- Lines 242-252 of `main`: what follows a successful scan that left the
state `s`. The result is the exit code, or `none` when a call of `progress`
did not return, and the final world. -/
def deletePhase {σ : Type} (sys : Sys σ) (s : Scan σ) : Option Int × World σ :=
  let w := s.world.emit (.stdout (totalText s.fl.count))
  let start := w.now sys
  match recursiveDelete sys s.fl start.1 start.2 with
  | (none, w) => (none, w)
  | (some false, w) => (some 1, w)
  | (some true, w) => finalRender sys s.fl.count start.1 w

/-- Lines 221-253. `program` is `argv[0]`, `args` are the remaining
arguments (`argc = args.length + 1`), `tree` is what the directory reader
reports at `argv[1]`. The result is the exit code, or `none` when the process
did not reach a `return` of `main` because a call of `progress` did not
return, and the final world. -/
def main {σ : Type} (sys : Sys σ) (tree : Node) (program : CStr) (args : List CStr)
    (w : World σ) : Option Int × World σ :=
  match args with
  | [path] =>
    match loadFileList sys path tree (scanStart path w) with
    | (false, s) => (some 1, s.world)
    | (true, s) => deletePhase sys s
  | _ => (some 1, w.emit (.stdout (usageText program)))

/-! ## Notions used to state the properties -/

/-- Whether `opendir` succeeds on the node (it fails on a non-directory). -/
def Node.opens : Node → Bool
  | .dir true _ => true
  | _ => false

/-- One step down the tree: `Child (p, d) (q, n)` says that `d`, opened at
path `p`, reports the entry `n` under a name other than `.` and `..`, and that
`q` is the path the scan builds for that entry. -/
inductive Child : CStr × Node → CStr × Node → Prop
  | mk (p : CStr) (es : List (CStr × Node)) (name : CStr) (n : Node) :
      (name, n) ∈ es → notPseudo name = true →
      Child (p, Node.dir true es) (childPath p name, n)

/-- The node `x` (with its path) is the root or lies below it. -/
def InTree (root x : CStr × Node) : Prop := Relation.ReflTransGen Child root x

/-- The node `x` (with its path) is a strict descendant of `d`. -/
def Desc (d x : CStr × Node) : Prop := Relation.TransGen Child d x

mutual
/-- Number of files and directories reachable from a node, the node included,
the `.` and `..` pseudo-entries excluded. -/
def entryCount : Node → Nat
  | .file => 1
  | .dir false _ => 1
  | .dir true es => 1 + entriesCount es
/-- Number of files and directories reachable through a list of entries. -/
def entriesCount : List (CStr × Node) → Nat
  | [] => 0
  | (name, n) :: rest => (if notPseudo name then entryCount n else 0) + entriesCount rest
end

mutual
/-- The clock-free content of `loadFileList`: the returned flag and the
entries it appends, in order. -/
def scanFiles (path : CStr) : Node → Bool × List File
  | .dir true es =>
    match scanEntries path es with
    | (false, fs) => (false, fs)
    | (true, fs) => (true, fs ++ [{ filename := path, isDir := true }])
  | _ => (false, [])
/-- The clock-free content of `readdirLoop`. -/
def scanEntries (path : CStr) : List (CStr × Node) → Bool × List File
  | [] => (true, [])
  | (d_name, node) :: rest =>
    if notPseudo d_name then
      if node.isDir then
        match scanFiles (childPath path d_name) node with
        | (false, fs) => (false, fs)
        | (true, fs) => ((scanEntries path rest).1, fs ++ (scanEntries path rest).2)
      else
        ((scanEntries path rest).1,
          { filename := childPath path d_name, isDir := node.isDir } :: (scanEntries path rest).2)
    else scanEntries path rest
end

/-- The entries the scan appends for one directory entry: the subtree's
entries for a directory, the single file entry otherwise. -/
def entryPlan (q : CStr) (n : Node) : List File :=
  if n.isDir then (scanFiles q n).2 else [{ filename := q, isDir := n.isDir }]

/-- An unlink or rmdir call. -/
def Event.isRemoval : Event → Bool
  | .unlink _ _ => true
  | .rmdir _ _ => true
  | _ => false

/-- An action of the scan on the directory reader or on the plan. -/
def Event.isScan : Event → Bool
  | .opendir _ _ => true
  | .closedir _ => true
  | .add _ => true
  | _ => false

/-- A closedir call. -/
def Event.isClosedir : Event → Bool
  | .closedir _ => true
  | _ => false

/-- The events of a scan that has not failed: successful opens, closes,
appends, clock readings and counter prints. -/
def Event.scanQuiet : Event → Bool
  | .opendir _ ok => ok
  | .closedir _ => true
  | .add _ => true
  | .time _ => true
  | .scanProgress _ => true
  | _ => false

/-- The entries appended to the plan, read off a trace. -/
def addsOf : List Event → List File
  | [] => []
  | .add f :: t => f :: addsOf t
  | _ :: t => addsOf t

/-- The three events of a failed `opendir` on `q`. -/
def failEvents (q : CStr) : List Event :=
  [.opendir q false, .perror "opendir".toList, .stderr (pathDiagnostic q)]

/-- The removal primitive `recursiveDelete` uses for an entry. -/
def prim {σ : Type} (sys : Sys σ) (f : File) (st : σ) : Int × σ :=
  if f.isDir then sys.rmdir f.filename st else sys.unlink f.filename st

/-- The trace event of the removal call for an entry. -/
def primEvent (f : File) (ret : Int) : Event :=
  if f.isDir then .rmdir f.filename ret else .unlink f.filename ret

/-- Every removal primitive of the list, called in order from state `st`,
reports success. -/
def PrimsSucceed {σ : Type} (sys : Sys σ) : List File → σ → Prop
  | [], _ => True
  | f :: rest, st => (prim sys f st).1 = 0 ∧ PrimsSucceed sys rest (prim sys f st).2

/-- The state after the removal primitives of the list were called in order. -/
def fsAfter {σ : Type} (sys : Sys σ) : List File → σ → σ
  | [], st => st
  | f :: rest, st => fsAfter sys rest (prim sys f st).2

/-- What reaches standard error, given the message `strerror(errno)` that
`perror` appends. -/
def stderrText (errmsg : CStr) : List Event → CStr
  | [] => []
  | .perror s :: t => s ++ ": ".toList ++ errmsg ++ "\n".toList ++ stderrText errmsg t
  | .stderr text :: t => text ++ stderrText errmsg t
  | _ :: t => stderrText errmsg t

/-! ## A model filesystem -/

/-- The existing entries: path and whether the entry is a directory. -/
abbrev ModelFS := List (CStr × Bool)

/-- The path of a directory with its separator, as paths below it start. -/
def dirBase (d : CStr) : CStr := childPath d []

/-- The path `r` lies below the directory `d`. -/
def inside (d r : CStr) : Prop := dirBase d <+: r ∧ dirBase d ≠ r

instance (d r : CStr) : Decidable (inside d r) := by
  unfold inside; exact inferInstance

/-- The model `unlink`: succeeds exactly on an existing non-directory entry,
which it removes. -/
def modelUnlink (p : CStr) (fs : ModelFS) : Int × ModelFS :=
  if (p, false) ∈ fs then (0, fs.filter (fun e => decide (e ≠ (p, false)))) else (-1, fs)

/-- The model `rmdir`: succeeds exactly on an existing directory below which
no entry remains, and removes it. -/
def modelRmdir (p : CStr) (fs : ModelFS) : Int × ModelFS :=
  if (p, true) ∈ fs ∧ ∀ e ∈ fs, ¬ inside p e.1 then
    (0, fs.filter (fun e => decide (e ≠ (p, true))))
  else (-1, fs)

/-- The model filesystem as removal primitives, with any clock. -/
def modelSys (time : Nat → Int) (tty : Nat → Option (Option (Nat × Nat))) : Sys ModelFS :=
  { time := time, unlink := modelUnlink, rmdir := modelRmdir, tty := tty }

mutual
/-- The filesystem entries of a tree placed at `path`. -/
def treeEntries (path : CStr) : Node → List (CStr × Bool)
  | .file => [(path, false)]
  | .dir _ es => (path, true) :: childEntries path es
/-- The filesystem entries below a directory placed at `path`. -/
def childEntries (path : CStr) : List (CStr × Node) → List (CStr × Bool)
  | [] => []
  | (name, n) :: rest =>
    (if notPseudo name then treeEntries (childPath path name) n else [])
      ++ childEntries path rest
end

/-- A name a directory reader can report for a real entry: not empty and
without `/`. -/
def validName (name : CStr) : Bool := decide (name ≠ []) && decide ('/' ∉ name)

mutual
/-- Every directory can be opened, entry names are valid and sibling names are
distinct (the pseudo-entries and what is attached to them are ignored). -/
def Node.wf : Node → Bool
  | .file => true
  | .dir o es => o && wfEntries es
/-- Well-formedness of the entries of one directory. -/
def wfEntries : List (CStr × Node) → Bool
  | [] => true
  | (name, n) :: rest =>
    (if notPseudo name then
        validName name && n.wf && rest.all (fun e => decide (e.1 ≠ name))
      else true) && wfEntries rest
end

/-! ## Notions used in the proofs -/


/-- How a stretch of the scan changes the state: `t` is what it adds to the
trace; the removal state is untouched, and the plan and its `count` grow by
exactly the entries whose `add` events are in `t`. -/
structure ScanRel {σ : Type} (s s' : Scan σ) (t : List Event) : Prop where
  trace : s'.world.trace = s.world.trace ++ t
  fs : s'.world.fs = s.world.fs
  files : s'.fl.files = s.fl.files ++ addsOf t
  count : s'.fl.count = s.fl.count + (addsOf t).length

/-- The trace of a failed scan: uneventful up to the failed `opendir` on `q`,
its two diagnostics, and then only `closedir` calls. -/
def FailShape (t : List Event) (q : CStr) : Prop :=
  ∃ pre cl, t = pre ++ failEvents q ++ cl ∧ (∀ e ∈ pre, e.scanQuiet = true) ∧
    (∀ e ∈ cl, e.isClosedir = true)

/-- The node `x` is one on which the scan started at `root` calls `opendir`
(the root itself, or an entry reported as a directory) and `opendir` fails. -/
def Unopenable (root x : CStr × Node) : Prop :=
  InTree root x ∧ x.2.opens = false ∧ (x = root ∨ x.2.isDir = true)

/-- What one call of `loadFileList` does, in terms of the trace it adds. -/
def LoadSpec {σ : Type} (sys : Sys σ) (path : CStr) (n : Node) (s : Scan σ) : Prop :=
  ∃ t, ScanRel s (loadFileList sys path n s).2 t ∧
    (loadFileList sys path n s).1 = (scanFiles path n).1 ∧
    addsOf t = (scanFiles path n).2 ∧
    ((loadFileList sys path n s).1 = true → ∀ e ∈ t, e.scanQuiet = true) ∧
    ((loadFileList sys path n s).1 = false →
      ∃ x, Unopenable (path, n) x ∧ FailShape t x.1)

/-- What the `readdir` loop does on the entries still to be read. -/
def LoopSpec {σ : Type} (sys : Sys σ) (path : CStr) (es : List (CStr × Node))
    (s : Scan σ) : Prop :=
  ∃ t, ScanRel s (readdirLoop sys path es s).2 t ∧
    (readdirLoop sys path es s).1 = (scanEntries path es).1 ∧
    addsOf t = (scanEntries path es).2 ∧
    ((readdirLoop sys path es s).1 = true → ∀ e ∈ t, e.scanQuiet = true) ∧
    ((readdirLoop sys path es s).1 = false →
      ∃ name n x, (name, n) ∈ es ∧ notPseudo name = true ∧ n.isDir = true ∧
        Unopenable (childPath path name, n) x ∧ FailShape t x.1)

/-- The events the delete phase can produce. -/
def Event.isDelete : Event → Bool
  | .time _ => true
  | .progress _ _ _ => true
  | .unlink _ _ => true
  | .rmdir _ _ => true
  | .perror _ => true
  | _ => false

/-- The world in which `recursiveDelete` is called after a scan that left the
state `s`: the `Total files` line is printed and `startTime` is read. -/
def deleteStart {σ : Type} (sys : Sys σ) (s : Scan σ) : World σ :=
  ((s.world.emit (.stdout (totalText s.fl.count))).now sys).2

/-- A removal call without the value it returned. -/
def Event.withoutResult : Event → Event
  | .unlink p _ => .unlink p 0
  | .rmdir p _ => .rmdir p 0
  | e => e

/-- The name `recursiveDelete` passes to `perror` for an entry. -/
def primName (f : File) : CStr := if f.isDir then "rmdir".toList else "unlink".toList

/-- The world after the removal call for the entry `f`: the primitive has
acted on the state and the call is in the trace (lines 155 and 161). -/
def afterPrim {σ : Type} (sys : Sys σ) (f : File) (w : World σ) : World σ :=
  ({ w with fs := (prim sys f w.fs).2 }).emit (primEvent f (prim sys f w.fs).1)

/-- Whether the primitives succeed can be computed by running them. -/
def PrimsSucceed.dec {σ : Type} (sys : Sys σ) :
    ∀ (files : List File) (st : σ), Decidable (PrimsSucceed sys files st)
  | [], _ => isTrue trivial
  | f :: rest, st =>
    match decEq (prim sys f st).1 0, PrimsSucceed.dec sys rest (prim sys f st).2 with
    | isTrue h1, isTrue h2 => isTrue ⟨h1, h2⟩
    | isFalse h1, _ => isFalse (fun h => h1 h.1)
    | _, isFalse h2 => isFalse (fun h => h2 h.2)

instance {σ : Type} (sys : Sys σ) (files : List File) (st : σ) :
    Decidable (PrimsSucceed sys files st) := PrimsSucceed.dec sys files st

/-- The path `r` is `b ++ name` or lies below it: `b` is the path of a
directory with its separator and `name` the name of one of its entries. -/
def Under (b name r : CStr) : Prop := r = b ++ name ∨ ∃ t, r = b ++ name ++ '/' :: t

/-! ## Concrete inputs -/

/-- The directory `a` of the scenario: file `b.txt` and empty directory `c`,
with the pseudo-entries the reader reports. -/
def demoTree : Node :=
  .dir true [(dot, .dir true []), (dotdot, .dir true []), ("b.txt".toList, .file),
    ("c".toList, .dir true [(dot, .dir true []), (dotdot, .dir true [])])]

/-- The plan of the scenario. -/
def demoPlan : List File :=
  [⟨"a/b.txt".toList, false⟩, ⟨"a/c".toList, true⟩, ⟨"a".toList, true⟩]

/-- A terminal of 80 columns and 25 rows. -/
def tty80 : Nat → Option (Option (Nat × Nat)) := fun _ => some (some (80, 25))

/-- Primitives that always succeed; the clock advances one second per reading;
a terminal of 80 columns. -/
def okSys : Sys Unit :=
  { time := fun k => k, unlink := fun _ s => (0, s), rmdir := fun _ s => (0, s),
    tty := tty80 }

/-- Primitives that always succeed; the clock advances two seconds per
reading; a terminal of 80 columns. -/
def slowSys : Sys Unit :=
  { time := fun k => 2 * k, unlink := fun _ s => (0, s), rmdir := fun _ s => (0, s),
    tty := tty80 }

/-- A world with an empty trace. -/
def emptyWorld {σ : Type} (fs : σ) : World σ := { fs := fs, ticks := 0, trace := [] }

/-- The scan of the scenario, started as `main` starts it. -/
def demoScan : Bool × Scan Unit :=
  loadFileList okSys "a".toList demoTree (scanStart "a".toList (emptyWorld ()))

/-- A five-entry plan. -/
def fivePlan : List File :=
  [⟨"d/1".toList, false⟩, ⟨"d/2".toList, false⟩, ⟨"d/3".toList, false⟩,
   ⟨"d/4".toList, false⟩, ⟨"d".toList, true⟩]

/-- Primitives of which the third call fails: the state counts the calls. -/
def thirdFails : Sys Nat :=
  { time := fun k => k,
    unlink := fun _ k => (if k = 2 then -1 else 0, k + 1),
    rmdir := fun _ k => (if k = 2 then -1 else 0, k + 1),
    tty := tty80 }

/-- A tree with an unopenable directory: `a` holds the empty directory `x`,
the directory `y` that cannot be opened, and the file `z`. -/
def lockedTree : Node :=
  .dir true [("x".toList, .dir true []), ("y".toList, .dir false []), ("z".toList, .file)]

/-- The scan of `lockedTree`, started as `main` starts it. -/
def lockedScan : Bool × Scan Unit :=
  loadFileList okSys "a".toList lockedTree (scanStart "a".toList (emptyWorld ()))


/-- A directory `a` holding the single file `b.txt`. -/
def oneFileTree : Node := .dir true [("b.txt".toList, .file)]

/-- Primitives whose `unlink` always fails. -/
def unlinkFails : Sys Unit :=
  { time := fun k => k, unlink := fun _ s => (-1, s), rmdir := fun _ s => (0, s),
    tty := tty80 }

/-- The message `strerror(EACCES)`. -/
def eacces : CStr := "Permission denied".toList

/-- A model filesystem holding the scenario's tree at `a` and one file outside
of it. -/
def demoFS : ModelFS := treeEntries "a".toList demoTree ++ [("z".toList, false)]

/-- The scan of the scenario on the model filesystem. -/
def demoModelScan : Bool × Scan ModelFS :=
  loadFileList (modelSys (fun k => k) tty80) "a".toList demoTree
    (scanStart "a".toList (emptyWorld demoFS))

/-! ## Further notions and inputs -/

/-- Line 62: the size of the buffer allocated for a child path,
`strlen(path) + entry->d_namlen + 2`, where `d_namlen` is the length of
`d_name`. -/
def filenameSize (path d_name : CStr) : Nat := path.length + d_name.length + 2

/-- An empty directory as the reader reports it: only `.` and `..`. -/
def emptyDir : Node := .dir true [(dot, .dir true []), (dotdot, .dir true [])]

/-- The entries of a directory holding `k` files named `f0`, `f1`, ..., with
the pseudo-entries the reader reports. -/
def wideEntries : Nat → List (CStr × Node)
  | 0 => [(dot, .dir true []), (dotdot, .dir true [])]
  | k + 1 => ('f' :: Nat.toDigits 10 k, Node.file) :: wideEntries k

/-- A directory holding `k` files and nothing else. -/
def wideTree (k : Nat) : Node := .dir true (wideEntries k)

/-- The wall-clock timestamps of the renders of a trace: a render (the counter
printed by the scan, lines 86-87, or a call of `progress`) is stamped with the
latest reading of the clock, `now` at lines 84 and 169; `now` is the reading
in force when the trace starts. -/
def renderTimesAux (now : Int) : List Event → List Int
  | [] => []
  | .time t :: rest => renderTimesAux t rest
  | .scanProgress _ :: rest => now :: renderTimesAux now rest
  | .progress _ _ _ :: rest => now :: renderTimesAux now rest
  | _ :: rest => renderTimesAux now rest

/-- The timestamps of the renders of a trace in which every render follows a
reading of the clock. -/
def renderTimes (t : List Event) : List Int := renderTimesAux 0 t

/-- The throttle invariant of a piece of trace `t` that starts with the
last-render timestamp `last` and ends with `last1`: every render follows a
reading of the clock made in `t`, each render is stamped more than one second
after the previous value of the last-render timestamp, and the final value is
the stamp of the last render (the initial value when there is none). -/
structure Throttled (last : Int) (t : List Event) (last1 : Int) : Prop where
  indep : ∀ now, renderTimesAux now t = renderTimes t
  chain : List.Chain (fun a b => b - a > 1) last (renderTimes t)
  final : last1 = (renderTimes t).getLastD last

/-- The scan went from state `s` to state `s1` adding a piece of trace that
satisfies the throttle invariant. -/
def ScanThrottled {σ : Type} (s s1 : Scan σ) : Prop :=
  ∃ t, s1.world.trace = s.world.trace ++ t ∧ Throttled s.lastProgress t s1.lastProgress

mutual
/-- Entry names are legal (not empty, without `/`) and sibling names are
pairwise distinct, in every directory of the tree (the pseudo-entries and what
is attached to them are ignored). -/
def Node.namesOk : Node → Bool
  | .file => true
  | .dir _ es => namesOkEntries es
/-- The condition on names for the entries of one directory. -/
def namesOkEntries : List (CStr × Node) → Bool
  | [] => true
  | (name, n) :: rest =>
    (if notPseudo name then
        validName name && n.namesOk && rest.all (fun e => decide (e.1 ≠ name))
      else true) && namesOkEntries rest
end

/-- Two listings of the same tree that differ only in the order in which the
reader yields the entries of each directory: the relation generated by
exchanging two adjacent entries of a directory (`swap`) and by relating the
listings entry by entry (`cons`: the first entries have the same name and
related listings, the remaining entries form related listings). -/
inductive SameTree : Node → Node → Prop
  | refl (n : Node) : SameTree n n
  | swap (o : Bool) (a b : CStr × Node) (es : List (CStr × Node)) :
      SameTree (.dir o (a :: b :: es)) (.dir o (b :: a :: es))
  | cons (o : Bool) (name : CStr) {n n1 : Node} {es es1 : List (CStr × Node)} :
      SameTree n n1 → SameTree (.dir o es) (.dir o es1) →
      SameTree (.dir o ((name, n) :: es)) (.dir o ((name, n1) :: es1))
  | trans {a b c : Node} : SameTree a b → SameTree b c → SameTree a c

/-- The directory of the scenario listed in another order: `c` before `b.txt`,
and inside `c` the entry `..` before `.`. -/
def demoTreeSwapped : Node :=
  .dir true [(dot, .dir true []), (dotdot, .dir true []),
    ("c".toList, .dir true [(dotdot, .dir true []), (dot, .dir true [])]),
    ("b.txt".toList, .file)]

/-- The model filesystem with a clock that advances two seconds per reading
and a terminal of 80 columns. -/
def slowModelSys : Sys ModelFS := modelSys (fun k => 2 * k) tty80

/-- The model filesystem that holds the directory `d` with `k` files, and
nothing else. -/
def wideFS (k : Nat) : ModelFS := treeEntries "d".toList (wideTree k)

/-- The scan of `d` on that filesystem, started as `main` starts it. -/
def wideModelScan (k : Nat) : Bool × Scan ModelFS :=
  loadFileList slowModelSys "d".toList (wideTree k)
    (scanStart "d".toList (emptyWorld (wideFS k)))

/-- The call of `recursiveDelete` that `main` makes on the result of this
scan (lines 245-246). -/
def wideModelRun (k : Nat) : Option Bool × World ModelFS :=
  recursiveDelete slowModelSys (wideModelScan k).2.fl
    (slowModelSys.time (wideModelScan k).2.world.ticks)
    (deleteStart slowModelSys (wideModelScan k).2)

/-! ## Basic facts -/

theorem FileList_Add_files (l : FileList) (f : File) :
    (FileList_Add l f).files = l.files ++ [f] := by
  unfold FileList_Add
  cases h : l.files <;> simp

theorem FileList_Add_count (l : FileList) (f : File) :
    (FileList_Add l f).count = l.count + 1 := by
  unfold FileList_Add
  cases h : l.files <;> simp

theorem addsOf_append (t u : List Event) : addsOf (t ++ u) = addsOf t ++ addsOf u := by
  induction t with
  | nil => simp [addsOf]
  | cons e t ih => cases e <;> simp [addsOf, ih]

theorem ScanRel.refl {σ : Type} (s : Scan σ) : ScanRel s s [] :=
  ⟨by simp, rfl, by simp [addsOf], by simp [addsOf]⟩

theorem ScanRel.trans {σ : Type} {s s' s'' : Scan σ} {t u : List Event}
    (h : ScanRel s s' t) (h' : ScanRel s' s'' u) : ScanRel s s'' (t ++ u) :=
  ⟨by rw [h'.trace, h.trace, List.append_assoc], by rw [h'.fs, h.fs],
   by rw [h'.files, h.files, addsOf_append, List.append_assoc],
   by rw [h'.count, h.count, addsOf_append, List.length_append, Nat.add_assoc]⟩

theorem ScanRel.emit {σ : Type} (s : Scan σ) (e : Event) (he : addsOf [e] = []) :
    ScanRel s { s with world := s.world.emit e } [e] :=
  ⟨rfl, rfl, by simp [he], by simp [he]⟩

theorem ScanRel.add {σ : Type} (s : Scan σ) (f : File) : ScanRel s (s.add f) [Event.add f] :=
  ⟨rfl, rfl, by simp [Scan.add, FileList_Add_files, addsOf],
   by simp [Scan.add, FileList_Add_count, addsOf]⟩

theorem scanTick_rel {σ : Type} (sys : Sys σ) (s : Scan σ) :
    ∃ t, ScanRel s (scanTick sys s) t ∧ addsOf t = [] ∧ ∀ e ∈ t, e.scanQuiet = true := by
  unfold scanTick
  by_cases h : (s.world.now sys).1 - s.lastProgress > 1
  · refine ⟨[Event.time (sys.time s.world.ticks), Event.scanProgress s.fl.count], ?_, ?_, ?_⟩
    · simp only [h, if_true]
      exact ⟨by simp [World.now, World.emit], rfl, by simp [addsOf], by simp [addsOf]⟩
    · simp [addsOf]
    · intro e he
      simp at he
      rcases he with rfl | rfl <;> rfl
  · refine ⟨[Event.time (sys.time s.world.ticks)], ?_, ?_, ?_⟩
    · simp only [h, if_false]
      exact ⟨by simp [World.now], rfl, by simp [addsOf], by simp [addsOf]⟩
    · simp [addsOf]
    · intro e he
      simp at he
      subst he; rfl

theorem FailShape.prepend {t0 t : List Event} {q : CStr}
    (h0 : ∀ e ∈ t0, e.scanQuiet = true) (h : FailShape t q) : FailShape (t0 ++ t) q := by
  obtain ⟨pre, cl, rfl, hp, hc⟩ := h
  refine ⟨t0 ++ pre, cl, by simp [List.append_assoc], ?_, hc⟩
  intro e he
  rcases List.mem_append.1 he with h | h
  · exact h0 e h
  · exact hp e h

theorem FailShape.close {t : List Event} {q : CStr} (h : FailShape t q) (p : CStr) :
    FailShape (t ++ [Event.closedir p]) q := by
  obtain ⟨pre, cl, rfl, hp, hc⟩ := h
  refine ⟨pre, cl ++ [Event.closedir p], by simp [List.append_assoc], hp, ?_⟩
  intro e he
  rcases List.mem_append.1 he with h | h
  · exact hc e h
  · simp at h; subst h; rfl

theorem FailShape.here (q : CStr) : FailShape (failEvents q) q :=
  ⟨[], [], by simp, by simp, by simp⟩

theorem openFailed_rel {σ : Type} (s : Scan σ) (path : CStr) :
    ScanRel s { s with world := openFailed path s.world } (failEvents path) :=
  ⟨by simp [openFailed, World.emit, failEvents], rfl, by simp [failEvents, addsOf],
   by simp [failEvents, addsOf]⟩

theorem Unopenable.lift {p : CStr} {es : List (CStr × Node)} {name : CStr} {n : Node}
    {x : CStr × Node} (hmem : (name, n) ∈ es) (hn : notPseudo name = true)
    (hd : n.isDir = true) (h : Unopenable (childPath p name, n) x) :
    Unopenable (p, Node.dir true es) x := by
  obtain ⟨htree, hop, hatt⟩ := h
  refine ⟨Relation.ReflTransGen.head (Child.mk p es name n hmem hn) htree, hop, Or.inr ?_⟩
  rcases hatt with rfl | h
  · exact hd
  · exact h

/-! ### One-step unfoldings of the scan -/

theorem readdirLoop_pseudo {σ : Type} (sys : Sys σ) (path name : CStr) (n : Node)
    (rest : List (CStr × Node)) (s : Scan σ) (hn : notPseudo name = false) :
    readdirLoop sys path ((name, n) :: rest) s = readdirLoop sys path rest (scanTick sys s) := by
  rw [readdirLoop]; simp [hn]

theorem readdirLoop_file {σ : Type} (sys : Sys σ) (path name : CStr) (n : Node)
    (rest : List (CStr × Node)) (s : Scan σ) (hn : notPseudo name = true)
    (hd : n.isDir = false) :
    readdirLoop sys path ((name, n) :: rest) s =
      readdirLoop sys path rest
        (scanTick sys (s.add { filename := childPath path name, isDir := false })) := by
  rw [readdirLoop]; simp [hn, hd]

theorem readdirLoop_dir_fail {σ : Type} (sys : Sys σ) (path name : CStr) (n : Node)
    (rest : List (CStr × Node)) (s s1 : Scan σ) (hn : notPseudo name = true)
    (hd : n.isDir = true) (h : loadFileList sys (childPath path name) n s = (false, s1)) :
    readdirLoop sys path ((name, n) :: rest) s =
      (false, { s1 with world := s1.world.emit (.closedir path) }) := by
  rw [readdirLoop]; simp [hn, hd, h]

theorem readdirLoop_dir_ok {σ : Type} (sys : Sys σ) (path name : CStr) (n : Node)
    (rest : List (CStr × Node)) (s s1 : Scan σ) (hn : notPseudo name = true)
    (hd : n.isDir = true) (h : loadFileList sys (childPath path name) n s = (true, s1)) :
    readdirLoop sys path ((name, n) :: rest) s =
      readdirLoop sys path rest (scanTick sys s1) := by
  rw [readdirLoop]; simp [hn, hd, h]

theorem scanEntries_pseudo (path name : CStr) (n : Node) (rest : List (CStr × Node))
    (hn : notPseudo name = false) :
    scanEntries path ((name, n) :: rest) = scanEntries path rest := by
  rw [scanEntries]; simp [hn]

theorem scanEntries_file (path name : CStr) (n : Node) (rest : List (CStr × Node))
    (hn : notPseudo name = true) (hd : n.isDir = false) :
    scanEntries path ((name, n) :: rest) =
      ((scanEntries path rest).1,
        { filename := childPath path name, isDir := false } :: (scanEntries path rest).2) := by
  rw [scanEntries]; simp [hn, hd]

theorem scanEntries_dir_fail (path name : CStr) (n : Node) (rest : List (CStr × Node))
    (hn : notPseudo name = true) (hd : n.isDir = true)
    (h : (scanFiles (childPath path name) n).1 = false) :
    scanEntries path ((name, n) :: rest) = (false, (scanFiles (childPath path name) n).2) := by
  rw [scanEntries]
  cases hp : scanFiles (childPath path name) n with
  | mk ok fs =>
    rw [hp] at h
    simp only at h
    subst h
    simp [hn, hd]

theorem scanEntries_dir_ok (path name : CStr) (n : Node) (rest : List (CStr × Node))
    (hn : notPseudo name = true) (hd : n.isDir = true)
    (h : (scanFiles (childPath path name) n).1 = true) :
    scanEntries path ((name, n) :: rest) =
      ((scanEntries path rest).1,
        (scanFiles (childPath path name) n).2 ++ (scanEntries path rest).2) := by
  rw [scanEntries]
  cases hp : scanFiles (childPath path name) n with
  | mk ok fs =>
    rw [hp] at h
    simp only at h
    subst h
    simp [hn, hd]

theorem loadFileList_open_fail {σ : Type} (sys : Sys σ) (path : CStr) (n : Node) (s : Scan σ)
    (h : n.opens = false) :
    loadFileList sys path n s = (false, { s with world := openFailed path s.world }) := by
  cases n with
  | file => simp [loadFileList]
  | dir o es =>
    cases o with
    | false => simp [loadFileList]
    | true => simp [Node.opens] at h

theorem loadFileList_loop_fail {σ : Type} (sys : Sys σ) (path : CStr)
    (es : List (CStr × Node)) (s s1 : Scan σ)
    (h : readdirLoop sys path es { s with world := s.world.emit (.opendir path true) }
      = (false, s1)) :
    loadFileList sys path (.dir true es) s = (false, s1) := by
  rw [loadFileList]; simp [h]

theorem loadFileList_loop_ok {σ : Type} (sys : Sys σ) (path : CStr)
    (es : List (CStr × Node)) (s s1 : Scan σ)
    (h : readdirLoop sys path es { s with world := s.world.emit (.opendir path true) }
      = (true, s1)) :
    loadFileList sys path (.dir true es) s =
      (true, Scan.add { s1 with world := s1.world.emit (.closedir path) }
        { filename := path, isDir := true }) := by
  rw [loadFileList]; simp [h]

theorem scanFiles_open_fail (path : CStr) (n : Node) (h : n.opens = false) :
    scanFiles path n = (false, []) := by
  cases n with
  | file => simp [scanFiles]
  | dir o es =>
    cases o with
    | false => simp [scanFiles]
    | true => simp [Node.opens] at h

theorem scanFiles_dir (path : CStr) (es : List (CStr × Node)) :
    scanFiles path (.dir true es) =
      ((scanEntries path es).1,
        if (scanEntries path es).1 then
          (scanEntries path es).2 ++ [{ filename := path, isDir := true }]
        else (scanEntries path es).2) := by
  rw [scanFiles]
  cases hp : scanEntries path es with
  | mk ok fs => cases ok <;> simp

/-- The rest of the loop after one entry was handled without failure. -/
theorem LoopSpec.continue {σ : Type} {sys : Sys σ} {path : CStr} {rest : List (CStr × Node)}
    {s s1 : Scan σ} {t : List Event} (hrel : ScanRel s s1 t)
    (hq : ∀ e ∈ t, e.scanQuiet = true) (ih : LoopSpec sys path rest (scanTick sys s1)) :
    ∃ u, ScanRel s (readdirLoop sys path rest (scanTick sys s1)).2 u ∧
      (readdirLoop sys path rest (scanTick sys s1)).1 = (scanEntries path rest).1 ∧
      addsOf u = addsOf t ++ (scanEntries path rest).2 ∧
      ((readdirLoop sys path rest (scanTick sys s1)).1 = true → ∀ e ∈ u, e.scanQuiet = true) ∧
      ((readdirLoop sys path rest (scanTick sys s1)).1 = false →
        ∃ name n x, (name, n) ∈ rest ∧ notPseudo name = true ∧ n.isDir = true ∧
          Unopenable (childPath path name, n) x ∧ FailShape u x.1) := by
  obtain ⟨tt, htrel, htadds, htq⟩ := scanTick_rel sys s1
  obtain ⟨tr, hrrel, hrok, hradds, hrq, hrf⟩ := ih
  have hq2 : ∀ e ∈ t ++ tt, e.scanQuiet = true := by
    intro e he
    rcases List.mem_append.1 he with h | h
    · exact hq e h
    · exact htq e h
  refine ⟨(t ++ tt) ++ tr, (hrel.trans htrel).trans hrrel, hrok, ?_, ?_, ?_⟩
  · simp [addsOf_append, htadds, hradds]
  · intro h e he
    rcases List.mem_append.1 he with h1 | h1
    · exact hq2 e h1
    · exact hrq h e h1
  · intro h
    obtain ⟨name, n, x, hm, hn, hd, hu, hs⟩ := hrf h
    exact ⟨name, n, x, hm, hn, hd, hu, hs.prepend hq2⟩

mutual
theorem loadFileList_rel {σ : Type} (sys : Sys σ) :
    ∀ (n : Node) (path : CStr) (s : Scan σ), LoadSpec sys path n s
  | .file, path, s => by
    refine ⟨failEvents path, ?_, ?_, ?_, ?_, ?_⟩
    · simpa [loadFileList] using openFailed_rel s path
    · simp [loadFileList, scanFiles]
    · simp [scanFiles, failEvents, addsOf]
    · simp [loadFileList]
    · intro _
      exact ⟨(path, Node.file), ⟨Relation.ReflTransGen.refl, rfl, Or.inl rfl⟩,
        FailShape.here path⟩
  | .dir false es, path, s => by
    refine ⟨failEvents path, ?_, ?_, ?_, ?_, ?_⟩
    · simpa [loadFileList] using openFailed_rel s path
    · simp [loadFileList, scanFiles]
    · simp [scanFiles, failEvents, addsOf]
    · simp [loadFileList]
    · intro _
      exact ⟨(path, Node.dir false es), ⟨Relation.ReflTransGen.refl, rfl, Or.inl rfl⟩,
        FailShape.here path⟩
  | .dir true es, path, s => by
    obtain ⟨t, hrel, hok, hadds, hq, hf⟩ :=
      readdirLoop_rel sys es path { s with world := s.world.emit (.opendir path true) }
    have h0 := ScanRel.emit s (Event.opendir path true) (by simp [addsOf])
    have hq0 : ∀ e ∈ [Event.opendir path true], e.scanQuiet = true := by
      intro e he; simp at he; subst he; rfl
    cases hr : readdirLoop sys path es { s with world := s.world.emit (.opendir path true) } with
    | mk ok s1 =>
      rw [hr] at hrel hok hq hf
      simp only at hrel hok hq hf
      cases ok with
      | false =>
        rw [LoadSpec, loadFileList_loop_fail sys path es s s1 hr, scanFiles_dir, ← hok]
        refine ⟨[Event.opendir path true] ++ t, h0.trans hrel, rfl, ?_, (fun h => by cases h), ?_⟩
        · simp [addsOf_append, addsOf, hadds]
        · intro _
          obtain ⟨name, n, x, hm, hn, hd, hu, hs⟩ := hf rfl
          exact ⟨x, hu.lift hm hn hd, hs.prepend hq0⟩
      | true =>
        rw [LoadSpec, loadFileList_loop_ok sys path es s s1 hr, scanFiles_dir, ← hok]
        have h1 := ScanRel.emit s1 (Event.closedir path) (by simp [addsOf])
        have h2 := ScanRel.add { s1 with world := s1.world.emit (.closedir path) }
          { filename := path, isDir := true }
        refine ⟨(([Event.opendir path true] ++ t) ++ [Event.closedir path]) ++
          [Event.add { filename := path, isDir := true }],
          ((h0.trans hrel).trans h1).trans h2, rfl, ?_, ?_, (fun h => by cases h)⟩
        · simp [addsOf_append, addsOf, hadds]
        · intro _ e he
          simp only [List.mem_append, List.mem_singleton] at he
          rcases he with ((rfl | h) | rfl) | rfl
          · rfl
          · exact hq rfl e h
          · rfl
          · rfl
theorem readdirLoop_rel {σ : Type} (sys : Sys σ) :
    ∀ (es : List (CStr × Node)) (path : CStr) (s : Scan σ), LoopSpec sys path es s
  | [], path, s => by
    refine ⟨[], ?_, ?_, ?_, ?_, ?_⟩
    · simpa [readdirLoop] using ScanRel.refl s
    · simp [readdirLoop, scanEntries]
    · simp [scanEntries, addsOf]
    · simp
    · intro h
      simp [readdirLoop] at h
  | (name, n) :: rest, path, s => by
    by_cases hn : notPseudo name = true
    · by_cases hd : n.isDir = true
      · obtain ⟨t, hrel, hok, hadds, hq, hf⟩ := loadFileList_rel sys n (childPath path name) s
        cases hr : loadFileList sys (childPath path name) n s with
        | mk ok s1 =>
          rw [hr] at hrel hok hq hf
          simp only at hrel hok hq hf
          cases ok with
          | false =>
            rw [LoopSpec, readdirLoop_dir_fail sys path name n rest s s1 hn hd hr,
              scanEntries_dir_fail path name n rest hn hd hok.symm]
            have h1 := ScanRel.emit s1 (Event.closedir path) (by simp [addsOf])
            refine ⟨t ++ [Event.closedir path], hrel.trans h1, rfl, ?_, (fun h => by cases h), ?_⟩
            · simp [addsOf_append, addsOf, hadds]
            · intro _
              obtain ⟨x, hu, hs⟩ := hf rfl
              exact ⟨name, n, x, List.mem_cons_self _ _, hn, hd, hu, hs.close path⟩
          | true =>
            rw [LoopSpec, readdirLoop_dir_ok sys path name n rest s s1 hn hd hr,
              scanEntries_dir_ok path name n rest hn hd hok.symm]
            obtain ⟨u, hurel, huok, huadds, huq, huf⟩ :=
              LoopSpec.continue hrel (hq rfl) (readdirLoop_rel sys rest path (scanTick sys s1))
            refine ⟨u, hurel, huok, by rw [huadds, hadds], huq, ?_⟩
            intro h
            obtain ⟨name2, n2, x, hm, hn2, hd2, hu, hs⟩ := huf h
            exact ⟨name2, n2, x, List.mem_cons_of_mem _ hm, hn2, hd2, hu, hs⟩
      · have hd2 : n.isDir = false := by simpa using hd
        rw [LoopSpec, readdirLoop_file sys path name n rest s hn hd2,
          scanEntries_file path name n rest hn hd2]
        have hq1 : ∀ e ∈ [Event.add { filename := childPath path name, isDir := false }],
            e.scanQuiet = true := by
          intro e he; simp at he; subst he; rfl
        obtain ⟨u, hurel, huok, huadds, huq, huf⟩ :=
          LoopSpec.continue (ScanRel.add s { filename := childPath path name, isDir := false })
            hq1 (readdirLoop_rel sys rest path (scanTick sys (s.add _)))
        refine ⟨u, hurel, huok, by simpa [addsOf] using huadds, huq, ?_⟩
        intro h
        obtain ⟨name2, n2, x, hm, hn2, hd3, hu, hs⟩ := huf h
        exact ⟨name2, n2, x, List.mem_cons_of_mem _ hm, hn2, hd3, hu, hs⟩
    · have hn2 : notPseudo name = false := by simpa using hn
      rw [LoopSpec, readdirLoop_pseudo sys path name n rest s hn2,
        scanEntries_pseudo path name n rest hn2]
      obtain ⟨u, hurel, huok, huadds, huq, huf⟩ :=
        LoopSpec.continue (ScanRel.refl s) (fun e he => by cases he) (readdirLoop_rel sys rest path (scanTick sys s))
      refine ⟨u, hurel, huok, by simpa [addsOf] using huadds, huq, ?_⟩
      intro h
      obtain ⟨name2, n2, x, hm, hn3, hd3, hu, hs⟩ := huf h
      exact ⟨name2, n2, x, List.mem_cons_of_mem _ hm, hn3, hd3, hu, hs⟩
end

/-! ### Where the entries of a subtree sit in the plan -/

theorem scanFiles_ok_dir {q : CStr} {n : Node} (h : (scanFiles q n).1 = true) :
    ∃ es, n = Node.dir true es ∧ (scanEntries q es).1 = true ∧
      (scanFiles q n).2 = (scanEntries q es).2 ++ [{ filename := q, isDir := true }] := by
  cases hop : n.opens with
  | false => rw [scanFiles_open_fail q n hop] at h; cases h
  | true =>
    cases n with
    | file => simp [Node.opens] at hop
    | dir o es =>
      cases o with
      | false => simp [Node.opens] at hop
      | true =>
        rw [scanFiles_dir] at h ⊢
        simp only at h
        exact ⟨es, rfl, h, by simp [h]⟩

theorem entryPlan_last {q : CStr} {n : Node}
    (h : n.isDir = true → (scanFiles q n).1 = true) :
    ∃ init, entryPlan q n = init ++ [{ filename := q, isDir := n.isDir }] := by
  cases hd : n.isDir with
  | false => exact ⟨[], by simp [entryPlan, hd]⟩
  | true =>
    obtain ⟨es, _, _, h2⟩ := scanFiles_ok_dir (h hd)
    exact ⟨(scanEntries q es).2, by simp [entryPlan, hd, h2]⟩

theorem scanEntries_mem {p : CStr} :
    ∀ {es : List (CStr × Node)} {name : CStr} {n : Node},
      (scanEntries p es).1 = true → (name, n) ∈ es → notPseudo name = true →
      (n.isDir = true → (scanFiles (childPath p name) n).1 = true) ∧
        ∃ pre post, (scanEntries p es).2 = pre ++ entryPlan (childPath p name) n ++ post
  | [], _, _, _, hm, _ => by cases hm
  | (name0, n0) :: rest, name, n, hok, hm, hn => by
    by_cases hn0 : notPseudo name0 = true
    · by_cases hd0 : n0.isDir = true
      · cases hs : (scanFiles (childPath p name0) n0).1 with
        | false =>
          rw [scanEntries_dir_fail p name0 n0 rest hn0 hd0 hs] at hok
          cases hok
        | true =>
          rw [scanEntries_dir_ok p name0 n0 rest hn0 hd0 hs] at hok ⊢
          simp only at hok
          rcases List.mem_cons.1 hm with heq | hm'
          · cases heq
            exact ⟨fun _ => hs, [], (scanEntries p rest).2, by simp [entryPlan, hd0]⟩
          · obtain ⟨h1, pre, post, h2⟩ := scanEntries_mem hok hm' hn
            exact ⟨h1, (scanFiles (childPath p name0) n0).2 ++ pre, post, by simp [h2]⟩
      · have hd1 : n0.isDir = false := by simpa using hd0
        rw [scanEntries_file p name0 n0 rest hn0 hd1] at hok ⊢
        simp only at hok
        rcases List.mem_cons.1 hm with heq | hm'
        · cases heq
          exact ⟨(fun h => by rw [hd1] at h; cases h), [], (scanEntries p rest).2,
            by simp [entryPlan, hd1]⟩
        · obtain ⟨h1, pre, post, h2⟩ := scanEntries_mem hok hm' hn
          exact ⟨h1, { filename := childPath p name0, isDir := false } :: pre, post,
            by simp [h2]⟩
    · have hn1 : notPseudo name0 = false := by simpa using hn0
      rw [scanEntries_pseudo p name0 n0 rest hn1] at hok ⊢
      rcases List.mem_cons.1 hm with heq | hm'
      · cases heq
        rw [hn] at hn1; cases hn1
      · exact scanEntries_mem hok hm' hn

/-- One step down: the child's entries form a block of the parent's entries,
before the parent's own entry. -/
theorem child_block {d x : CStr × Node} (hc : Child d x)
    (hok : (scanFiles d.1 d.2).1 = true) :
    (x.2.isDir = true → (scanFiles x.1 x.2).1 = true) ∧
      ∃ pre post, (scanFiles d.1 d.2).2 =
        pre ++ entryPlan x.1 x.2 ++ post ++ [{ filename := d.1, isDir := true }] := by
  cases hc with
  | mk p es name n hm hn =>
    simp only at hok ⊢
    rw [scanFiles_dir] at hok ⊢
    simp only at hok
    obtain ⟨h1, pre, post, h2⟩ := scanEntries_mem hok hm hn
    exact ⟨h1, pre, post, by simp [hok, h2]⟩

theorem child_source_isDir {d x : CStr × Node} (hc : Child d x) : d.2.isDir = true := by
  cases hc; rfl

theorem entryPlan_of_isDir {q : CStr} {n : Node} (h : n.isDir = true) :
    entryPlan q n = (scanFiles q n).2 := by
  simp [entryPlan, h]

/-- Any number of steps down: the descendant's entries form a block of the
ancestor's entries, before the ancestor's own entry. -/
theorem desc_block {d x : CStr × Node} (hd : Desc d x)
    (hok : (scanFiles d.1 d.2).1 = true) :
    (x.2.isDir = true → (scanFiles x.1 x.2).1 = true) ∧
      ∃ pre post, (scanFiles d.1 d.2).2 =
        pre ++ entryPlan x.1 x.2 ++ post ++ [{ filename := d.1, isDir := true }] := by
  induction hd using Relation.TransGen.head_induction_on with
  | base hc => exact child_block hc hok
  | ih hc hd2 ih =>
    rename_i a c
    obtain ⟨hcok, pre, post, h2⟩ := child_block hc hok
    obtain ⟨b, hb, _⟩ := Relation.TransGen.head'_iff.1 hd2
    have hcd := child_source_isDir hb
    obtain ⟨hx, pre2, post2, h3⟩ := ih (hcok hcd)
    refine ⟨hx, pre ++ pre2, post2 ++ [{ filename := c.1, isDir := true }] ++ post, ?_⟩
    rw [h2, entryPlan_of_isDir hcd, h3]
    simp [List.append_assoc]

theorem inTree_block {root x : CStr × Node} (ht : InTree root x)
    (hok : (scanFiles root.1 root.2).1 = true) :
    (x.2.isDir = true → (scanFiles x.1 x.2).1 = true) ∧
      ∃ pre post, (scanFiles root.1 root.2).2 = pre ++ entryPlan x.1 x.2 ++ post := by
  rcases Relation.reflTransGen_iff_eq_or_transGen.1 ht with heq | hd
  · subst heq
    obtain ⟨es, hes, _, _⟩ := scanFiles_ok_dir hok
    have hdir : x.2.isDir = true := by rw [hes]; rfl
    exact ⟨fun _ => hok, [], [], by simp [entryPlan_of_isDir hdir]⟩
  · obtain ⟨h1, pre, post, h2⟩ := desc_block hd hok
    exact ⟨h1, pre, post ++ [{ filename := root.1, isDir := true }], by
      rw [h2]; simp [List.append_assoc]⟩

theorem getElem?_mid {α : Type} (a b : List α) (x : α) : (a ++ x :: b)[a.length]? = some x := by
  rw [List.getElem?_append_right (le_refl _)]
  simp

theorem nodup_getElem?_inj {α : Type} {l : List α} (h : l.Nodup) {i j : Nat} {x : α}
    (hi : l[i]? = some x) (hj : l[j]? = some x) : i = j := by
  obtain ⟨hi1, hi2⟩ := List.getElem?_eq_some.1 hi
  obtain ⟨hj1, hj2⟩ := List.getElem?_eq_some.1 hj
  exact (h.getElem_inj_iff).1 (hi2.trans hj2.symm)

/-- The plan and the flag of the scan are those of its clock-free content. -/
theorem loadFileList_pure {σ : Type} (sys : Sys σ) (path : CStr) (n : Node) (s : Scan σ) :
    (loadFileList sys path n s).1 = (scanFiles path n).1 ∧
      (loadFileList sys path n s).2.fl.files = s.fl.files ++ (scanFiles path n).2 ∧
      (loadFileList sys path n s).2.fl.count = s.fl.count + (scanFiles path n).2.length ∧
      (loadFileList sys path n s).2.world.fs = s.world.fs := by
  obtain ⟨t, hrel, hok, hadds, _, _⟩ := loadFileList_rel sys n path s
  exact ⟨hok, by rw [hrel.files, hadds], by rw [hrel.count, hadds], hrel.fs⟩

/-! ## C1 -/

/-- C1. When the scan succeeds, the entry of the root path is the last element
of the plan, and for every directory `D` of the tree (at path `pD`) the plan
holds the entry of `D` at a position `j` such that every strict descendant of
`D` has its entry at a position `i < j`; when the paths of the plan are
pairwise distinct, every position holding a descendant's path is smaller than
every position holding the path of `D`. -/
theorem C1_children_before_parent {σ : Type} (sys : Sys σ) (path : CStr) (root : Node)
    (s : Scan σ) (hok : (loadFileList sys path root s).1 = true) :
    (loadFileList sys path root s).2.fl.files.getLast? =
        some (File.mk path true) ∧
    ∀ (pD : CStr) (D : Node), InTree (path, root) (pD, D) → D.isDir = true →
      ∃ j : Nat, (loadFileList sys path root s).2.fl.files[j]? =
          some (File.mk pD true) ∧
        (∀ (q : CStr) (n : Node), Desc (pD, D) (q, n) →
          ∃ i : Nat, i < j ∧ (loadFileList sys path root s).2.fl.files[i]? =
            some (File.mk q n.isDir)) ∧
        (((loadFileList sys path root s).2.fl.files.map File.filename).Nodup →
          ∀ (q : CStr) (n : Node) (i k : Nat), Desc (pD, D) (q, n) →
            ((loadFileList sys path root s).2.fl.files.map File.filename)[i]? = some q →
            ((loadFileList sys path root s).2.fl.files.map File.filename)[k]? = some pD →
            i < k) := by
  obtain ⟨h1, h2, _, _⟩ := loadFileList_pure sys path root s
  rw [h1] at hok
  rw [h2]
  generalize s.fl.files = A at *
  constructor
  · obtain ⟨es, _, _, h3⟩ := scanFiles_ok_dir hok
    rw [h3, ← List.append_assoc, List.getLast?_append]
    simp
  · intro pD D ht hD
    obtain ⟨hDok, pre, post, hplan⟩ := inTree_block ht hok
    simp only at hDok hplan
    have hDok2 := hDok hD
    obtain ⟨init, hinit⟩ := entryPlan_last (q := pD) (n := D) (fun _ => hDok2)
    rw [hD, entryPlan_of_isDir hD] at hinit
    rw [entryPlan_of_isDir hD] at hplan
    -- positions of the descendants
    have hdesc : ∀ (q : CStr) (n : Node), Desc (pD, D) (q, n) →
        ∃ i, i < (A ++ pre ++ init).length ∧
          (A ++ (scanFiles path root).2)[i]? = some (File.mk q n.isDir) := by
      intro q n hd
      obtain ⟨hnok, pre2, post2, h4⟩ := desc_block hd hDok2
      simp only at hnok h4
      obtain ⟨ix, hix⟩ := entryPlan_last (q := q) (n := n) hnok
      rw [hinit, hix] at h4
      have h5 : init = pre2 ++ (ix ++ [{ filename := q, isDir := n.isDir }]) ++ post2 :=
        List.append_cancel_right (by simpa [List.append_assoc] using h4)
      refine ⟨(A ++ pre ++ pre2 ++ ix).length, ?_, ?_⟩
      · rw [h5]; simp only [List.length_append, List.length_singleton]; omega
      · rw [hplan, hinit, h5]
        have := getElem?_mid (A ++ pre ++ pre2 ++ ix)
          (post2 ++ [{ filename := pD, isDir := true }] ++ post)
          ({ filename := q, isDir := n.isDir } : File)
        simpa [List.append_assoc] using this
    have hj : (A ++ (scanFiles path root).2)[(A ++ pre ++ init).length]? =
        some (File.mk pD true) := by
      rw [hplan, hinit]
      have := getElem?_mid (A ++ pre ++ init) post ({ filename := pD, isDir := true } : File)
      simpa [List.append_assoc] using this
    refine ⟨(A ++ pre ++ init).length, hj, hdesc, ?_⟩
    intro hnd q n i k hd hi hk
    obtain ⟨i0, hi0, hi1⟩ := hdesc q n hd
    have e1 : ((A ++ (scanFiles path root).2).map File.filename)[i0]? = some q := by
      rw [List.getElem?_map, hi1]; rfl
    have e2 : ((A ++ (scanFiles path root).2).map File.filename)[(A ++ pre ++ init).length]?
        = some pD := by
      rw [List.getElem?_map, hj]; rfl
    have := nodup_getElem?_inj hnd hi e1
    have := nodup_getElem?_inj hnd hk e2
    omega

/-- Witness of C1 on the scenario: root `a` with file `b.txt` and empty
directory `c` gives the plan `[File a/b.txt, Directory a/c, Directory a]`. -/
theorem C1_children_before_parent_witness :
    demoScan.1 = true ∧ demoScan.2.fl.files = demoPlan ∧
    (demoScan.2.fl.files.getLast? = some (File.mk "a".toList true) ∧
    ∀ (pD : CStr) (D : Node), InTree ("a".toList, demoTree) (pD, D) → D.isDir = true →
      ∃ j : Nat, demoScan.2.fl.files[j]? = some (File.mk pD true) ∧
        (∀ (q : CStr) (n : Node), Desc (pD, D) (q, n) →
          ∃ i : Nat, i < j ∧ demoScan.2.fl.files[i]? = some (File.mk q n.isDir)) ∧
        ((demoScan.2.fl.files.map File.filename).Nodup →
          ∀ (q : CStr) (n : Node) (i k : Nat), Desc (pD, D) (q, n) →
            (demoScan.2.fl.files.map File.filename)[i]? = some q →
            (demoScan.2.fl.files.map File.filename)[k]? = some pD →
            i < k)) :=
  ⟨by decide, by decide,
    C1_children_before_parent okSys "a".toList demoTree
      (scanStart "a".toList (emptyWorld ())) (by decide)⟩

/-! ## C3 -/

mutual
theorem scanFiles_length : ∀ (n : Node) (q : CStr), (scanFiles q n).1 = true →
    (scanFiles q n).2.length = entryCount n
  | .file, q, h => by simp [scanFiles] at h
  | .dir false es, q, h => by simp [scanFiles] at h
  | .dir true es, q, h => by
    rw [scanFiles_dir] at h ⊢
    simp only at h
    simp [h, entryCount, scanEntries_length es q h]
    omega
theorem scanEntries_length : ∀ (es : List (CStr × Node)) (q : CStr),
    (scanEntries q es).1 = true → (scanEntries q es).2.length = entriesCount es
  | [], q, _ => by simp [scanEntries, entriesCount]
  | (name, n) :: rest, q, h => by
    by_cases hn : notPseudo name = true
    · by_cases hd : n.isDir = true
      · cases hs : (scanFiles (childPath q name) n).1 with
        | false =>
          rw [scanEntries_dir_fail q name n rest hn hd hs] at h
          cases h
        | true =>
          rw [scanEntries_dir_ok q name n rest hn hd hs] at h ⊢
          simp only at h
          simp [entriesCount, hn, scanFiles_length n (childPath q name) hs,
            scanEntries_length rest q h]
      · have hd1 : n.isDir = false := by simpa using hd
        rw [scanEntries_file q name n rest hn hd1] at h ⊢
        simp only at h
        have hc : entryCount n = 1 := by
          cases n with
          | file => rfl
          | dir o es => simp [Node.isDir] at hd1
        simp [entriesCount, hn, hc, scanEntries_length rest q h]
        omega
    · have hn1 : notPseudo name = false := by simpa using hn
      rw [scanEntries_pseudo q name n rest hn1] at h ⊢
      simp [entriesCount, hn1, scanEntries_length rest q h]
end

/-- C3. When the scan succeeds, the plan and the `count` field both grow by
the number of files and directories reachable from the root (root included,
`.` and `..` excluded); started on the empty list with `count = 0`, as `main`
does, the length of the plan and `count` equal that number. `FileList_Add`
keeps `count` equal to the number of linked entries. -/
theorem C3_plan_length_is_entry_count {σ : Type} (sys : Sys σ) (path : CStr) (root : Node)
    (s : Scan σ) (hok : (loadFileList sys path root s).1 = true) :
    (loadFileList sys path root s).2.fl.files.length = s.fl.files.length + entryCount root ∧
    (loadFileList sys path root s).2.fl.count = s.fl.count + entryCount root ∧
    (s.fl.files = [] → s.fl.count = 0 →
      (loadFileList sys path root s).2.fl.files.length = entryCount root ∧
      (loadFileList sys path root s).2.fl.count = entryCount root) ∧
    (∀ (l : FileList) (f : File), l.count = l.files.length →
      (FileList_Add l f).count = (FileList_Add l f).files.length) := by
  obtain ⟨h1, h2, h3, _⟩ := loadFileList_pure sys path root s
  rw [h1] at hok
  have hlen := scanFiles_length root path hok
  refine ⟨by rw [h2, List.length_append, hlen], by rw [h3, hlen], ?_, ?_⟩
  · intro hf hc
    exact ⟨by rw [h2, hf, List.nil_append, hlen], by rw [h3, hc, hlen, Nat.zero_add]⟩
  · intro l f hl
    rw [FileList_Add_count, FileList_Add_files, List.length_append, hl]
    rfl

/-- Witness of C3 on the scenario: three entries. -/
theorem C3_plan_length_is_entry_count_witness :
    demoScan.1 = true ∧ entryCount demoTree = 3 ∧
    (demoScan.2.fl.files.length = 0 + entryCount demoTree ∧
    demoScan.2.fl.count = 0 + entryCount demoTree ∧
    (([] : List File) = [] → 0 = 0 →
      demoScan.2.fl.files.length = entryCount demoTree ∧
      demoScan.2.fl.count = entryCount demoTree) ∧
    (∀ (l : FileList) (f : File), l.count = l.files.length →
      (FileList_Add l f).count = (FileList_Add l f).files.length)) :=
  ⟨by decide, by decide,
    C3_plan_length_is_entry_count okSys "a".toList demoTree
      (scanStart "a".toList (emptyWorld ())) (by decide)⟩
/-! ## The delete loop -/

theorem deleteLoop_cons {σ : Type} (sys : Sys σ) (count : Nat) (startTime : Int) (f : File)
    (rest : List File) (lastProgress : Int) (currentCount : Nat) (w : World σ) :
    deleteLoop sys count startTime (f :: rest) lastProgress currentCount w =
      if (prim sys f w.fs).1 ≠ 0 then
        (some false, (afterPrim sys f w).emit (.perror (primName f)))
      else
        match deleteTick sys count startTime lastProgress (currentCount + 1)
            (afterPrim sys f w) with
        | (none, w2) => (none, w2)
        | (some last, w2) => deleteLoop sys count startTime rest last (currentCount + 1) w2 := by
  rw [deleteLoop]
  cases hd : f.isDir <;> simp [prim, primEvent, primName, afterPrim, hd]

/-- The primitive for the first entry fails: the loop returns `false`. -/
theorem deleteLoop_cons_fail {σ : Type} (sys : Sys σ) (count : Nat) (startTime : Int)
    (f : File) (rest : List File) (lastProgress : Int) (currentCount : Nat) (w : World σ)
    (h : (prim sys f w.fs).1 ≠ 0) :
    deleteLoop sys count startTime (f :: rest) lastProgress currentCount w =
      (some false, (afterPrim sys f w).emit (.perror (primName f))) := by
  rw [deleteLoop_cons, if_pos h]

/-- The primitive for the first entry succeeds and the call of `progress`
that follows does not return: the loop stops there. -/
theorem deleteLoop_cons_trap {σ : Type} (sys : Sys σ) (count : Nat) (startTime : Int)
    (f : File) (rest : List File) (lastProgress : Int) (currentCount : Nat) (w : World σ)
    (h : (prim sys f w.fs).1 = 0)
    (ht : (deleteTick sys count startTime lastProgress (currentCount + 1)
      (afterPrim sys f w)).1 = none) :
    deleteLoop sys count startTime (f :: rest) lastProgress currentCount w =
      (none, (deleteTick sys count startTime lastProgress (currentCount + 1)
        (afterPrim sys f w)).2) := by
  rw [deleteLoop_cons, if_neg (by simpa using h)]
  cases hr : deleteTick sys count startTime lastProgress (currentCount + 1)
      (afterPrim sys f w) with
  | mk o w2 =>
    rw [hr] at ht
    simp only at ht
    subst ht
    rfl

/-- The primitive for the first entry succeeds and the loop goes on with the
next entry. -/
theorem deleteLoop_cons_step {σ : Type} (sys : Sys σ) (count : Nat) (startTime : Int)
    (f : File) (rest : List File) (lastProgress : Int) (currentCount : Nat) (w : World σ)
    (last : Int) (h : (prim sys f w.fs).1 = 0)
    (ht : (deleteTick sys count startTime lastProgress (currentCount + 1)
      (afterPrim sys f w)).1 = some last) :
    deleteLoop sys count startTime (f :: rest) lastProgress currentCount w =
      deleteLoop sys count startTime rest last (currentCount + 1)
        (deleteTick sys count startTime lastProgress (currentCount + 1)
          (afterPrim sys f w)).2 := by
  rw [deleteLoop_cons, if_neg (by simpa using h)]
  cases hr : deleteTick sys count startTime lastProgress (currentCount + 1)
      (afterPrim sys f w) with
  | mk o w2 =>
    rw [hr] at ht
    simp only at ht
    subst ht
    rfl

theorem afterPrim_fs {σ : Type} (sys : Sys σ) (f : File) (w : World σ) :
    (afterPrim sys f w).fs = (prim sys f w.fs).2 := rfl

theorem afterPrim_trace {σ : Type} (sys : Sys σ) (f : File) (w : World σ) :
    (afterPrim sys f w).trace = w.trace ++ [primEvent f (prim sys f w.fs).1] := rfl

theorem afterPrim_ticks {σ : Type} (sys : Sys σ) (f : File) (w : World σ) :
    (afterPrim sys f w).ticks = w.ticks := rfl

theorem deleteTick_fs {σ : Type} (sys : Sys σ) (count : Nat) (startTime lastProgress : Int)
    (currentCount : Nat) (w : World σ) :
    (deleteTick sys count startTime lastProgress currentCount w).2.fs = w.fs := by
  by_cases h : (w.now sys).1 - lastProgress > 1
  · simp only [deleteTick, h, if_true]; rfl
  · simp only [deleteTick, h, if_false]; rfl

theorem deleteTick_ticks {σ : Type} (sys : Sys σ) (count : Nat) (startTime lastProgress : Int)
    (currentCount : Nat) (w : World σ) :
    (deleteTick sys count startTime lastProgress currentCount w).2.ticks = w.ticks + 1 := by
  by_cases h : (w.now sys).1 - lastProgress > 1
  · simp only [deleteTick, h, if_true]; rfl
  · simp only [deleteTick, h, if_false]; rfl

/-- The two ways one round of lines 168-174 can go: no render, or a call of
`progress`, recorded in the trace, whose outcome decides whether the loop goes
on. -/
theorem deleteTick_cases {σ : Type} (sys : Sys σ) (count : Nat)
    (startTime lastProgress : Int) (currentCount : Nat) (w : World σ) :
    (¬ sys.time w.ticks - lastProgress > 1 ∧
      (deleteTick sys count startTime lastProgress currentCount w).1 = some lastProgress ∧
      (deleteTick sys count startTime lastProgress currentCount w).2.trace =
        w.trace ++ [Event.time (sys.time w.ticks)]) ∨
    (sys.time w.ticks - lastProgress > 1 ∧
      (deleteTick sys count startTime lastProgress currentCount w).1 =
        (progress (termWidth sys w.ticks) (toInt currentCount) (toInt count)
          (sys.time w.ticks - startTime)).map (fun _ => sys.time w.ticks) ∧
      (deleteTick sys count startTime lastProgress currentCount w).2.trace =
        w.trace ++ [Event.time (sys.time w.ticks),
          Event.progress (toInt currentCount) (toInt count) (sys.time w.ticks - startTime)]) := by
  by_cases h : sys.time w.ticks - lastProgress > 1
  · right
    refine ⟨h, ?_, ?_⟩
    · simp only [deleteTick, World.now]
      rw [if_pos h]
    · simp only [deleteTick, World.now]
      rw [if_pos h]
      simp [World.emit]
  · left
    refine ⟨h, ?_, ?_⟩
    · simp only [deleteTick, World.now]
      rw [if_neg h]
    · simp only [deleteTick, World.now]
      rw [if_neg h]

theorem stderrText_append (errmsg : CStr) (t u : List Event) :
    stderrText errmsg (t ++ u) = stderrText errmsg t ++ stderrText errmsg u := by
  induction t with
  | nil => simp [stderrText]
  | cons e t ih => cases e <;> simp [stderrText, ih]

theorem stderrText_of_none (errmsg : CStr) {t : List Event}
    (h : ∀ e ∈ t, stderrText errmsg [e] = []) : stderrText errmsg t = [] := by
  induction t with
  | nil => rfl
  | cons e t ih =>
    have := stderrText_append errmsg [e] t
    simp only [List.singleton_append] at this
    rw [this, h e (List.mem_cons_self _ _), ih (fun x hx => h x (List.mem_cons_of_mem _ hx))]
    rfl

theorem stderrText_primEvent (errmsg : CStr) (f : File) (ret : Int) :
    stderrText errmsg [primEvent f ret] = [] := by
  unfold primEvent; split <;> rfl

theorem deleteTick_trace {σ : Type} (sys : Sys σ) (count : Nat) (startTime lastProgress : Int)
    (currentCount : Nat) (w : World σ) :
    ∃ t, (deleteTick sys count startTime lastProgress currentCount w).2.trace = w.trace ++ t ∧
      ∀ e ∈ t, e.isDelete = true ∧ e.isRemoval = false ∧
        ∀ errmsg, stderrText errmsg [e] = [] := by
  rcases deleteTick_cases sys count startTime lastProgress currentCount w with
    ⟨_, _, ht⟩ | ⟨_, _, ht⟩
  · refine ⟨_, ht, ?_⟩
    intro e he
    simp at he
    subst he
    exact ⟨rfl, rfl, fun _ => rfl⟩
  · refine ⟨_, ht, ?_⟩
    intro e he
    simp at he
    rcases he with rfl | rfl <;> exact ⟨rfl, rfl, fun _ => rfl⟩

theorem primEvent_isRemoval (f : File) (ret : Int) : (primEvent f ret).isRemoval = true := by
  unfold primEvent; split <;> rfl

theorem primEvent_isDelete (f : File) (ret : Int) : (primEvent f ret).isDelete = true := by
  unfold primEvent; split <;> rfl

theorem filter_isRemoval_of_none {t : List Event} (h : ∀ e ∈ t, e.isRemoval = false) :
    t.filter Event.isRemoval = [] := by
  rw [List.filter_eq_nil_iff]
  intro e he
  simp [h e he]

/-- Every event the delete loop adds is an event of the delete phase. -/
theorem deleteLoop_trace {σ : Type} (sys : Sys σ) (count : Nat) (startTime : Int) :
    ∀ (files : List File) (lastProgress : Int) (currentCount : Nat) (w : World σ),
    ∃ t, (deleteLoop sys count startTime files lastProgress currentCount w).2.trace
        = w.trace ++ t ∧ ∀ e ∈ t, e.isDelete = true
  | [], _, _, w => ⟨[], by simp [deleteLoop], by simp⟩
  | f :: rest, lastProgress, currentCount, w => by
    by_cases h0 : (prim sys f w.fs).1 = 0
    · obtain ⟨tt, htt, hq⟩ := deleteTick_trace sys count startTime lastProgress
        (currentCount + 1) (afterPrim sys f w)
      have hpre : ∀ e ∈ [primEvent f (prim sys f w.fs).1] ++ tt, e.isDelete = true := by
        intro e he
        simp only [List.mem_append, List.mem_singleton] at he
        rcases he with rfl | h
        · exact primEvent_isDelete _ _
        · exact (hq e h).1
      cases hdt : (deleteTick sys count startTime lastProgress (currentCount + 1)
          (afterPrim sys f w)).1 with
      | none =>
        rw [deleteLoop_cons_trap sys count startTime f rest lastProgress currentCount w h0 hdt]
        exact ⟨[primEvent f (prim sys f w.fs).1] ++ tt,
          by rw [htt, afterPrim_trace, List.append_assoc], hpre⟩
      | some last =>
        rw [deleteLoop_cons_step sys count startTime f rest lastProgress currentCount w last
          h0 hdt]
        obtain ⟨t, ht, hd⟩ := deleteLoop_trace sys count startTime rest last
          (currentCount + 1)
          (deleteTick sys count startTime lastProgress (currentCount + 1)
            (afterPrim sys f w)).2
        refine ⟨[primEvent f (prim sys f w.fs).1] ++ tt ++ t, ?_, ?_⟩
        · rw [ht, htt, afterPrim_trace]; simp
        · intro e he
          rcases List.mem_append.1 he with h | h
          · exact hpre e h
          · exact hd e h
    · rw [deleteLoop_cons_fail sys count startTime f rest lastProgress currentCount w h0]
      refine ⟨[primEvent f (prim sys f w.fs).1, Event.perror (primName f)],
        by simp [World.emit, afterPrim_trace], ?_⟩
      intro e he
      simp at he
      rcases he with rfl | rfl
      · exact primEvent_isDelete _ _
      · rfl

/-- When every primitive succeeds the loop never returns `false`: it returns
`true`, or it is stopped inside a call of `progress`. -/
theorem deleteLoop_not_false {σ : Type} (sys : Sys σ) (count : Nat) (startTime : Int) :
    ∀ (files : List File) (lastProgress : Int) (currentCount : Nat) (w : World σ),
    PrimsSucceed sys files w.fs →
    (deleteLoop sys count startTime files lastProgress currentCount w).1 ≠ some false
  | [], _, _, w, _ => by simp [deleteLoop]
  | f :: rest, lastProgress, currentCount, w, h => by
    obtain ⟨h0, hrest⟩ := h
    cases hdt : (deleteTick sys count startTime lastProgress (currentCount + 1)
        (afterPrim sys f w)).1 with
    | none =>
      rw [deleteLoop_cons_trap sys count startTime f rest lastProgress currentCount w h0 hdt]
      simp
    | some last =>
      rw [deleteLoop_cons_step sys count startTime f rest lastProgress currentCount w last
        h0 hdt]
      exact deleteLoop_not_false sys count startTime rest last (currentCount + 1) _
        (by rw [deleteTick_fs, afterPrim_fs]; exact hrest)

/-- When every primitive succeeds and every call of `progress` returns, the
loop returns `true`, leaves the state the primitives produce, and has called
exactly one primitive per entry, in order. -/
theorem deleteLoop_ok {σ : Type} (sys : Sys σ) (count : Nat) (startTime : Int) :
    ∀ (files : List File) (lastProgress : Int) (currentCount : Nat) (w : World σ),
    PrimsSucceed sys files w.fs →
    (deleteLoop sys count startTime files lastProgress currentCount w).1 ≠ none →
    (deleteLoop sys count startTime files lastProgress currentCount w).1 = some true ∧
    (deleteLoop sys count startTime files lastProgress currentCount w).2.fs
      = fsAfter sys files w.fs ∧
    (deleteLoop sys count startTime files lastProgress currentCount w).2.trace.filter
      Event.isRemoval = w.trace.filter Event.isRemoval ++ files.map (fun f => primEvent f 0)
  | [], _, _, w, _, _ => by simp [deleteLoop, fsAfter]
  | f :: rest, lastProgress, currentCount, w, h, hret => by
    obtain ⟨h0, hrest⟩ := h
    obtain ⟨tt, htt, hq⟩ := deleteTick_trace sys count startTime lastProgress
      (currentCount + 1) (afterPrim sys f w)
    cases hdt : (deleteTick sys count startTime lastProgress (currentCount + 1)
        (afterPrim sys f w)).1 with
    | none =>
      rw [deleteLoop_cons_trap sys count startTime f rest lastProgress currentCount w h0 hdt]
        at hret
      exact absurd rfl hret
    | some last =>
      rw [deleteLoop_cons_step sys count startTime f rest lastProgress currentCount w last
        h0 hdt] at hret ⊢
      obtain ⟨i1, i2, i3⟩ := deleteLoop_ok sys count startTime rest last (currentCount + 1) _
        (by rw [deleteTick_fs, afterPrim_fs]; exact hrest) hret
      refine ⟨i1, ?_, ?_⟩
      · rw [i2, deleteTick_fs, afterPrim_fs]; rfl
      · rw [i3, htt, afterPrim_trace, h0]
        simp [List.filter_append, primEvent_isRemoval,
          filter_isRemoval_of_none (fun e he => (hq e he).2.1)]

/-- The loop stops at the first primitive that fails, when every call of
`progress` made before returns. -/
theorem deleteLoop_fail {σ : Type} (sys : Sys σ) (count : Nat) (startTime : Int)
    (errmsg : CStr) :
    ∀ (pre : List File) (f : File) (post : List File) (lastProgress : Int)
      (currentCount : Nat) (w : World σ),
    PrimsSucceed sys pre w.fs → (prim sys f (fsAfter sys pre w.fs)).1 ≠ 0 →
    (deleteLoop sys count startTime (pre ++ f :: post) lastProgress currentCount w).1 ≠ none →
    (deleteLoop sys count startTime (pre ++ f :: post) lastProgress currentCount w).1
      = some false ∧
    (deleteLoop sys count startTime (pre ++ f :: post) lastProgress currentCount w).2.fs
      = (prim sys f (fsAfter sys pre w.fs)).2 ∧
    (deleteLoop sys count startTime (pre ++ f :: post) lastProgress currentCount w).2.trace.filter
      Event.isRemoval = w.trace.filter Event.isRemoval ++ pre.map (fun g => primEvent g 0)
        ++ [primEvent f (prim sys f (fsAfter sys pre w.fs)).1] ∧
    stderrText errmsg (deleteLoop sys count startTime (pre ++ f :: post) lastProgress
      currentCount w).2.trace
        = stderrText errmsg w.trace ++ stderrText errmsg [Event.perror (primName f)]
  | [], f, post, lastProgress, currentCount, w, _, hf, _ => by
    simp only [fsAfter] at hf
    rw [List.nil_append, deleteLoop_cons_fail sys count startTime f post lastProgress
      currentCount w hf]
    refine ⟨rfl, rfl, ?_, ?_⟩
    · simp only [World.emit, afterPrim_trace, List.filter_append, List.append_assoc,
        List.map_nil, List.nil_append, fsAfter]
      rw [List.filter_cons_of_pos (primEvent_isRemoval _ _),
        List.filter_cons_of_neg (by simp [Event.isRemoval])]
      rfl
    · simp only [World.emit, afterPrim_trace, stderrText_append, stderrText_primEvent,
        List.append_nil]
  | g :: pre, f, post, lastProgress, currentCount, w, h, hf, hret => by
    obtain ⟨h0, hrest⟩ := h
    simp only [fsAfter] at hf
    obtain ⟨tt, htt, hq⟩ := deleteTick_trace sys count startTime lastProgress
      (currentCount + 1) (afterPrim sys g w)
    rw [List.cons_append] at hret ⊢
    cases hdt : (deleteTick sys count startTime lastProgress (currentCount + 1)
        (afterPrim sys g w)).1 with
    | none =>
      rw [deleteLoop_cons_trap sys count startTime g _ lastProgress currentCount w h0 hdt]
        at hret
      exact absurd rfl hret
    | some last =>
      rw [deleteLoop_cons_step sys count startTime g _ lastProgress currentCount w last
        h0 hdt] at hret ⊢
      obtain ⟨i1, i2, i3, i4⟩ := deleteLoop_fail sys count startTime errmsg pre f post last
        (currentCount + 1) _ (by rw [deleteTick_fs, afterPrim_fs]; exact hrest)
        (by rw [deleteTick_fs, afterPrim_fs]; exact hf) hret
      refine ⟨i1, ?_, ?_, ?_⟩
      · rw [i2, deleteTick_fs, afterPrim_fs]; rfl
      · rw [i3, htt, deleteTick_fs, afterPrim_fs, afterPrim_trace, h0]
        simp [List.filter_append, primEvent_isRemoval, fsAfter,
          filter_isRemoval_of_none (fun e he => (hq e he).2.1)]
      · rw [i4, htt, afterPrim_trace]
        have hnone : stderrText errmsg ([primEvent g (prim sys g w.fs).1] ++ tt) = [] := by
          rw [stderrText_append, stderrText_primEvent,
            stderrText_of_none errmsg (fun e he => (hq e he).2.2 errmsg)]
          rfl
        rw [List.append_assoc, stderrText_append, hnone, List.append_nil]

/-- Whatever happens, no primitive is called after one that failed, none is
called twice and none is skipped: the removal calls the loop makes are those of
the first `k` entries, in plan order, for some `k`. -/
theorem deleteLoop_calls_prefix {σ : Type} (sys : Sys σ) (count : Nat) (startTime : Int) :
    ∀ (files : List File) (lastProgress : Int) (currentCount : Nat) (w : World σ),
    ∃ k, k ≤ files.length ∧
      ((deleteLoop sys count startTime files lastProgress currentCount w).2.trace.filter
        Event.isRemoval).map Event.withoutResult =
        (w.trace.filter Event.isRemoval).map Event.withoutResult ++
          (files.take k).map (fun f => primEvent f 0)
  | [], _, _, w => ⟨0, le_refl _, by simp [deleteLoop]⟩
  | f :: rest, lastProgress, currentCount, w => by
    have hone : ∀ r : Int, (primEvent f r).withoutResult = primEvent f 0 := by
      intro r
      unfold primEvent
      split <;> rfl
    obtain ⟨tt, htt, hq⟩ := deleteTick_trace sys count startTime lastProgress
      (currentCount + 1) (afterPrim sys f w)
    by_cases h0 : (prim sys f w.fs).1 = 0
    · cases hdt : (deleteTick sys count startTime lastProgress (currentCount + 1)
          (afterPrim sys f w)).1 with
      | none =>
        rw [deleteLoop_cons_trap sys count startTime f rest lastProgress currentCount w h0 hdt]
        refine ⟨1, by simp, ?_⟩
        rw [htt, afterPrim_trace]
        simp [List.filter_append, primEvent_isRemoval, hone,
          filter_isRemoval_of_none (fun e he => (hq e he).2.1)]
      | some last =>
        rw [deleteLoop_cons_step sys count startTime f rest lastProgress currentCount w last
          h0 hdt]
        obtain ⟨k, hk, ih⟩ := deleteLoop_calls_prefix sys count startTime rest last
          (currentCount + 1)
          (deleteTick sys count startTime lastProgress (currentCount + 1)
            (afterPrim sys f w)).2
        refine ⟨k + 1, by simpa using hk, ?_⟩
        rw [ih, htt, afterPrim_trace]
        simp [List.filter_append, primEvent_isRemoval, hone,
          filter_isRemoval_of_none (fun e he => (hq e he).2.1)]
    · rw [deleteLoop_cons_fail sys count startTime f rest lastProgress currentCount w h0]
      refine ⟨1, by simp, ?_⟩
      simp only [World.emit, afterPrim_trace, List.filter_append, List.map_append,
        List.append_assoc, List.take_succ_cons, List.take_zero, List.map_cons, List.map_nil]
      rw [List.filter_cons_of_pos (primEvent_isRemoval _ _),
        List.filter_cons_of_neg (by simp [Event.isRemoval])]
      simp [hone]

/-! ## Fail-fast (C4) -/

/-- If the removal primitives succeed on the entries `pre` (entries `1..k-1`),
the primitive of the next entry `f` (entry `k`) reports failure, and every call
of `progress` made on the way returns, then `recursiveDelete` returns `false`,
and the removal calls it makes are exactly those of `pre` in plan order
followed by the failing call on `f`: no call is made on any entry of `post`,
none is repeated, and the state is the one the failing call left. -/
theorem recursiveDelete_fail_fast {σ : Type} (sys : Sys σ) (pre : List File) (f : File)
    (post : List File) (count : Nat) (startTime : Int) (w : World σ)
    (hpre : PrimsSucceed sys pre w.fs)
    (hf : (prim sys f (fsAfter sys pre w.fs)).1 ≠ 0)
    (hret : (recursiveDelete sys { files := pre ++ f :: post, count := count }
      startTime w).1 ≠ none) :
    (recursiveDelete sys { files := pre ++ f :: post, count := count } startTime w).1
      = some false ∧
    (recursiveDelete sys { files := pre ++ f :: post, count := count } startTime w).2.trace.filter
      Event.isRemoval =
        w.trace.filter Event.isRemoval ++ pre.map (fun g => primEvent g 0)
          ++ [primEvent f (prim sys f (fsAfter sys pre w.fs)).1] ∧
    (recursiveDelete sys { files := pre ++ f :: post, count := count } startTime w).2.fs =
      (prim sys f (fsAfter sys pre w.fs)).2 := by
  obtain ⟨h1, h2, h3, _⟩ := deleteLoop_fail sys count startTime [] pre f post startTime 0
    (w.emit (.stdout "\n".toList)) hpre hf hret
  refine ⟨h1, ?_, h2⟩
  rw [recursiveDelete, h3]
  simp [World.emit, List.filter_append, Event.isRemoval]

/-- Whatever the primitives and the calls of `progress` do, the removal calls
`recursiveDelete` makes are those of the first `k` entries of the plan, in plan
order, for some `k`: no entry is skipped, none is retried. -/
theorem recursiveDelete_calls_prefix {σ : Type} (sys : Sys σ) (lst : FileList)
    (startTime : Int) (w : World σ) :
    ∃ k, k ≤ lst.files.length ∧
      ((recursiveDelete sys lst startTime w).2.trace.filter Event.isRemoval).map
        Event.withoutResult =
        (w.trace.filter Event.isRemoval).map Event.withoutResult ++
          (lst.files.take k).map (fun f => primEvent f 0) := by
  obtain ⟨k, hk, h⟩ := deleteLoop_calls_prefix sys lst.count startTime lst.files startTime 0
    (w.emit (.stdout "\n".toList))
  refine ⟨k, hk, ?_⟩
  rw [recursiveDelete, h]
  simp [World.emit, List.filter_append, Event.isRemoval]

/-! ## C6 -/

theorem addsOf_of_closedir {cl : List Event} (h : ∀ e ∈ cl, e.isClosedir = true) :
    addsOf cl = [] := by
  induction cl with
  | nil => rfl
  | cons e cl ih =>
    have he := h e (List.mem_cons_self _ _)
    cases e <;> simp [Event.isClosedir] at he
    simp [addsOf, ih (fun x hx => h x (List.mem_cons_of_mem _ hx))]

/-- A successful scan met no directory that cannot be opened. -/
theorem scanFiles_ok_no_unopenable {root x : CStr × Node}
    (hok : (scanFiles root.1 root.2).1 = true) : ¬ Unopenable root x := by
  rintro ⟨ht, hop, hatt⟩
  obtain ⟨hx, _⟩ := inTree_block ht hok
  have hxok : (scanFiles x.1 x.2).1 = true := by
    rcases hatt with rfl | hd
    · exact hok
    · exact hx hd
  rw [scanFiles_open_fail x.1 x.2 hop] at hxok
  cases hxok

/-- C6. `loadFileList` returns failure exactly when some directory of the tree
on which it calls `opendir` (the root, or an entry reported as a directory
below it) cannot be opened. When it fails, the trace it adds is: events without
any failed `opendir`, then the failed `opendir` on such a directory with its
two diagnostics, then only `closedir` calls; so the failure is at the first
unopenable directory met, no directory is opened afterwards, and the plan holds
exactly the entries appended before the failure. -/
theorem C6_scan_fails_iff_unopenable {σ : Type} (sys : Sys σ) (path : CStr) (root : Node)
    (s : Scan σ) :
    ((loadFileList sys path root s).1 = false ↔ ∃ x, Unopenable (path, root) x) ∧
    ((loadFileList sys path root s).1 = false →
      ∃ x pre cl, Unopenable (path, root) x ∧
        (loadFileList sys path root s).2.world.trace
          = s.world.trace ++ pre ++ failEvents x.1 ++ cl ∧
        (∀ e ∈ pre, e.scanQuiet = true) ∧ (∀ e ∈ cl, e.isClosedir = true) ∧
        (loadFileList sys path root s).2.fl.files = s.fl.files ++ addsOf pre) := by
  obtain ⟨t, hrel, hok, hadds, _, hf⟩ := loadFileList_rel sys root path s
  have key : (loadFileList sys path root s).1 = false →
      ∃ x pre cl, Unopenable (path, root) x ∧
        (loadFileList sys path root s).2.world.trace
          = s.world.trace ++ pre ++ failEvents x.1 ++ cl ∧
        (∀ e ∈ pre, e.scanQuiet = true) ∧ (∀ e ∈ cl, e.isClosedir = true) ∧
        (loadFileList sys path root s).2.fl.files = s.fl.files ++ addsOf pre := by
    intro h
    obtain ⟨x, hx, pre, cl, rfl, hpre, hcl⟩ := hf h
    refine ⟨x, pre, cl, hx, by rw [hrel.trace]; simp [List.append_assoc], hpre, hcl, ?_⟩
    rw [hrel.files]
    simp [addsOf_append, addsOf_of_closedir hcl, failEvents, addsOf]
  refine ⟨⟨fun h => ?_, fun h => ?_⟩, key⟩
  · obtain ⟨x, _, _, hx, _⟩ := key h
    exact ⟨x, hx⟩
  · obtain ⟨x, hx⟩ := h
    cases hr : (loadFileList sys path root s).1 with
    | false => rfl
    | true =>
      rw [hr] at hok
      exact absurd hx (@scanFiles_ok_no_unopenable (path, root) x hok.symm)

/-- Witness of C6: in `lockedTree` the scan fails at `a/y`, after `a/x` was
appended; `a/z` is never reached. -/
theorem C6_scan_fails_iff_unopenable_witness :
    lockedScan.1 = false ∧
    lockedScan.2.fl.files = [File.mk "a/x".toList true] ∧
    lockedScan.2.world.trace.filter Event.isScan =
      [Event.opendir "a".toList true, Event.opendir "a/x".toList true,
        Event.closedir "a/x".toList, Event.add (File.mk "a/x".toList true),
        Event.opendir "a/y".toList false, Event.closedir "a".toList] ∧
    ((lockedScan.1 = false ↔ ∃ x, Unopenable ("a".toList, lockedTree) x) ∧
    (lockedScan.1 = false →
      ∃ x pre cl, Unopenable ("a".toList, lockedTree) x ∧
        lockedScan.2.world.trace
          = (scanStart "a".toList (emptyWorld ())).world.trace ++ pre ++ failEvents x.1 ++ cl ∧
        (∀ e ∈ pre, e.scanQuiet = true) ∧ (∀ e ∈ cl, e.isClosedir = true) ∧
        lockedScan.2.fl.files
          = (scanStart "a".toList (emptyWorld ())).fl.files ++ addsOf pre)) :=
  ⟨by decide, by decide, by decide,
    C6_scan_fails_iff_unopenable okSys "a".toList lockedTree
      (scanStart "a".toList (emptyWorld ()))⟩

/-! ## main -/

theorem main_usage {σ : Type} (sys : Sys σ) (tree : Node) (program : CStr)
    (args : List CStr) (w : World σ) (h : args.length ≠ 1) :
    main sys tree program args w = (some 1, w.emit (.stdout (usageText program))) := by
  cases args with
  | nil => rfl
  | cons a rest =>
    cases rest with
    | nil => simp at h
    | cons b rest2 => rfl

theorem main_scan_fail {σ : Type} (sys : Sys σ) (tree : Node) (program path : CStr)
    (w : World σ) (h : (loadFileList sys path tree (scanStart path w)).1 = false) :
    main sys tree program [path] w =
      (some 1, (loadFileList sys path tree (scanStart path w)).2.world) := by
  simp only [main]
  cases hr : loadFileList sys path tree (scanStart path w) with
  | mk ok s =>
    rw [hr] at h
    simp only at h
    subst h
    rfl

theorem main_scan_ok {σ : Type} (sys : Sys σ) (tree : Node) (program path : CStr)
    (w : World σ) (h : (loadFileList sys path tree (scanStart path w)).1 = true) :
    main sys tree program [path] w =
      deletePhase sys (loadFileList sys path tree (scanStart path w)).2 := by
  simp only [main]
  cases hr : loadFileList sys path tree (scanStart path w) with
  | mk ok s =>
    rw [hr] at h
    simp only at h
    subst h
    rfl

theorem deleteStart_trace {σ : Type} (sys : Sys σ) (s : Scan σ) :
    (deleteStart sys s).trace = s.world.trace ++
      [Event.stdout (totalText s.fl.count), Event.time (sys.time s.world.ticks)] := by
  simp [deleteStart, World.emit, World.now]

theorem deleteStart_fs {σ : Type} (sys : Sys σ) (s : Scan σ) :
    (deleteStart sys s).fs = s.world.fs := rfl

theorem deleteStart_ticks {σ : Type} (sys : Sys σ) (s : Scan σ) :
    (deleteStart sys s).ticks = s.world.ticks + 1 := rfl

theorem deletePhase_eq {σ : Type} (sys : Sys σ) (s : Scan σ) :
    deletePhase sys s =
      match recursiveDelete sys s.fl (sys.time s.world.ticks) (deleteStart sys s) with
      | (none, w) => (none, w)
      | (some false, w) => (some 1, w)
      | (some true, w) => finalRender sys s.fl.count (sys.time s.world.ticks) w := rfl

/-- The delete phase when a call of `progress` inside `recursiveDelete` does
not return. -/
theorem deletePhase_killed {σ : Type} (sys : Sys σ) (s : Scan σ)
    (h : (recursiveDelete sys s.fl (sys.time s.world.ticks) (deleteStart sys s)).1 = none) :
    deletePhase sys s =
      (none, (recursiveDelete sys s.fl (sys.time s.world.ticks) (deleteStart sys s)).2) := by
  rw [deletePhase_eq]
  cases hd : recursiveDelete sys s.fl (sys.time s.world.ticks) (deleteStart sys s) with
  | mk o w2 =>
    rw [hd] at h
    simp only at h
    subst h
    rfl

/-- The delete phase when `recursiveDelete` returns `false`. -/
theorem deletePhase_failed {σ : Type} (sys : Sys σ) (s : Scan σ)
    (h : (recursiveDelete sys s.fl (sys.time s.world.ticks) (deleteStart sys s)).1
      = some false) :
    deletePhase sys s =
      (some 1, (recursiveDelete sys s.fl (sys.time s.world.ticks) (deleteStart sys s)).2) := by
  rw [deletePhase_eq]
  cases hd : recursiveDelete sys s.fl (sys.time s.world.ticks) (deleteStart sys s) with
  | mk o w2 =>
    rw [hd] at h
    simp only at h
    subst h
    rfl

/-- The delete phase when `recursiveDelete` returns `true`: the forced final
call of `progress` follows. -/
theorem deletePhase_done {σ : Type} (sys : Sys σ) (s : Scan σ)
    (h : (recursiveDelete sys s.fl (sys.time s.world.ticks) (deleteStart sys s)).1
      = some true) :
    deletePhase sys s =
      finalRender sys s.fl.count (sys.time s.world.ticks)
        (recursiveDelete sys s.fl (sys.time s.world.ticks) (deleteStart sys s)).2 := by
  rw [deletePhase_eq]
  cases hd : recursiveDelete sys s.fl (sys.time s.world.ticks) (deleteStart sys s) with
  | mk o w2 =>
    rw [hd] at h
    simp only at h
    subst h
    rfl

theorem finalRender_trace {σ : Type} (sys : Sys σ) (count : Nat) (startTime : Int)
    (w : World σ) :
    (finalRender sys count startTime w).2.trace = w.trace ++
      [Event.time (sys.time w.ticks),
        Event.progress (toInt count) (toInt count) (sys.time w.ticks - startTime)] := by
  simp [finalRender, World.emit, World.now]

theorem finalRender_fs {σ : Type} (sys : Sys σ) (count : Nat) (startTime : Int)
    (w : World σ) : (finalRender sys count startTime w).2.fs = w.fs := rfl

theorem finalRender_exit {σ : Type} (sys : Sys σ) (count : Nat) (startTime : Int)
    (w : World σ) :
    (finalRender sys count startTime w).1 =
      (progress (termWidth sys w.ticks) (toInt count) (toInt count)
        (sys.time w.ticks - startTime)).map (fun _ => 0) := by
  simp only [finalRender, World.now]

/-- The forced final call either returns, and the exit code is 0, or it does
not return. -/
theorem finalRender_exit_cases {σ : Type} (sys : Sys σ) (count : Nat) (startTime : Int)
    (w : World σ) :
    (finalRender sys count startTime w).1 = none ∨
      (finalRender sys count startTime w).1 = some 0 := by
  rw [finalRender_exit]
  cases progress (termWidth sys w.ticks) (toInt count) (toInt count)
    (sys.time w.ticks - startTime) with
  | none => exact Or.inl rfl
  | some line => exact Or.inr rfl

theorem deleteLoop_true {σ : Type} (sys : Sys σ) (count : Nat) (startTime : Int) :
    ∀ (files : List File) (lastProgress : Int) (currentCount : Nat) (w : World σ),
    (deleteLoop sys count startTime files lastProgress currentCount w).1 = some true →
    PrimsSucceed sys files w.fs
  | [], _, _, _, _ => trivial
  | f :: rest, lastProgress, currentCount, w, h => by
    by_cases h0 : (prim sys f w.fs).1 = 0
    · cases hdt : (deleteTick sys count startTime lastProgress (currentCount + 1)
          (afterPrim sys f w)).1 with
      | none =>
        rw [deleteLoop_cons_trap sys count startTime f rest lastProgress currentCount w h0 hdt]
          at h
        cases h
      | some last =>
        rw [deleteLoop_cons_step sys count startTime f rest lastProgress currentCount w last
          h0 hdt] at h
        have ih := deleteLoop_true sys count startTime rest _ _ _ h
        rw [deleteTick_fs, afterPrim_fs] at ih
        exact ⟨h0, ih⟩
    · rw [deleteLoop_cons_fail sys count startTime f rest lastProgress currentCount w h0] at h
      cases h

/-- `recursiveDelete` returns `true` exactly when every primitive succeeds and
every call of `progress` it makes returns. -/
theorem recursiveDelete_true_iff {σ : Type} (sys : Sys σ) (lst : FileList) (startTime : Int)
    (w : World σ) :
    (recursiveDelete sys lst startTime w).1 = some true ↔
      PrimsSucceed sys lst.files w.fs ∧ (recursiveDelete sys lst startTime w).1 ≠ none :=
  ⟨fun h => ⟨deleteLoop_true sys lst.count startTime lst.files startTime 0
      (w.emit (.stdout "\n".toList)) h, by rw [h]; simp⟩,
   fun h => (deleteLoop_ok sys lst.count startTime lst.files startTime 0
      (w.emit (.stdout "\n".toList)) h.1 h.2).1⟩

theorem recursiveDelete_trace {σ : Type} (sys : Sys σ) (lst : FileList) (startTime : Int)
    (w : World σ) :
    ∃ t, (recursiveDelete sys lst startTime w).2.trace = w.trace ++ t ∧
      ∀ e ∈ t, e.isScan = false := by
  obtain ⟨t, ht, hd⟩ := deleteLoop_trace sys lst.count startTime lst.files startTime 0
    (w.emit (.stdout "\n".toList))
  refine ⟨[Event.stdout "\n".toList] ++ t, by rw [recursiveDelete, ht]; simp [World.emit], ?_⟩
  intro e he
  simp only [List.mem_append, List.mem_singleton] at he
  rcases he with rfl | h
  · rfl
  · have := hd e h
    cases e <;> first | rfl | simp [Event.isDelete] at this

/-- The outcome of `recursiveDelete` is one of three: a call of `progress` did
not return, or it returned `true` or `false`. -/
theorem option_bool_cases (o : Option Bool) : o = none ∨ o = some false ∨ o = some true := by
  cases o with
  | none => exact Or.inl rfl
  | some b => cases b <;> simp

/-- The delete phase adds no scan event to the trace, whatever its outcome. -/
theorem deletePhase_trace {σ : Type} (sys : Sys σ) (s : Scan σ) :
    ∃ t, (deletePhase sys s).2.trace = s.world.trace ++ t ∧ ∀ e ∈ t, e.isScan = false := by
  obtain ⟨t, ht, hsc⟩ := recursiveDelete_trace sys s.fl (sys.time s.world.ticks)
    (deleteStart sys s)
  have hpre : ∀ e ∈ [Event.stdout (totalText s.fl.count),
      Event.time (sys.time s.world.ticks)] ++ t, e.isScan = false := by
    intro e he
    simp only [List.mem_append, List.mem_cons, List.mem_singleton, List.not_mem_nil,
      or_false] at he
    rcases he with (rfl | rfl) | h
    · rfl
    · rfl
    · exact hsc e h
  rw [deleteStart_trace] at ht
  rcases option_bool_cases (recursiveDelete sys s.fl (sys.time s.world.ticks)
    (deleteStart sys s)).1 with h | h | h
  · rw [deletePhase_killed sys s h]
    exact ⟨_, by rw [ht, List.append_assoc], hpre⟩
  · rw [deletePhase_failed sys s h]
    exact ⟨_, by rw [ht, List.append_assoc], hpre⟩
  · rw [deletePhase_done sys s h, finalRender_trace]
    refine ⟨([Event.stdout (totalText s.fl.count), Event.time (sys.time s.world.ticks)] ++ t)
      ++ [Event.time (sys.time (recursiveDelete sys s.fl (sys.time s.world.ticks)
          (deleteStart sys s)).2.ticks),
        Event.progress (toInt s.fl.count) (toInt s.fl.count)
          (sys.time (recursiveDelete sys s.fl (sys.time s.world.ticks)
            (deleteStart sys s)).2.ticks - sys.time s.world.ticks)],
      by rw [ht]; simp [List.append_assoc], ?_⟩
    intro e he
    rcases List.mem_append.1 he with h1 | h1
    · exact hpre e h1
    · simp only [List.mem_cons, List.mem_singleton, List.not_mem_nil, or_false] at h1
      rcases h1 with rfl | rfl <;> rfl

/-- The exit code of the delete phase: 0 exactly when every removal primitive
succeeds and every call of `progress` returns; 1 exactly when a primitive
fails before any call of `progress` fails to return; no exit code otherwise. -/
theorem deletePhase_exit {σ : Type} (sys : Sys σ) (s : Scan σ) :
    ((deletePhase sys s).1 = none ∨ (deletePhase sys s).1 = some 0 ∨
      (deletePhase sys s).1 = some 1) ∧
    ((deletePhase sys s).1 = some 0 ↔
      PrimsSucceed sys s.fl.files s.world.fs ∧ (deletePhase sys s).1 ≠ none) ∧
    ((deletePhase sys s).1 = some 1 → ¬ PrimsSucceed sys s.fl.files s.world.fs) := by
  have hiff := recursiveDelete_true_iff sys s.fl (sys.time s.world.ticks) (deleteStart sys s)
  rw [deleteStart_fs] at hiff
  have hnf := deleteLoop_not_false sys s.fl.count (sys.time s.world.ticks) s.fl.files
    (sys.time s.world.ticks) 0 ((deleteStart sys s).emit (.stdout "\n".toList))
  rcases option_bool_cases (recursiveDelete sys s.fl (sys.time s.world.ticks)
    (deleteStart sys s)).1 with h | h | h
  · rw [deletePhase_killed sys s h]
    exact ⟨Or.inl rfl, ⟨(fun h1 => by cases h1), fun h1 => absurd rfl h1.2⟩,
      fun h1 => by cases h1⟩
  · rw [deletePhase_failed sys s h]
    refine ⟨Or.inr (Or.inr rfl), ⟨(fun h1 => by cases h1), fun h1 => ?_⟩, fun _ hp => ?_⟩
    · exact absurd h (hnf h1.1)
    · exact absurd h (hnf hp)
  · rw [deletePhase_done sys s h]
    have hp := (hiff.1 h).1
    rcases finalRender_exit_cases sys s.fl.count (sys.time s.world.ticks)
      (recursiveDelete sys s.fl (sys.time s.world.ticks) (deleteStart sys s)).2 with hf | hf
    · rw [hf]
      exact ⟨Or.inl rfl, ⟨(fun h1 => by cases h1), fun h1 => absurd rfl h1.2⟩,
        fun h1 => by cases h1⟩
    · rw [hf]
      exact ⟨Or.inr (Or.inl rfl), ⟨fun _ => ⟨hp, by simp⟩, fun _ => rfl⟩,
        fun h1 => by cases h1⟩

theorem scanQuiet_not_removal {e : Event} (h : e.scanQuiet = true) : e.isRemoval = false := by
  cases e <;> first | rfl | simp [Event.scanQuiet] at h

theorem isClosedir_not_removal {e : Event} (h : e.isClosedir = true) : e.isRemoval = false := by
  cases e <;> first | rfl | simp [Event.isClosedir] at h

/-- The scan adds no removal call to the trace and leaves the removal state
untouched, whether it succeeds or fails. -/
theorem loadFileList_no_removal {σ : Type} (sys : Sys σ) (path : CStr) (n : Node)
    (s : Scan σ) :
    ∃ t, (loadFileList sys path n s).2.world.trace = s.world.trace ++ t ∧
      (∀ e ∈ t, e.isRemoval = false) ∧
      (loadFileList sys path n s).2.world.fs = s.world.fs := by
  obtain ⟨t, hrel, _, _, hq, hf⟩ := loadFileList_rel sys n path s
  refine ⟨t, hrel.trace, ?_, hrel.fs⟩
  cases hr : (loadFileList sys path n s).1 with
  | true =>
    intro e he
    exact scanQuiet_not_removal (hq hr e he)
  | false =>
    obtain ⟨x, _, pre, cl, rfl, hpre, hcl⟩ := hf hr
    intro e he
    simp only [List.mem_append, failEvents, List.mem_cons, List.mem_singleton,
      List.not_mem_nil, or_false] at he
    rcases he with (h | (rfl | rfl | rfl)) | h
    · exact scanQuiet_not_removal (hpre e h)
    · rfl
    · rfl
    · rfl
    · exact isClosedir_not_removal (hcl e h)

/-! ## C5 -/

/-- C5. In every run of `main` the trace splits into a first part without any
`unlink` or `rmdir` call and a second part without any `opendir`, `closedir` or
plan append; when one argument is given, the first part ends exactly where
`loadFileList` returns, with the removal state still untouched. So no removal
primitive is invoked before the scan of the whole tree has returned. If the
scan fails the second part is empty: no removal primitive is ever invoked, the
removal state is untouched and the exit code is 1. -/
theorem C5_no_removal_before_scan_returns {σ : Type} (sys : Sys σ) (tree : Node)
    (program : CStr) (args : List CStr) (w : World σ) :
    ∃ t1 t2, (main sys tree program args w).2.trace = w.trace ++ t1 ++ t2 ∧
      (∀ e ∈ t1, e.isRemoval = false) ∧ (∀ e ∈ t2, e.isScan = false) ∧
      ∀ path, args = [path] →
        (loadFileList sys path tree (scanStart path w)).2.world.trace = w.trace ++ t1 ∧
        (loadFileList sys path tree (scanStart path w)).2.world.fs = w.fs ∧
        ((loadFileList sys path tree (scanStart path w)).1 = false →
          t2 = [] ∧ (main sys tree program args w).2.fs = w.fs ∧
          (main sys tree program args w).1 = some 1) := by
  by_cases hlen : args.length = 1
  · obtain ⟨path, rfl⟩ := List.length_eq_one.1 hlen
    obtain ⟨t, ht, hnr, hfs⟩ := loadFileList_no_removal sys path tree (scanStart path w)
    have ht1 : (loadFileList sys path tree (scanStart path w)).2.world.trace =
        w.trace ++ ([Event.stdout ("Scanning \"".toList ++ path ++ "\"\n".toList)] ++ t) := by
      rw [ht]; simp [scanStart, World.emit]
    have hnr1 : ∀ e ∈ [Event.stdout ("Scanning \"".toList ++ path ++ "\"\n".toList)] ++ t,
        e.isRemoval = false := by
      intro e he
      simp only [List.mem_append, List.mem_singleton] at he
      rcases he with rfl | h
      · rfl
      · exact hnr e h
    cases hr : (loadFileList sys path tree (scanStart path w)).1 with
    | false =>
      refine ⟨[Event.stdout ("Scanning \"".toList ++ path ++ "\"\n".toList)] ++ t, [], ?_,
        hnr1, by simp, ?_⟩
      · rw [main_scan_fail sys tree program path w hr, List.append_nil]; exact ht1
      · intro p hp
        cases hp
        refine ⟨ht1, hfs, fun _ => ⟨rfl, ?_, ?_⟩⟩
        · rw [main_scan_fail sys tree program path w hr]; exact hfs
        · rw [main_scan_fail sys tree program path w hr]
    | true =>
      obtain ⟨t2, ht2, hsc⟩ :=
        deletePhase_trace sys (loadFileList sys path tree (scanStart path w)).2
      refine ⟨[Event.stdout ("Scanning \"".toList ++ path ++ "\"\n".toList)] ++ t, t2, ?_,
        hnr1, hsc, ?_⟩
      · rw [main_scan_ok sys tree program path w hr, ht2, ht1]
      · intro p hp
        cases hp
        exact ⟨ht1, hfs, fun h => by rw [hr] at h; cases h⟩
  · refine ⟨[], [Event.stdout (usageText program)], ?_, by simp, ?_, ?_⟩
    · rw [main_usage sys tree program args w hlen]; simp [World.emit]
    · intro e he
      simp only [List.mem_singleton] at he
      subst he; rfl
    · intro p hp
      subst hp
      simp at hlen

/-- Witness of C5: on `lockedTree` the scan fails, so no removal is made. -/
theorem C5_no_removal_before_scan_returns_witness :
    (main okSys lockedTree "eraser".toList ["a".toList] (emptyWorld ())).1 = some 1 ∧
    (main okSys lockedTree "eraser".toList ["a".toList] (emptyWorld ())).2.trace.filter
      Event.isRemoval = [] ∧
    ∃ t1 t2, (main okSys lockedTree "eraser".toList ["a".toList] (emptyWorld ())).2.trace
        = (emptyWorld ()).trace ++ t1 ++ t2 ∧
      (∀ e ∈ t1, e.isRemoval = false) ∧ (∀ e ∈ t2, e.isScan = false) ∧
      ∀ path, ["a".toList] = [path] →
        (loadFileList okSys path lockedTree (scanStart path (emptyWorld ()))).2.world.trace
          = (emptyWorld ()).trace ++ t1 ∧
        (loadFileList okSys path lockedTree (scanStart path (emptyWorld ()))).2.world.fs
          = (emptyWorld ()).fs ∧
        ((loadFileList okSys path lockedTree (scanStart path (emptyWorld ()))).1 = false →
          t2 = [] ∧
          (main okSys lockedTree "eraser".toList ["a".toList] (emptyWorld ())).2.fs
            = (emptyWorld ()).fs ∧
          (main okSys lockedTree "eraser".toList ["a".toList] (emptyWorld ())).1 = some 1) :=
  ⟨by decide, by decide,
    C5_no_removal_before_scan_returns okSys lockedTree "eraser".toList ["a".toList]
      (emptyWorld ())⟩

/-! ## The exit code (C8) -/

/-- The exit code of `main`, when the process reaches a `return` of `main`, is
0 or 1; it is 0 exactly when one argument is given, the scan of it succeeds,
every removal primitive of the plan, called in order, succeeds, and every call
of `progress` returns. When the number of arguments is not one, `main` returns
1 and all it does is print the usage text to standard output: nothing else
enters the trace (no `opendir`, `unlink` or `rmdir`) and the removal state is
untouched. -/
theorem main_exit_code {σ : Type} (sys : Sys σ) (tree : Node) (program : CStr)
    (args : List CStr) (w : World σ) :
    ((main sys tree program args w).1 = none ∨ (main sys tree program args w).1 = some 0 ∨
      (main sys tree program args w).1 = some 1) ∧
    ((main sys tree program args w).1 = some 0 ↔
      ∃ path, args = [path] ∧
        (loadFileList sys path tree (scanStart path w)).1 = true ∧
        PrimsSucceed sys (loadFileList sys path tree (scanStart path w)).2.fl.files w.fs ∧
        (main sys tree program args w).1 ≠ none) ∧
    (args.length ≠ 1 →
      (main sys tree program args w).1 = some 1 ∧
      (main sys tree program args w).2.trace =
        w.trace ++ [Event.stdout ("Usage: ".toList ++ program ++ " <filename>\n".toList)] ∧
      (main sys tree program args w).2.fs = w.fs) := by
  by_cases hlen : args.length = 1
  · obtain ⟨path, rfl⟩ := List.length_eq_one.1 hlen
    have hfs : (loadFileList sys path tree (scanStart path w)).2.world.fs = w.fs :=
      (loadFileList_pure sys path tree (scanStart path w)).2.2.2
    refine ⟨?_, ?_, fun h => absurd hlen h⟩
    · cases hr : (loadFileList sys path tree (scanStart path w)).1 with
      | false => rw [main_scan_fail sys tree program path w hr]; exact Or.inr (Or.inr rfl)
      | true =>
        rw [main_scan_ok sys tree program path w hr]
        exact (deletePhase_exit sys _).1
    · cases hr : (loadFileList sys path tree (scanStart path w)).1 with
      | false =>
        rw [main_scan_fail sys tree program path w hr]
        constructor
        · intro h; cases h
        · rintro ⟨p, hp, hp1, _⟩
          cases hp
          rw [hr] at hp1; cases hp1
      | true =>
        rw [main_scan_ok sys tree program path w hr,
          (deletePhase_exit sys (loadFileList sys path tree (scanStart path w)).2).2.1, hfs]
        constructor
        · rintro ⟨h1, h2⟩
          exact ⟨path, rfl, hr, h1, h2⟩
        · rintro ⟨p, hp, _, hp2, hp3⟩
          cases hp
          exact ⟨hp2, hp3⟩
  · rw [main_usage sys tree program args w hlen]
    refine ⟨Or.inr (Or.inr rfl), ⟨(fun h => by cases h), ?_⟩, fun _ => ⟨rfl, rfl, rfl⟩⟩
    rintro ⟨p, hp, _⟩
    subst hp
    simp at hlen

/-! ## C7 -/

/-- C7 (the code does not do what the claim says). Running `main` on the
directory `a` holding `b.txt` while `unlink` fails: the exit code is 1 and all
that reaches standard error is `perror("unlink")`, which does not contain the
offending path `a/b.txt`. The scan's failure path, on `lockedTree`, does print
the offending path `a/y`. -/
theorem C7_delete_diagnostic_lacks_path :
    (main unlinkFails oneFileTree "eraser".toList ["a".toList] (emptyWorld ())).1 = some 1 ∧
    (main unlinkFails oneFileTree "eraser".toList ["a".toList] (emptyWorld ())).2.trace.filter
      Event.isRemoval = [Event.unlink "a/b.txt".toList (-1)] ∧
    stderrText eacces
      (main unlinkFails oneFileTree "eraser".toList ["a".toList] (emptyWorld ())).2.trace
        = "unlink: Permission denied\n".toList ∧
    ¬ ("a/b.txt".toList <:+: stderrText eacces
      (main unlinkFails oneFileTree "eraser".toList ["a".toList] (emptyWorld ())).2.trace) ∧
    stderrText eacces
      (main okSys lockedTree "eraser".toList ["a".toList] (emptyWorld ())).2.trace
        = "opendir: Permission denied\nPath: \"a/y\"\n".toList ∧
    "a/y".toList <:+: stderrText eacces
      (main okSys lockedTree "eraser".toList ["a".toList] (emptyWorld ())).2.trace := by
  refine ⟨by decide, by decide, by decide, by decide, by decide, by decide⟩

/-! ## C9 and C10: the ETA arithmetic -/

theorem wrapLong_of_range {x : Int} (h0 : 0 ≤ x) (h1 : x < 2 ^ 63) : wrapLong x = x := by
  unfold wrapLong
  rw [Int.emod_eq_of_lt (by omega) (by omega)]
  omega

theorem progress_eta_zero (max elapsed : Int) : progress_eta 0 max elapsed = some 0 := by
  simp [progress_eta]

theorem progress_eta_pos {value max elapsed : Int} (hv : 0 < value) (hm : 0 ≤ max)
    (he : 0 ≤ elapsed) (hno : max * elapsed < 2 ^ 63) :
    progress_eta value max elapsed = some (Int.tdiv (max * elapsed) value) := by
  have hp : 0 ≤ max * elapsed := Int.mul_nonneg hm he
  unfold progress_eta cdiv
  rw [if_pos (by omega), wrapLong_of_range hp hno, if_neg (by omega)]

/-- C9 as the code has it. For `completed`, `total`, `elapsed` not negative and
with `total * elapsed` representable in `time_t`, `progress` computes
`eta = (total * elapsed) / completed` with truncating division when
`completed > 0` and `eta = 0` when `completed = 0`; when `completed = 0` it
computes `eta = 0` for every `total` and `elapsed`, without dividing (the
computation does not trap). -/
theorem C9_eta_formula (value max elapsed : Int) (hv : 0 ≤ value) (hm : 0 ≤ max)
    (he : 0 ≤ elapsed) (hno : max * elapsed < 2 ^ 63) :
    progress_eta value max elapsed =
      some (if value = 0 then 0 else Int.tdiv (max * elapsed) value) ∧
    (∀ m e : Int, progress_eta 0 m e = some 0) := by
  refine ⟨?_, progress_eta_zero⟩
  by_cases h : value = 0
  · rw [if_pos h, h, progress_eta_zero]
  · rw [if_neg h, progress_eta_pos (by omega) hm he hno]

/-- Witness of C9: 7 of 1234 done after 3725 seconds. -/
theorem C9_eta_formula_witness :
    (0 : Int) ≤ 7 ∧ (0 : Int) ≤ 1234 ∧ (0 : Int) ≤ 3725 ∧ (1234 : Int) * 3725 < 2 ^ 63 ∧
    progress_eta 7 1234 3725 = some 656664 ∧
    (progress_eta 7 1234 3725 =
      some (if (7 : Int) = 0 then 0 else Int.tdiv (1234 * 3725) 7) ∧
    (∀ m e : Int, progress_eta 0 m e = some 0)) :=
  ⟨by decide, by decide, by decide, by decide, by decide,
    C9_eta_formula 7 1234 3725 (by decide) (by decide) (by decide) (by decide)⟩

/-- C9 as stated fails: with `completed = 1`, `total = 2^31 - 1` (the largest
`int`) and `elapsed = 2^33` seconds, all non-negative, the product does not fit
`time_t` and `progress` does not compute `(total * elapsed) / completed`. -/
theorem C9_eta_formula_counterexample :
    (0 : Int) < 1 ∧ (0 : Int) ≤ 2 ^ 31 - 1 ∧ (0 : Int) ≤ 2 ^ 33 ∧
    progress_eta 1 (2 ^ 31 - 1) (2 ^ 33) = some (-(2 ^ 33)) ∧
    progress_eta 1 (2 ^ 31 - 1) (2 ^ 33) ≠ some (Int.tdiv ((2 ^ 31 - 1) * 2 ^ 33) 1) := by
  refine ⟨by decide, by decide, by decide, by decide, by decide⟩

theorem strftimeHMS_some {t : Int} (h0 : 0 ≤ t) (h1 : t ≤ gmtimeMax) :
    strftimeHMS t = some (timeOfDay t) := by
  unfold strftimeHMS
  rw [if_pos ⟨by unfold gmtimeMin; omega, h1⟩]

/-- C10 as the code has it. The ETA that `progress` formats and displays is
the projected total duration `(total * elapsed) / completed`, linearly
extrapolated from the throughput so far, not the time remaining (for
`completed ≥ 1`, the product representable in `time_t`, and the elapsed time
and the ETA not beyond the last second `gmtime` converts): on the final
render, where `completed = total`, the ETA value is the elapsed time itself,
and the status text shows the same time after `Elapsed` and after `ETA`. -/
theorem C10_eta_is_projected_total (value total elapsed : Int) (hv : 1 ≤ value)
    (ht : 0 ≤ total) (he : 0 ≤ elapsed) (hno : total * elapsed < 2 ^ 63)
    (hge : elapsed ≤ gmtimeMax) (hgeta : Int.tdiv (total * elapsed) value ≤ gmtimeMax) :
    progress_eta value total elapsed = some (Int.tdiv (total * elapsed) value) ∧
    progress_seta value total elapsed
      = some (timeOfDay (Int.tdiv (total * elapsed) value)) ∧
    (value = total →
      progress_eta value total elapsed = some elapsed ∧
      progress_seta value total elapsed = some (timeOfDay elapsed) ∧
      progress_status value total elapsed =
        some (" ".toList ++ padLeft (fmtInt total).length (fmtInt total) ++ "/".toList
          ++ fmtInt total ++ " Elapsed ".toList ++ timeOfDay elapsed
          ++ " ETA ".toList ++ timeOfDay elapsed)) := by
  have h0 := @progress_eta_pos value total elapsed (by omega) ht he hno
  have hq : 0 ≤ Int.tdiv (total * elapsed) value :=
    Int.tdiv_nonneg (Int.mul_nonneg ht he) (by omega)
  refine ⟨h0, by simp [progress_seta, h0, strftimeHMS_some hq hgeta], ?_⟩
  intro hvt
  subst hvt
  have h1 : progress_eta value value elapsed = some elapsed := by
    rw [h0]
    congr 1
    rw [Int.tdiv_eq_ediv (Int.mul_nonneg (by omega) he) (by omega)]
    exact Int.mul_ediv_cancel_left elapsed (by omega)
  exact ⟨h1, by simp [progress_seta, h1, strftimeHMS_some he hge],
    by simp [progress_status, h1, strftimeHMS_some he hge]⟩

/-- Witness of C10: the final render of the scenario after 10 seconds. -/
theorem C10_eta_is_projected_total_witness :
    (1 : Int) ≤ 3 ∧ (0 : Int) ≤ 3 ∧ (0 : Int) ≤ 10 ∧ (3 : Int) * 10 < 2 ^ 63 ∧
    (10 : Int) ≤ gmtimeMax ∧ Int.tdiv (3 * 10) 3 ≤ gmtimeMax ∧
    progress_status 3 3 10 = some " 3/3 Elapsed 00:00:10 ETA 00:00:10".toList ∧
    (progress_eta 3 3 10 = some (Int.tdiv (3 * 10) 3) ∧
    progress_seta 3 3 10 = some (timeOfDay (Int.tdiv (3 * 10) 3)) ∧
    ((3 : Int) = 3 →
      progress_eta 3 3 10 = some 10 ∧
      progress_seta 3 3 10 = some (timeOfDay 10) ∧
      progress_status 3 3 10 =
        some (" ".toList ++ padLeft (fmtInt 3).length (fmtInt 3) ++ "/".toList
          ++ fmtInt 3 ++ " Elapsed ".toList ++ timeOfDay 10
          ++ " ETA ".toList ++ timeOfDay 10))) :=
  ⟨by decide, by decide, by decide, by decide, by decide, by decide, by decide,
    C10_eta_is_projected_total 3 3 10 (by decide) (by decide) (by decide) (by decide)
      (by decide) (by decide)⟩

/-- C10 as stated fails: on the final render of a three-entry plan after 10
seconds the displayed ETA is `00:00:10`, not zero; and half-way through a
two-entry plan after 10 seconds the ETA is 20 seconds while 10 remain. -/
theorem C10_eta_is_projected_total_counterexample :
    progress_seta 3 3 10 = some "00:00:10".toList ∧
    progress_seta 3 3 10 ≠ some "00:00:00".toList ∧
    progress_status 3 3 10 = some " 3/3 Elapsed 00:00:10 ETA 00:00:10".toList ∧
    progress_eta 1 2 10 = some 20 ∧
    progress_seta 1 2 10 = some "00:00:20".toList := by
  refine ⟨by decide, by decide, by decide, by decide, by decide⟩

/-! ## C2: executing the plan on the model filesystem -/

/-! ### Paths -/

theorem dirBase_eq (q : CStr) :
    dirBase q = if q.length ≠ 0 ∧ q.getLast? ≠ some '/' then q ++ ['/'] else q := by
  show (if q.length ≠ 0 ∧ q.getLast? ≠ some '/' then q ++ ['/'] else q) ++ [] = _
  rw [List.append_nil]

theorem childPath_eq (q name : CStr) : childPath q name = dirBase q ++ name := by
  rw [dirBase_eq]
  rfl

theorem validName_ne_nil {name : CStr} (h : validName name = true) : name ≠ [] := by
  simp [validName] at h
  exact h.1

theorem validName_no_slash {name : CStr} (h : validName name = true) : '/' ∉ name := by
  simp [validName] at h
  exact h.2

/-- The path of an entry with a valid name does not end in `/`, so paths below
it continue with `/`. -/
theorem dirBase_valid (b : CStr) {name : CStr} (h : validName name = true) :
    dirBase (b ++ name) = b ++ name ++ ['/'] := by
  have hne := validName_ne_nil h
  have hns := validName_no_slash h
  have hlast : (b ++ name).getLast? ≠ some '/' := by
    rw [List.getLast?_append_of_ne_nil b hne]
    intro hl
    exact hns (List.mem_of_getLast?_eq_some hl)
  have hlen : (b ++ name).length ≠ 0 := by
    cases name with
    | nil => exact absurd rfl hne
    | cons c t => simp
  rw [dirBase_eq, if_pos ⟨hlen, hlast⟩]

theorem dirBase_length (q : CStr) : q.length ≤ (dirBase q).length := by
  rw [dirBase_eq]
  split <;> simp

theorem dirBase_prefix (q : CStr) : q <+: dirBase q := by
  rw [dirBase_eq]
  split <;> simp

/-- Two entries of one directory whose names are valid and differ have no
path in common, neither themselves nor below them. -/
theorem slash_free_cancel : ∀ {a b x y : CStr}, '/' ∉ a → '/' ∉ b →
    (x = [] ∨ ∃ t, x = '/' :: t) → (y = [] ∨ ∃ t, y = '/' :: t) →
    a ++ x = b ++ y → a = b
  | [], [], _, _, _, _, _, _, _ => rfl
  | [], d :: b, x, y, _, hb, hx, _, h => by
    exfalso
    simp only [List.nil_append, List.cons_append] at h
    rcases hx with rfl | ⟨t, rfl⟩
    · cases h
    · injection h with h1 _
      exact hb (by rw [← h1]; exact List.mem_cons_self _ _)
  | c :: a, [], x, y, ha, _, _, hy, h => by
    exfalso
    simp only [List.nil_append, List.cons_append] at h
    rcases hy with rfl | ⟨t, rfl⟩
    · cases h
    · injection h with h1 _
      exact ha (by rw [h1]; exact List.mem_cons_self _ _)
  | c :: a, d :: b, x, y, ha, hb, hx, hy, h => by
    simp only [List.cons_append] at h
    injection h with h1 h2
    have := slash_free_cancel (fun hm => ha (List.mem_cons_of_mem _ hm))
      (fun hm => hb (List.mem_cons_of_mem _ hm)) hx hy h2
    rw [h1, this]

theorem Under.name_eq {b n1 n2 r : CStr} (h1 : validName n1 = true)
    (h2 : validName n2 = true) (u1 : Under b n1 r) (u2 : Under b n2 r) : n1 = n2 := by
  have key : ∀ {x y : CStr}, (x = [] ∨ ∃ t, x = '/' :: t) → (y = [] ∨ ∃ t, y = '/' :: t) →
      r = b ++ n1 ++ x → r = b ++ n2 ++ y → n1 = n2 := by
    intro x y hx hy e1 e2
    rw [e1, List.append_assoc, List.append_assoc] at e2
    exact slash_free_cancel (validName_no_slash h1) (validName_no_slash h2) hx hy
      (List.append_cancel_left e2)
  rcases u1 with e1 | ⟨t1, e1⟩ <;> rcases u2 with e2 | ⟨t2, e2⟩
  · exact key (Or.inl rfl) (Or.inl rfl) (by simpa using e1) (by simpa using e2)
  · exact key (Or.inl rfl) (Or.inr ⟨t2, rfl⟩) (by simpa using e1) e2
  · exact key (Or.inr ⟨t1, rfl⟩) (Or.inl rfl) e1 (by simpa using e2)
  · exact key (Or.inr ⟨t1, rfl⟩) (Or.inr ⟨t2, rfl⟩) e1 e2

theorem Under.length_lt {q name r : CStr} (h : validName name = true)
    (u : Under (dirBase q) name r) : q.length < r.length := by
  have h1 := dirBase_length q
  have h2 : 0 < name.length := List.length_pos.2 (validName_ne_nil h)
  rcases u with rfl | ⟨t, rfl⟩ <;> simp <;> omega

/-- What lies below the entry `b ++ name` is `Under b name`. -/
theorem inside_under {b name r : CStr} (h : validName name = true)
    (hi : inside (b ++ name) r) : ∃ t, t ≠ [] ∧ r = b ++ name ++ '/' :: t := by
  obtain ⟨⟨t, ht⟩, hne⟩ := hi
  rw [dirBase_valid b h] at ht hne
  refine ⟨t, ?_, by rw [← ht]; simp⟩
  rintro rfl
  exact hne (by simpa using ht)

theorem under_of_inside {b name r : CStr} (h : validName name = true)
    (hi : inside (b ++ name) r) : Under b name r := by
  obtain ⟨t, _, ht⟩ := inside_under h hi
  exact Or.inr ⟨t, ht⟩

/-- What is `Under` an entry of the directory `q` lies below `q`. -/
theorem inside_of_under {q name r : CStr} (h : validName name = true)
    (u : Under (dirBase q) name r) : inside q r := by
  have hne := validName_ne_nil h
  rcases u with rfl | ⟨t, rfl⟩
  · refine ⟨⟨name, rfl⟩, ?_⟩
    intro he
    have := congrArg List.length he
    simp at this
    exact hne this
  · refine ⟨⟨name ++ '/' :: t, by simp⟩, ?_⟩
    intro he
    have := congrArg List.length he
    simp at this

theorem not_inside_self (q : CStr) : ¬ inside q q := by
  rintro ⟨⟨t, ht⟩, hne⟩
  have h1 := dirBase_length q
  have h2 := congrArg List.length ht
  simp at h2
  have h3 : t = [] := by
    cases t with
    | nil => rfl
    | cons c t => simp at h2; omega
  subst h3
  exact hne (by simpa using ht)

/-! ### The entries of a well-formed tree -/

theorem wf_dir {o : Bool} {es : List (CStr × Node)} (h : (Node.dir o es).wf = true) :
    o = true ∧ wfEntries es = true := by
  simpa [Node.wf] using h

theorem wfEntries_cons {name : CStr} {n : Node} {rest : List (CStr × Node)}
    (h : wfEntries ((name, n) :: rest) = true) :
    wfEntries rest = true ∧
      (notPseudo name = true →
        validName name = true ∧ n.wf = true ∧ ∀ e ∈ rest, e.1 ≠ name) := by
  rw [wfEntries] at h
  simp only [Bool.and_eq_true] at h
  refine ⟨h.2, fun hn => ?_⟩
  have h1 := h.1
  rw [if_pos hn] at h1
  simp only [Bool.and_eq_true, List.all_eq_true, decide_eq_true_eq] at h1
  exact ⟨h1.1.1, h1.1.2, h1.2⟩

theorem treeEntries_file (q : CStr) : treeEntries q Node.file = [(q, false)] := by
  rw [treeEntries]

theorem treeEntries_dir (q : CStr) (o : Bool) (es : List (CStr × Node)) :
    treeEntries q (Node.dir o es) = (q, true) :: childEntries q es := by
  rw [treeEntries]

theorem childEntries_cons (q name : CStr) (n : Node) (rest : List (CStr × Node)) :
    childEntries q ((name, n) :: rest) =
      (if notPseudo name then treeEntries (childPath q name) n else [])
        ++ childEntries q rest := by
  rw [childEntries]

mutual
/-- Every entry of a well-formed tree placed at `q` is `q` itself or lies
below `q`. -/
theorem treeEntries_inside : ∀ (n : Node) (q : CStr), n.wf = true →
    ∀ e ∈ treeEntries q n, e.1 = q ∨ inside q e.1
  | .file, q, _, e, he => by
    rw [treeEntries_file] at he
    simp at he
    exact Or.inl (by rw [he])
  | .dir o es, q, hwf, e, he => by
    rw [treeEntries_dir] at he
    rcases List.mem_cons.1 he with rfl | hc
    · exact Or.inl rfl
    · obtain ⟨name, n, _, _, hv, _, _, hu⟩ := childEntries_under es q (wf_dir hwf).2 e hc
      exact Or.inr (inside_of_under hv hu)
/-- Every entry below a well-formed directory placed at `q` belongs to the
subtree of one of its entries and is `Under` that entry's name. -/
theorem childEntries_under : ∀ (es : List (CStr × Node)) (q : CStr), wfEntries es = true →
    ∀ e ∈ childEntries q es, ∃ name n, (name, n) ∈ es ∧ notPseudo name = true ∧
      validName name = true ∧ n.wf = true ∧ e ∈ treeEntries (childPath q name) n ∧
      Under (dirBase q) name e.1
  | [], q, _, e, he => by simp [childEntries] at he
  | (name, n) :: rest, q, hwf, e, he => by
    obtain ⟨hrest, hhead⟩ := wfEntries_cons hwf
    rw [childEntries_cons] at he
    rcases List.mem_append.1 he with h | h
    · by_cases hn : notPseudo name = true
      · rw [if_pos hn] at h
        obtain ⟨hv, hnwf, _⟩ := hhead hn
        refine ⟨name, n, List.mem_cons_self _ _, hn, hv, hnwf, h, ?_⟩
        rcases treeEntries_inside n (childPath q name) hnwf e h with h1 | h1
        · exact Or.inl (by rw [h1, childPath_eq])
        · rw [childPath_eq] at h1
          exact under_of_inside hv h1
      · rw [if_neg hn] at h
        cases h
    · obtain ⟨name2, n2, hm, hn2, hv2, hwf2, he2, hu2⟩ := childEntries_under rest q hrest e h
      exact ⟨name2, n2, List.mem_cons_of_mem _ hm, hn2, hv2, hwf2, he2, hu2⟩
end

/-! ### Running the removal primitives -/

theorem PrimsSucceed_append {σ : Type} (sys : Sys σ) :
    ∀ (a b : List File) (st : σ),
    PrimsSucceed sys (a ++ b) st ↔ PrimsSucceed sys a st ∧ PrimsSucceed sys b (fsAfter sys a st)
  | [], b, st => by simp [PrimsSucceed, fsAfter]
  | f :: a, b, st => by
    have ih := PrimsSucceed_append sys a b (prim sys f st).2
    show ((prim sys f st).1 = 0 ∧ PrimsSucceed sys (a ++ b) (prim sys f st).2) ↔
      (((prim sys f st).1 = 0 ∧ PrimsSucceed sys a (prim sys f st).2) ∧
        PrimsSucceed sys b (fsAfter sys a (prim sys f st).2))
    rw [ih, and_assoc]

theorem fsAfter_append {σ : Type} (sys : Sys σ) :
    ∀ (a b : List File) (st : σ), fsAfter sys (a ++ b) st = fsAfter sys b (fsAfter sys a st)
  | [], b, st => rfl
  | f :: a, b, st => by
    show fsAfter sys (a ++ b) (prim sys f st).2 = fsAfter sys b (fsAfter sys a (prim sys f st).2)
    exact fsAfter_append sys a b (prim sys f st).2

theorem model_unlink_ok (time : Nat → Int) (tty : Nat → Option (Option (Nat × Nat))) (q : CStr) (st : ModelFS) (h : (q, false) ∈ st) :
    PrimsSucceed (modelSys time tty) [{ filename := q, isDir := false }] st ∧
    fsAfter (modelSys time tty) [{ filename := q, isDir := false }] st
      = st.filter (fun e => decide (e ≠ (q, false))) := by
  simp [PrimsSucceed, fsAfter, prim, modelSys, modelUnlink, h]

theorem model_rmdir_ok (time : Nat → Int) (tty : Nat → Option (Option (Nat × Nat))) (q : CStr) (st : ModelFS) (h : (q, true) ∈ st)
    (hempty : ∀ e ∈ st, ¬ inside q e.1) :
    PrimsSucceed (modelSys time tty) [{ filename := q, isDir := true }] st ∧
    fsAfter (modelSys time tty) [{ filename := q, isDir := true }] st
      = st.filter (fun e => decide (e ≠ (q, true))) := by
  have hc : (q, true) ∈ st ∧ ∀ e ∈ st, ¬ inside q e.1 := ⟨h, hempty⟩
  simp only [PrimsSucceed, fsAfter, prim, modelSys, modelRmdir, if_true, if_pos hc, and_self]

theorem scanEntries_cons_plan (q name : CStr) (n : Node) (rest : List (CStr × Node))
    (hn : notPseudo name = true) (hok : n.isDir = true → (scanFiles (childPath q name) n).1 = true) :
    scanEntries q ((name, n) :: rest) =
      ((scanEntries q rest).1, entryPlan (childPath q name) n ++ (scanEntries q rest).2) := by
  cases hd : n.isDir with
  | true => rw [scanEntries_dir_ok q name n rest hn hd (hok hd), entryPlan_of_isDir hd]
  | false => rw [scanEntries_file q name n rest hn hd]; simp [entryPlan, hd]

theorem wfEntries_mem : ∀ {es : List (CStr × Node)} {name : CStr} {n : Node},
    wfEntries es = true → (name, n) ∈ es → notPseudo name = true →
    validName name = true ∧ n.wf = true
  | [], _, _, _, hm, _ => by cases hm
  | (name0, n0) :: rest, name, n, hwf, hm, hn => by
    obtain ⟨hrest, hhead⟩ := wfEntries_cons hwf
    rcases List.mem_cons.1 hm with heq | hm'
    · cases heq
      exact ⟨(hhead hn).1, (hhead hn).2.1⟩
    · exact wfEntries_mem hrest hm' hn

theorem treeEntries_under {q name : CStr} {n : Node} (hv : validName name = true)
    (hwf : n.wf = true) {e : CStr × Bool} (he : e ∈ treeEntries (childPath q name) n) :
    Under (dirBase q) name e.1 := by
  rcases treeEntries_inside n (childPath q name) hwf e he with h1 | h1
  · exact Or.inl (by rw [h1, childPath_eq])
  · rw [childPath_eq] at h1
    exact under_of_inside hv h1

theorem filter_notMem_append (st A B : ModelFS) :
    (st.filter (fun e => decide (e ∉ A))).filter (fun e => decide (e ∉ B))
      = st.filter (fun e => decide (e ∉ A ++ B)) := by
  rw [List.filter_filter]
  apply List.filter_congr
  intro e _
  simp only [List.mem_append, not_or, Bool.decide_and, decide_not]
  exact Bool.and_comm _ _

theorem filter_ne_eq (st : ModelFS) (x : CStr × Bool) :
    st.filter (fun e => decide (e ≠ x)) = st.filter (fun e => decide (e ∉ [x])) := by
  apply List.filter_congr
  intro e _
  simp

theorem filter_notMem_congr (st : ModelFS) {A B : ModelFS} (h : ∀ e, e ∈ A ↔ e ∈ B) :
    st.filter (fun e => decide (e ∉ A)) = st.filter (fun e => decide (e ∉ B)) := by
  apply List.filter_congr
  intro e _
  simp [h e]

theorem mem_filter_notMem {st A : ModelFS} {e : CStr × Bool} :
    e ∈ st.filter (fun e => decide (e ∉ A)) ↔ e ∈ st ∧ e ∉ A := by
  simp [List.mem_filter]

mutual
/-- Running the part of the plan that belongs to one entry, on a state that
holds the entry's subtree and nothing else below it: every primitive succeeds
and exactly the subtree is removed. -/
theorem model_run_node (time : Nat → Int) (tty : Nat → Option (Option (Nat × Nat))) : ∀ (n : Node) (q : CStr) (st : ModelFS),
    n.wf = true →
    (∀ e ∈ treeEntries q n, e ∈ st) →
    (∀ e ∈ st, inside q e.1 → e ∈ treeEntries q n) →
    (n.isDir = true → (scanFiles q n).1 = true) ∧
    PrimsSucceed (modelSys time tty) (entryPlan q n) st ∧
    fsAfter (modelSys time tty) (entryPlan q n) st
      = st.filter (fun e => decide (e ∉ treeEntries q n))
  | .file, q, st, _, h1, _ => by
    have hm : (q, false) ∈ st := h1 _ (by rw [treeEntries_file]; simp)
    obtain ⟨a, b⟩ := model_unlink_ok time tty q st hm
    have hp : entryPlan q Node.file = [{ filename := q, isDir := false }] := rfl
    rw [hp, treeEntries_file, ← filter_ne_eq]
    exact ⟨(fun h => by cases h), a, b⟩
  | .dir o es, q, st, hwf, h1, h2 => by
    obtain ⟨ho, hes⟩ := wf_dir hwf
    subst ho
    rw [treeEntries_dir] at h1 h2
    have notq : (q, true) ∉ childEntries q es := by
      intro hm
      obtain ⟨name, n, _, _, hv, _, _, hu⟩ := childEntries_under es q hes _ hm
      exact absurd (hu.length_lt hv) (by simp)
    have l1 : ∀ e ∈ childEntries q es, e ∈ st := fun e he => h1 e (List.mem_cons_of_mem _ he)
    have l2 : ∀ e ∈ st, ∀ (name : CStr) (n : Node), (name, n) ∈ es → notPseudo name = true →
        inside (childPath q name) e.1 → e ∈ childEntries q es := by
      intro e he name n hm hn hi
      have hv := (wfEntries_mem hes hm hn).1
      rw [childPath_eq] at hi
      have hu := under_of_inside hv hi
      rcases List.mem_cons.1 (h2 e he (inside_of_under hv hu)) with heq | hc
      · rw [heq] at hu
        exact absurd (hu.length_lt hv) (by simp)
      · exact hc
    obtain ⟨lok, lsucc, lfs⟩ := model_run_entries time tty es q st hes l1 l2
    have hplan : entryPlan q (Node.dir true es)
        = (scanEntries q es).2 ++ [{ filename := q, isDir := true }] := by
      rw [entryPlan_of_isDir (show (Node.dir true es).isDir = true from rfl), scanFiles_dir, lok]
      rfl
    have hq : (q, true) ∈ st.filter (fun e => decide (e ∉ childEntries q es)) :=
      mem_filter_notMem.2 ⟨h1 _ (List.mem_cons_self _ _), notq⟩
    have hempty : ∀ e ∈ st.filter (fun e => decide (e ∉ childEntries q es)),
        ¬ inside q e.1 := by
      intro e he hi
      obtain ⟨hst, hnc⟩ := mem_filter_notMem.1 he
      rcases List.mem_cons.1 (h2 e hst hi) with heq | hc
      · rw [heq] at hi
        exact not_inside_self q hi
      · exact hnc hc
    obtain ⟨rsucc, rfs⟩ := model_rmdir_ok time tty q _ hq hempty
    refine ⟨fun _ => by rw [scanFiles_dir]; exact lok, ?_, ?_⟩
    · rw [hplan, PrimsSucceed_append, lfs]
      exact ⟨lsucc, rsucc⟩
    · rw [hplan, fsAfter_append, lfs, rfs, filter_ne_eq, filter_notMem_append]
      apply filter_notMem_congr
      intro e
      rw [treeEntries_dir]
      simp [or_comm]
/-- Running the part of the plan that belongs to the entries of one directory
that are still to be read. -/
theorem model_run_entries (time : Nat → Int) (tty : Nat → Option (Option (Nat × Nat))) :
    ∀ (es : List (CStr × Node)) (q : CStr) (st : ModelFS),
    wfEntries es = true →
    (∀ e ∈ childEntries q es, e ∈ st) →
    (∀ e ∈ st, ∀ (name : CStr) (n : Node), (name, n) ∈ es → notPseudo name = true →
      inside (childPath q name) e.1 → e ∈ childEntries q es) →
    (scanEntries q es).1 = true ∧
    PrimsSucceed (modelSys time tty) (scanEntries q es).2 st ∧
    fsAfter (modelSys time tty) (scanEntries q es).2 st
      = st.filter (fun e => decide (e ∉ childEntries q es))
  | [], q, st, _, _, _ => by
    simp [scanEntries, childEntries, PrimsSucceed, fsAfter]
  | (name, n) :: rest, q, st, hwf, l1, l2 => by
    obtain ⟨hrest, hhead⟩ := wfEntries_cons hwf
    by_cases hn : notPseudo name = true
    · obtain ⟨hv, hnwf, hdistinct⟩ := hhead hn
      rw [childEntries_cons, if_pos hn] at l1 l2 ⊢
      -- an entry of a later sibling's subtree is not in this entry's subtree
      have sep : ∀ e, e ∈ childEntries q rest → Under (dirBase q) name e.1 → False := by
        intro e he hu
        obtain ⟨name2, n2, hm2, _, hv2, _, _, hu2⟩ := childEntries_under rest q hrest e he
        exact hdistinct (name2, n2) hm2 (Under.name_eq hv hv2 hu hu2).symm
      have c1 : ∀ e ∈ treeEntries (childPath q name) n, e ∈ st :=
        fun e he => l1 e (List.mem_append_left _ he)
      have c2 : ∀ e ∈ st, inside (childPath q name) e.1 →
          e ∈ treeEntries (childPath q name) n := by
        intro e he hi
        rcases List.mem_append.1 (l2 e he name n (List.mem_cons_self _ _) hn hi) with h | h
        · exact h
        · rw [childPath_eq] at hi
          exact absurd (under_of_inside hv hi) (fun hu => sep e h hu)
      obtain ⟨nok, nsucc, nfs⟩ := model_run_node time tty n (childPath q name) st hnwf c1 c2
      have r1 : ∀ e ∈ childEntries q rest,
          e ∈ st.filter (fun e => decide (e ∉ treeEntries (childPath q name) n)) := by
        intro e he
        refine mem_filter_notMem.2 ⟨l1 e (List.mem_append_right _ he), fun hin => ?_⟩
        exact sep e he (treeEntries_under hv hnwf hin)
      have r2 : ∀ e ∈ st.filter (fun e => decide (e ∉ treeEntries (childPath q name) n)),
          ∀ (name2 : CStr) (n2 : Node), (name2, n2) ∈ rest → notPseudo name2 = true →
          inside (childPath q name2) e.1 → e ∈ childEntries q rest := by
        intro e he name2 n2 hm2 hn2 hi
        obtain ⟨hst, hnot⟩ := mem_filter_notMem.1 he
        rcases List.mem_append.1 (l2 e hst name2 n2 (List.mem_cons_of_mem _ hm2) hn2 hi)
          with h | h
        · exact absurd h hnot
        · exact h
      obtain ⟨rok, rsucc, rfs⟩ := model_run_entries time tty rest q _ hrest r1 r2
      rw [scanEntries_cons_plan q name n rest hn nok]
      refine ⟨rok, ?_, ?_⟩
      · show PrimsSucceed _ (_ ++ _) _
        rw [PrimsSucceed_append, nfs]
        exact ⟨nsucc, rsucc⟩
      · show fsAfter _ (_ ++ _) _ = _
        rw [fsAfter_append, nfs, rfs, filter_notMem_append]
    · have hn1 : notPseudo name = false := by simpa using hn
      rw [childEntries_cons, hn1] at l1 l2 ⊢
      simp only [Bool.false_eq_true, if_false, List.nil_append] at l1 l2 ⊢
      rw [scanEntries_pseudo q name n rest hn1]
      exact model_run_entries time tty rest q st hrest l1
        (fun e he name2 n2 hm2 hn2 hi => l2 e he name2 n2 (List.mem_cons_of_mem _ hm2) hn2 hi)
end

/-- On the model filesystem (`unlink` succeeds exactly on an existing
non-directory entry, `rmdir` exactly on an existing directory below which no
entry remains), let the tree be a directory whose directories can all be
opened and whose entry names are valid and distinct among siblings, and let the
filesystem hold the tree at `path` with nothing else below `path`. Then the scan
succeeds and every primitive of the plan, called in plan order, succeeds; when
moreover every call of `progress` returns, `recursiveDelete` on the plan returns
`true`, every plan entry's primitive is called once, in plan order, and returns
0, and afterwards no entry of the tree, the root included, is left: the
filesystem is the initial one without the tree's entries. -/
theorem model_plan_execution (time : Nat → Int) (tty : Nat → Option (Option (Nat × Nat)))
    (path : CStr) (root : Node) (w : World ModelFS) (startTime : Int)
    (hdir : root.isDir = true) (hwf : root.wf = true)
    (h1 : ∀ e ∈ treeEntries path root, e ∈ w.fs)
    (h2 : ∀ e ∈ w.fs, inside path e.1 → e ∈ treeEntries path root)
    (hret : (recursiveDelete (modelSys time tty)
      (loadFileList (modelSys time tty) path root (scanStart path w)).2.fl startTime
      (loadFileList (modelSys time tty) path root (scanStart path w)).2.world).1 ≠ none) :
    (loadFileList (modelSys time tty) path root (scanStart path w)).1 = true ∧
    PrimsSucceed (modelSys time tty)
      (loadFileList (modelSys time tty) path root (scanStart path w)).2.fl.files w.fs ∧
    (recursiveDelete (modelSys time tty)
      (loadFileList (modelSys time tty) path root (scanStart path w)).2.fl startTime
      (loadFileList (modelSys time tty) path root (scanStart path w)).2.world).1 = some true ∧
    (recursiveDelete (modelSys time tty)
      (loadFileList (modelSys time tty) path root (scanStart path w)).2.fl startTime
      (loadFileList (modelSys time tty) path root (scanStart path w)).2.world).2.trace.filter
        Event.isRemoval =
      w.trace.filter Event.isRemoval ++
        (loadFileList (modelSys time tty) path root (scanStart path w)).2.fl.files.map
          (fun f => primEvent f 0) ∧
    (recursiveDelete (modelSys time tty)
      (loadFileList (modelSys time tty) path root (scanStart path w)).2.fl startTime
      (loadFileList (modelSys time tty) path root (scanStart path w)).2.world).2.fs =
        w.fs.filter (fun e => decide (e ∉ treeEntries path root)) ∧
    ∀ e ∈ treeEntries path root,
      e ∉ (recursiveDelete (modelSys time tty)
        (loadFileList (modelSys time tty) path root (scanStart path w)).2.fl startTime
        (loadFileList (modelSys time tty) path root (scanStart path w)).2.world).2.fs := by
  obtain ⟨p1, p2, _, p4⟩ := loadFileList_pure (modelSys time tty) path root (scanStart path w)
  obtain ⟨t, ht, hnr, _⟩ :=
    loadFileList_no_removal (modelSys time tty) path root (scanStart path w)
  obtain ⟨mok, msucc, mfs⟩ := model_run_node time tty root path w.fs hwf h1 h2
  rw [entryPlan_of_isDir hdir] at msucc mfs
  have hfiles : (loadFileList (modelSys time tty) path root (scanStart path w)).2.fl.files
      = (scanFiles path root).2 := by
    rw [p2]; rfl
  have hfs0 : (loadFileList (modelSys time tty) path root (scanStart path w)).2.world.fs
      = w.fs := p4
  have hrun := deleteLoop_ok (modelSys time tty)
    (loadFileList (modelSys time tty) path root (scanStart path w)).2.fl.count startTime
    (loadFileList (modelSys time tty) path root (scanStart path w)).2.fl.files startTime 0
    ((loadFileList (modelSys time tty) path root (scanStart path w)).2.world.emit
      (.stdout "\n".toList))
    (by
      show PrimsSucceed _ _
        (loadFileList (modelSys time tty) path root (scanStart path w)).2.world.fs
      rw [hfs0, hfiles]; exact msucc) hret
  obtain ⟨r1, r2, r3⟩ := hrun
  have hfsEnd : (recursiveDelete (modelSys time tty)
      (loadFileList (modelSys time tty) path root (scanStart path w)).2.fl startTime
      (loadFileList (modelSys time tty) path root (scanStart path w)).2.world).2.fs =
        w.fs.filter (fun e => decide (e ∉ treeEntries path root)) := by
    rw [recursiveDelete, r2]
    show fsAfter _ _
      (loadFileList (modelSys time tty) path root (scanStart path w)).2.world.fs = _
    rw [hfs0, hfiles, mfs]
  refine ⟨by rw [p1]; exact mok hdir, by rw [hfiles]; exact msucc, r1, ?_, hfsEnd, ?_⟩
  · rw [recursiveDelete, r3]
    congr 1
    have e1 : ((loadFileList (modelSys time tty) path root (scanStart path w)).2.world.emit
        (.stdout "\n".toList)).trace =
        (w.trace ++ [Event.stdout ("Scanning \"".toList ++ path ++ "\"\n".toList)]) ++ t
          ++ [Event.stdout "\n".toList] := by
      simp only [World.emit]
      rw [ht]
      rfl
    rw [e1]
    simp only [List.filter_append, filter_isRemoval_of_none hnr, List.append_nil]
    simp [Event.isRemoval]
  · intro e he hmem
    rw [hfsEnd] at hmem
    exact (mem_filter_notMem.1 hmem).2 he

/-! ## The calls follow the plan (C14) -/

/-- When every removal primitive succeeds and every call of `progress` returns,
`recursiveDelete` returns `true` and the removal calls it makes are the plan
mapped entry by entry, front to back: `rmdir` on the stored path of an entry
that is a directory, `unlink` on the stored path of any other entry, each once
and each returning 0; the state left is the one these calls produce. -/
theorem recursiveDelete_calls_follow_plan {σ : Type} (sys : Sys σ) (lst : FileList)
    (startTime : Int) (w : World σ) (h : PrimsSucceed sys lst.files w.fs)
    (hret : (recursiveDelete sys lst startTime w).1 ≠ none) :
    (recursiveDelete sys lst startTime w).1 = some true ∧
    (recursiveDelete sys lst startTime w).2.trace.filter Event.isRemoval =
      w.trace.filter Event.isRemoval ++
        lst.files.map (fun f =>
          if f.isDir then Event.rmdir f.filename 0 else Event.unlink f.filename 0) ∧
    (recursiveDelete sys lst startTime w).2.fs = fsAfter sys lst.files w.fs := by
  obtain ⟨h1, h2, h3⟩ := deleteLoop_ok sys lst.count startTime lst.files startTime 0
    (w.emit (.stdout "\n".toList)) h hret
  refine ⟨h1, ?_, h2⟩
  rw [recursiveDelete, h3]
  have hm : (fun f : File => primEvent f 0) = (fun f : File =>
      if f.isDir then Event.rmdir f.filename 0 else Event.unlink f.filename 0) := by
    funext f
    unfold primEvent
    split <;> rfl
  rw [hm]
  simp [World.emit, List.filter_append, Event.isRemoval]

/-! ## C16 -/

theorem scanEntries_all_pseudo (q : CStr) :
    ∀ (es : List (CStr × Node)), (∀ e ∈ es, notPseudo e.1 = false) →
      scanEntries q es = (true, [])
  | [], _ => by rw [scanEntries]
  | (name, n) :: rest, h => by
    rw [scanEntries_pseudo q name n rest (h (name, n) (List.mem_cons_self _ _))]
    exact scanEntries_all_pseudo q rest (fun e he => h e (List.mem_cons_of_mem _ he))

/-- C16. When the directory at `p` can be opened and yields no entry other
than `.` and `..`, the scan succeeds and appends exactly one entry, with path
`p` and kind Directory; started on the empty list, the plan has length 1 and
that entry is its only one. -/
theorem C16_empty_directory {σ : Type} (sys : Sys σ) (p : CStr) (es : List (CStr × Node))
    (s : Scan σ) (hes : ∀ e ∈ es, notPseudo e.1 = false) :
    (loadFileList sys p (Node.dir true es) s).1 = true ∧
    (loadFileList sys p (Node.dir true es) s).2.fl.files
      = s.fl.files ++ [File.mk p true] ∧
    (s.fl.files = [] →
      (loadFileList sys p (Node.dir true es) s).2.fl.files = [File.mk p true] ∧
      (loadFileList sys p (Node.dir true es) s).2.fl.files.length = 1) := by
  obtain ⟨h1, h2, _, _⟩ := loadFileList_pure sys p (Node.dir true es) s
  have hs : scanFiles p (Node.dir true es) = (true, [File.mk p true]) := by
    rw [scanFiles_dir, scanEntries_all_pseudo p es hes]
    rfl
  rw [hs] at h1 h2
  refine ⟨h1, h2, fun h0 => ?_⟩
  rw [h2, h0]
  exact ⟨rfl, rfl⟩

/-- Witness of C16: the empty directory `e`, scanned as `main` scans it. -/
theorem C16_empty_directory_witness :
    (∀ e ∈ [(dot, Node.dir true []), (dotdot, Node.dir true [])], notPseudo e.1 = false) ∧
    ((loadFileList okSys "e".toList emptyDir (scanStart "e".toList (emptyWorld ()))).1 = true ∧
    (loadFileList okSys "e".toList emptyDir (scanStart "e".toList (emptyWorld ()))).2.fl.files
      = (scanStart "e".toList (emptyWorld ())).fl.files ++ [File.mk "e".toList true] ∧
    ((scanStart "e".toList (emptyWorld ())).fl.files = [] →
      (loadFileList okSys "e".toList emptyDir
        (scanStart "e".toList (emptyWorld ()))).2.fl.files = [File.mk "e".toList true] ∧
      (loadFileList okSys "e".toList emptyDir
        (scanStart "e".toList (emptyWorld ()))).2.fl.files.length = 1)) :=
  ⟨by decide,
    C16_empty_directory okSys "e".toList [(dot, Node.dir true []), (dotdot, Node.dir true [])]
      (scanStart "e".toList (emptyWorld ())) (by decide)⟩

/-! ## C18 -/

theorem getLast?_eq_slash_iff (p : CStr) :
    p.getLast? = some '/' ↔ ∃ q, p = q ++ ['/'] := by
  constructor
  · intro h
    obtain ⟨q, hq⟩ := List.getLast?_eq_some_iff.1 h
    exact ⟨q, hq⟩
  · rintro ⟨q, rfl⟩
    simp

/-- C18. The scan builds child paths only below a path that `opendir` has
opened, which is not empty. For every such parent path `p` and every entry name
`n`, the child path is `p` followed by `n`, with a single `/` inserted between
them exactly when `p` does not already end with `/`, and nothing inserted when
it does. The result has at most `length p + length n + 1` characters, so with
its terminator it fits the buffer of `length p + length n + 2` bytes. -/
theorem C18_child_path (p n : CStr) (hp : p ≠ []) :
    ((¬ ∃ q, p = q ++ ['/']) → childPath p n = p ++ '/' :: n) ∧
    ((∃ q, p = q ++ ['/']) → childPath p n = p ++ n) ∧
    (childPath p n).length ≤ p.length + n.length + 1 ∧
    (childPath p n).length + 1 ≤ filenameSize p n := by
  have hdef : childPath p n =
      (if p.length ≠ 0 ∧ p.getLast? ≠ some '/' then p ++ ['/'] else p) ++ n := rfl
  refine ⟨?_, ?_, ?_, ?_⟩
  · intro hns
    have hc : p.length ≠ 0 ∧ p.getLast? ≠ some '/' :=
      ⟨fun h => hp (List.length_eq_zero.1 h), fun h => hns ((getLast?_eq_slash_iff p).1 h)⟩
    rw [hdef, if_pos hc]
    simp
  · intro h
    have hc : ¬ (p.length ≠ 0 ∧ p.getLast? ≠ some '/') := by
      rintro ⟨_, h2⟩
      exact h2 ((getLast?_eq_slash_iff p).2 h)
    rw [hdef, if_neg hc]
  · rw [hdef]
    split <;> simp
    omega
  · rw [hdef, filenameSize]
    split <;> simp
    omega

/-- Witness of C18: below `a` the entry `b.txt` gets the path `a/b.txt`; below
`a/` the entry `c` gets the path `a/c`. -/
theorem C18_child_path_witness :
    "a".toList ≠ [] ∧
    childPath "a".toList "b.txt".toList = "a/b.txt".toList ∧
    childPath "a/".toList "c".toList = "a/c".toList ∧
    (((¬ ∃ q, "a".toList = q ++ ['/']) →
        childPath "a".toList "b.txt".toList = "a".toList ++ '/' :: "b.txt".toList) ∧
    ((∃ q, "a".toList = q ++ ['/']) →
        childPath "a".toList "b.txt".toList = "a".toList ++ "b.txt".toList) ∧
    (childPath "a".toList "b.txt".toList).length
      ≤ "a".toList.length + "b.txt".toList.length + 1 ∧
    (childPath "a".toList "b.txt".toList).length + 1
      ≤ filenameSize "a".toList "b.txt".toList) :=
  ⟨by decide, by decide, by decide,
    C18_child_path "a".toList "b.txt".toList (by decide)⟩

/-! ## C19: the status text -/

theorem toDigitsCore_length_eq : ∀ (fuel n : Nat) (ds : List Char), n < fuel →
    (Nat.toDigitsCore 10 fuel n ds).length = ds.length + Nat.log 10 n + 1
  | 0, n, ds, h => by omega
  | fuel + 1, n, ds, h => by
    rw [Nat.toDigitsCore]
    by_cases h0 : n / 10 = 0
    · simp only [h0, if_true]
      have : n < 10 := by omega
      rw [Nat.log_of_lt this]
      simp
    · simp only [h0, if_false]
      have hn : 10 ≤ n := by omega
      rw [toDigitsCore_length_eq fuel (n / 10) _ (by omega),
        Nat.log_of_one_lt_of_le (by decide) hn]
      simp
      omega

/-- The number of characters of `%d` for a non-negative number is its decimal
digit count. -/
theorem toDigits_length (n : Nat) : (Nat.toDigits 10 n).length = Nat.log 10 n + 1 := by
  rw [Nat.toDigits, toDigitsCore_length_eq (n + 1) n [] (by omega)]
  simp

theorem fmtInt_length {i : Int} (h : 0 ≤ i) : (fmtInt i).length = Nat.log 10 i.toNat + 1 := by
  rw [fmtInt, if_neg (by omega), toDigits_length]

theorem fmtInt_nonneg {i : Int} (h : 0 ≤ i) : fmtInt i = Nat.toDigits 10 i.toNat := by
  rw [fmtInt, if_neg (by omega)]

theorem timeOfDay_length (t : Int) : (timeOfDay t).length = 8 := by
  simp [timeOfDay, twoDigits]

theorem padLeft_length {width : Nat} {s : CStr} (h : s.length ≤ width) :
    (padLeft width s).length = width := by
  simp [padLeft]
  omega

theorem progress_eta_nonneg_some {value : Int} (max elapsed : Int) (hv : 0 ≤ value) :
    ∃ eta, progress_eta value max elapsed = some eta := by
  by_cases h : value = 0
  · exact ⟨0, by rw [h, progress_eta_zero]⟩
  · refine ⟨Int.tdiv (wrapLong (max * elapsed)) value, ?_⟩
    rw [progress_eta, if_pos h, cdiv, if_neg]
    rintro (h1 | ⟨_, h2⟩) <;> omega

/-- For arguments in the range of `int` and an elapsed time below one day the
ETA is computed and lies, like the elapsed time, in the range of `gmtime`. -/
theorem progress_eta_in_range {value total elapsed : Int} (ht : 1 ≤ total)
    (ht2 : total < 2 ^ 31) (hv0 : 0 ≤ value) (he0 : 0 ≤ elapsed) (he : elapsed < 86400) :
    ∃ eta, progress_eta value total elapsed = some eta ∧ 0 ≤ eta ∧ eta ≤ gmtimeMax := by
  have hprod : total * elapsed ≤ 2 ^ 31 * 86400 :=
    Int.mul_le_mul (by omega) (by omega) he0 (by norm_num)
  have hp0 : 0 ≤ total * elapsed := Int.mul_nonneg (by omega) he0
  by_cases h : value = 0
  · exact ⟨0, by rw [h, progress_eta_zero], le_refl _, by unfold gmtimeMax; norm_num⟩
  · refine ⟨Int.tdiv (total * elapsed) value,
      progress_eta_pos (by omega) (by omega) he0 (by omega),
      Int.tdiv_nonneg hp0 hv0, ?_⟩
    have h1 : Int.tdiv (total * elapsed) value ≤ total * elapsed := by
      rw [Int.tdiv_eq_ediv hp0 hv0]
      exact Int.ediv_le_self value hp0
    unfold gmtimeMax
    omega

/-- C19. For `total ≥ 1` (an `int`, so below `2^31`), `0 ≤ completed ≤ total`
and `0 ≤ elapsed < 86400` the status text is computed (neither the division nor
`gmtime` fails) and is a space, `completed` in decimal right-aligned in a field
of `numberWidth` characters, `/`, `total` in decimal, ` Elapsed `, the elapsed
time as `HH:MM:SS`, ` ETA ` and the ETA as `HH:MM:SS`, where `numberWidth` is
the decimal digit count of `total`; its length is `2 * numberWidth + 32`, which
depends on `total` only, so the bar width at a given terminal width is the same
for every `completed` and `elapsed`. -/
theorem C19_status_text (value total elapsed : Int) (ht : 1 ≤ total) (ht2 : total < 2 ^ 31)
    (hv0 : 0 ≤ value) (hv : value ≤ total) (he0 : 0 ≤ elapsed) (he : elapsed < 86400) :
    ∃ eta status,
      progress_eta value total elapsed = some eta ∧
      strftimeHMS elapsed = some (timeOfDay elapsed) ∧
      strftimeHMS eta = some (timeOfDay eta) ∧
      progress_status value total elapsed = some status ∧
      status = [' '] ++ List.replicate
          (Nat.log 10 total.toNat + 1 - (Nat.toDigits 10 value.toNat).length) ' '
        ++ Nat.toDigits 10 value.toNat ++ ['/'] ++ Nat.toDigits 10 total.toNat
        ++ " Elapsed ".toList ++ timeOfDay elapsed ++ " ETA ".toList ++ timeOfDay eta ∧
      (Nat.toDigits 10 total.toNat).length = Nat.log 10 total.toNat + 1 ∧
      (Nat.toDigits 10 value.toNat).length ≤ Nat.log 10 total.toNat + 1 ∧
      timeOfDay elapsed =
        twoDigits (elapsed.toNat / 3600) ++ [':'] ++ twoDigits (elapsed.toNat % 3600 / 60)
          ++ [':'] ++ twoDigits (elapsed.toNat % 60) ∧
      (timeOfDay eta).length = 8 ∧
      status.length = 2 * (Nat.log 10 total.toNat + 1) + 32 ∧
      ∀ w : Int, progress_barWidth w status.length
        = progress_barWidth w (2 * (Nat.log 10 total.toNat + 1) + 32) := by
  obtain ⟨eta, heta, heta0, heta1⟩ := progress_eta_in_range ht ht2 hv0 he0 he
  have hse : strftimeHMS elapsed = some (timeOfDay elapsed) :=
    strftimeHMS_some he0 (by unfold gmtimeMax; omega)
  have hsa : strftimeHMS eta = some (timeOfDay eta) := strftimeHMS_some heta0 heta1
  have hlt : (Nat.toDigits 10 total.toNat).length = Nat.log 10 total.toNat + 1 :=
    toDigits_length _
  have hlv : (Nat.toDigits 10 value.toNat).length ≤ Nat.log 10 total.toNat + 1 := by
    rw [toDigits_length]
    have : value.toNat ≤ total.toNat := by omega
    have := Nat.log_mono_right (b := 10) this
    omega
  have hst : progress_status value total elapsed = some
      ([' '] ++ List.replicate
          (Nat.log 10 total.toNat + 1 - (Nat.toDigits 10 value.toNat).length) ' '
        ++ Nat.toDigits 10 value.toNat ++ ['/'] ++ Nat.toDigits 10 total.toNat
        ++ " Elapsed ".toList ++ timeOfDay elapsed ++ " ETA ".toList
        ++ timeOfDay eta) := by
    simp only [progress_status, heta, hse, hsa, padLeft, fmtInt_nonneg hv0,
      fmtInt_nonneg (show (0 : Int) ≤ total by omega), hlt]
    rfl
  have hhms : timeOfDay elapsed =
      twoDigits (elapsed.toNat / 3600) ++ [':'] ++ twoDigits (elapsed.toNat % 3600 / 60)
        ++ [':'] ++ twoDigits (elapsed.toNat % 60) := by
    have : elapsed % 86400 = elapsed := Int.emod_eq_of_lt he0 he
    simp only [timeOfDay, this]
  have hlen : ([' '] ++ List.replicate
          (Nat.log 10 total.toNat + 1 - (Nat.toDigits 10 value.toNat).length) ' '
        ++ Nat.toDigits 10 value.toNat ++ ['/'] ++ Nat.toDigits 10 total.toNat
        ++ " Elapsed ".toList ++ timeOfDay elapsed ++ " ETA ".toList
        ++ timeOfDay eta).length = 2 * (Nat.log 10 total.toNat + 1) + 32 := by
    simp only [List.length_append, List.length_replicate, timeOfDay_length, hlt,
      List.length_singleton]
    have e1 : " Elapsed ".toList.length = 9 := rfl
    have e2 : " ETA ".toList.length = 5 := rfl
    rw [e1, e2]
    omega
  exact ⟨eta, _, heta, hse, hsa, hst, rfl, hlt, hlv, hhms, timeOfDay_length eta, hlen,
    fun w => by rw [hlen]⟩

/-- Witness of C19: 7 of 1234 done after 3725 seconds. -/
theorem C19_status_text_witness :
    (1 : Int) ≤ 1234 ∧ (1234 : Int) < 2 ^ 31 ∧ (0 : Int) ≤ 7 ∧ (7 : Int) ≤ 1234 ∧
    (0 : Int) ≤ 3725 ∧ (3725 : Int) < 86400 ∧
    progress_status 7 1234 3725 = some "    7/1234 Elapsed 01:02:05 ETA 14:24:24".toList ∧
    ∃ eta status,
      progress_eta 7 1234 3725 = some eta ∧
      strftimeHMS 3725 = some (timeOfDay 3725) ∧
      strftimeHMS eta = some (timeOfDay eta) ∧
      progress_status 7 1234 3725 = some status ∧
      status = [' '] ++ List.replicate
          (Nat.log 10 (1234 : Int).toNat + 1 - (Nat.toDigits 10 (7 : Int).toNat).length) ' '
        ++ Nat.toDigits 10 (7 : Int).toNat ++ ['/'] ++ Nat.toDigits 10 (1234 : Int).toNat
        ++ " Elapsed ".toList ++ timeOfDay 3725 ++ " ETA ".toList ++ timeOfDay eta ∧
      (Nat.toDigits 10 (1234 : Int).toNat).length = Nat.log 10 (1234 : Int).toNat + 1 ∧
      (Nat.toDigits 10 (7 : Int).toNat).length ≤ Nat.log 10 (1234 : Int).toNat + 1 ∧
      timeOfDay 3725 =
        twoDigits ((3725 : Int).toNat / 3600) ++ [':']
          ++ twoDigits ((3725 : Int).toNat % 3600 / 60)
          ++ [':'] ++ twoDigits ((3725 : Int).toNat % 60) ∧
      (timeOfDay eta).length = 8 ∧
      status.length = 2 * (Nat.log 10 (1234 : Int).toNat + 1) + 32 ∧
      ∀ w : Int, progress_barWidth w status.length
        = progress_barWidth w (2 * (Nat.log 10 (1234 : Int).toNat + 1) + 32) :=
  ⟨by decide, by decide, by decide, by decide, by decide, by decide, by decide,
    C19_status_text 7 1234 3725 (by decide) (by decide) (by decide) (by decide) (by decide)
      (by decide)⟩

/-! ## C11: the bar -/

theorem toSize_of_range {x : Int} (h0 : 0 ≤ x) (h1 : x < 2 ^ 64) : toSize x = x.toNat := by
  rw [toSize, Int.emod_eq_of_lt h0 h1]

theorem toInt_of_lt {n : Nat} (h : n < 2 ^ 31) : toInt n = (n : Int) := by
  unfold toInt
  rw [Int.emod_eq_of_lt (by omega) (by omega)]
  omega

theorem termSize_range (tty : Option (Option (Nat × Nat))) :
    0 ≤ (termSize tty).1 ∧ (termSize tty).1 < 2 ^ 16 := by
  rcases tty with _ | _ | ⟨col, row⟩
  · exact ⟨by decide, by decide⟩
  · exact ⟨by decide, by decide⟩
  · simp only [termSize]
    have h : (0 : Int) ≤ ((col % 2 ^ 16 : Nat) : Int) := Int.ofNat_nonneg _
    rw [if_pos h]
    have : col % 2 ^ 16 < 2 ^ 16 := Nat.mod_lt _ (by decide)
    omega

/-- The bar for a terminal wide enough for the status text. -/
theorem progress_bar_wide (value max w : Int) (status : CStr) (hm1 : 1 ≤ max)
    (hm2 : max < 2 ^ 31) (hv0 : 0 ≤ value) (hv : value ≤ max)
    (hw : (status.length : Int) + 2 ≤ w) (hw2 : w < 2 ^ 31) :
    value.toNat * (w - 2 - status.length).toNat / max.toNat ≤ (w - 2 - status.length).toNat ∧
    progress_bar value max w status = some (['[']
      ++ List.replicate (value.toNat * (w - 2 - status.length).toNat / max.toNat) '█'
      ++ List.replicate ((w - 2 - status.length).toNat
          - value.toNat * (w - 2 - status.length).toNat / max.toNat) ' '
      ++ [']'] ++ status) := by
  have hbw : progress_barWidth w status.length = (w - 2 - status.length).toNat := by
    rw [progress_barWidth, toSize_of_range (by omega) (by omega)]
  have hmax : toSize max = max.toNat := toSize_of_range (by omega) (by omega)
  have hval : toSize value = value.toNat := toSize_of_range (by omega) (by omega)
  generalize hB : (w - 2 - status.length).toNat = bw at hbw ⊢
  have hbw2 : bw < 2 ^ 31 := by omega
  have hv2 : value.toNat < 2 ^ 31 := by omega
  have hvm : value.toNat ≤ max.toNat := by omega
  have hmpos : 0 < max.toNat := by omega
  have hprod : value.toNat * bw < 2 ^ 64 := by
    calc value.toNat * bw ≤ 2 ^ 31 * 2 ^ 31 :=
          Nat.mul_le_mul (Nat.le_of_lt hv2) (Nat.le_of_lt hbw2)
      _ < 2 ^ 64 := by decide
  have hfill : value.toNat * bw / max.toNat ≤ bw := by
    apply Nat.div_le_of_le_mul
    exact Nat.mul_le_mul_right bw hvm
  refine ⟨hfill, ?_⟩
  have hwidth : progress_width value max w status.length
      = some (toInt (value.toNat * bw / max.toNat)) := by
    rw [progress_width, hmax, if_neg (by omega), hval, hbw, Nat.mod_eq_of_lt hprod]
  generalize value.toNat * bw / max.toNat = f at hfill hwidth ⊢
  have hf31 : f < 2 ^ 31 := by omega
  rw [toInt_of_lt hf31] at hwidth
  have hsp : toSize ((bw : Int) - (f : Int)) = bw - f := by
    rw [toSize_of_range (by omega) (by omega)]
    omega
  simp only [progress_bar, hwidth, hbw, hsp, loopCount]
  rw [if_pos (by omega)]
  simp only [Int.toNat_ofNat]

/-- C11 as the code has it. The terminal size provider reports a width between
0 and 65535. For every width `w` at least the length of the status text plus 2
(and below `2^31`), every `total` from 1 to the largest `int` and every
`0 ≤ completed ≤ total`, `progress` emits the cursor-left sequence, `[`,
`filled = (completed * barWidth) / total` block glyphs, `barWidth - filled`
spaces, `]` and the status text, where `barWidth = w - 2 - length(status text)`;
the cells between the brackets number exactly `barWidth` and the line occupies
exactly `w` cells. -/
theorem C11_bar_fills_width (value max elapsed w : Int) (status : CStr)
    (hst : progress_status value max elapsed = some status)
    (hm1 : 1 ≤ max) (hm2 : max < 2 ^ 31) (hv0 : 0 ≤ value) (hv : value ≤ max)
    (hw : (status.length : Int) + 2 ≤ w) (hw2 : w < 2 ^ 31) :
    (∀ tty, 0 ≤ (termSize tty).1 ∧ (termSize tty).1 < 2 ^ 16) ∧
    progress w value max elapsed = some (cursorLeft ++ (['[']
      ++ List.replicate (value.toNat * (w - 2 - status.length).toNat / max.toNat) '█'
      ++ List.replicate ((w - 2 - status.length).toNat
          - value.toNat * (w - 2 - status.length).toNat / max.toNat) ' '
      ++ [']'] ++ status)) ∧
    (List.replicate (value.toNat * (w - 2 - status.length).toNat / max.toNat) '█'
      ++ List.replicate ((w - 2 - status.length).toNat
          - value.toNat * (w - 2 - status.length).toNat / max.toNat) ' ').length
      = (w - 2 - status.length).toNat ∧
    (((['['] ++ List.replicate (value.toNat * (w - 2 - status.length).toNat / max.toNat) '█'
      ++ List.replicate ((w - 2 - status.length).toNat
          - value.toNat * (w - 2 - status.length).toNat / max.toNat) ' '
      ++ [']'] ++ status).length : Nat) : Int) = w := by
  obtain ⟨hfill, hbar⟩ := progress_bar_wide value max w status hm1 hm2 hv0 hv hw hw2
  refine ⟨termSize_range, ?_, ?_, ?_⟩
  · simp only [progress, hst, hbar, Option.map_some']
  · simp only [List.length_append, List.length_replicate]
    omega
  · simp only [List.length_append, List.length_replicate, List.length_singleton]
    omega

/-- Witness of C11: 1 of 3 done after 10 seconds on an 80-column terminal. -/
theorem C11_bar_fills_width_witness :
    progress_status 1 3 10 = some " 1/3 Elapsed 00:00:10 ETA 00:00:30".toList ∧
    (1 : Int) ≤ 3 ∧ (3 : Int) < 2 ^ 31 ∧ (0 : Int) ≤ 1 ∧ (1 : Int) ≤ 3 ∧
    ((" 1/3 Elapsed 00:00:10 ETA 00:00:30".toList.length : Nat) : Int) + 2 ≤ 80 ∧
    (80 : Int) < 2 ^ 31 ∧
    ((∀ tty, 0 ≤ (termSize tty).1 ∧ (termSize tty).1 < 2 ^ 16) ∧
    progress 80 1 3 10 = some (cursorLeft ++ (['[']
      ++ List.replicate ((1 : Int).toNat
          * (80 - 2 - " 1/3 Elapsed 00:00:10 ETA 00:00:30".toList.length : Int).toNat
          / (3 : Int).toNat) '█'
      ++ List.replicate
          ((80 - 2 - " 1/3 Elapsed 00:00:10 ETA 00:00:30".toList.length : Int).toNat
          - (1 : Int).toNat
            * (80 - 2 - " 1/3 Elapsed 00:00:10 ETA 00:00:30".toList.length : Int).toNat
            / (3 : Int).toNat) ' '
      ++ [']'] ++ " 1/3 Elapsed 00:00:10 ETA 00:00:30".toList)) ∧
    (List.replicate ((1 : Int).toNat
          * (80 - 2 - " 1/3 Elapsed 00:00:10 ETA 00:00:30".toList.length : Int).toNat
          / (3 : Int).toNat) '█'
      ++ List.replicate
          ((80 - 2 - " 1/3 Elapsed 00:00:10 ETA 00:00:30".toList.length : Int).toNat
          - (1 : Int).toNat
            * (80 - 2 - " 1/3 Elapsed 00:00:10 ETA 00:00:30".toList.length : Int).toNat
            / (3 : Int).toNat) ' ').length
      = (80 - 2 - " 1/3 Elapsed 00:00:10 ETA 00:00:30".toList.length : Int).toNat ∧
    (((['['] ++ List.replicate ((1 : Int).toNat
          * (80 - 2 - " 1/3 Elapsed 00:00:10 ETA 00:00:30".toList.length : Int).toNat
          / (3 : Int).toNat) '█'
      ++ List.replicate
          ((80 - 2 - " 1/3 Elapsed 00:00:10 ETA 00:00:30".toList.length : Int).toNat
          - (1 : Int).toNat
            * (80 - 2 - " 1/3 Elapsed 00:00:10 ETA 00:00:30".toList.length : Int).toNat
            / (3 : Int).toNat) ' '
      ++ [']'] ++ " 1/3 Elapsed 00:00:10 ETA 00:00:30".toList).length : Nat) : Int) = 80) :=
  ⟨by decide, by decide, by decide, by decide, by decide, by decide, by decide,
    C11_bar_fills_width 1 3 10 80 " 1/3 Elapsed 00:00:10 ETA 00:00:30".toList
      (by decide) (by decide) (by decide) (by decide) (by decide) (by decide) (by decide)⟩

/-- C11 as stated fails on a terminal narrower than the status text. The
provider can report width 0. At width 0, with one entry of one done, `progress`
prints `[]` and the 34-character status text: 36 cells, not 0, and no cell
between the brackets although `w - 2 - 34` is not 0. With none of one done the
second loop's bound is `2^64 - 36` and the call does not complete. -/
theorem C11_bar_fills_width_counterexample :
    (termSize (some (some (0, 0)))).1 = 0 ∧
    progress_status 1 1 0 = some " 1/1 Elapsed 00:00:00 ETA 00:00:00".toList ∧
    progress 0 1 1 0
      = some (cursorLeft ++ "[]".toList ++ " 1/1 Elapsed 00:00:00 ETA 00:00:00".toList) ∧
    ("[]".toList ++ " 1/1 Elapsed 00:00:00 ETA 00:00:00".toList).length = 36 ∧
    progress_barWidth 0 34 = 2 ^ 64 - 36 ∧
    progress 0 0 1 0 = none := by
  refine ⟨by decide, by decide, by decide, by decide, by decide, by decide⟩

/-! ## The calls of progress (C13, C17) -/

theorem primEvent_ne_progress (f : File) (ret v m e : Int) :
    Event.progress v m e ≠ primEvent f ret := by
  unfold primEvent
  split <;> intro h <;> cases h

/-- The call of `progress` in the delete loop, if made, has the running count
and the `count` field, both converted to `int`, as arguments. -/
theorem deleteTick_progress {σ : Type} (sys : Sys σ) (count : Nat)
    (startTime lastProgress : Int) (currentCount : Nat) (w : World σ) :
    ∃ t, (deleteTick sys count startTime lastProgress currentCount w).2.trace = w.trace ++ t ∧
      ∀ v m e, Event.progress v m e ∈ t → v = toInt currentCount ∧ m = toInt count := by
  rcases deleteTick_cases sys count startTime lastProgress currentCount w with
    ⟨_, _, ht⟩ | ⟨_, _, ht⟩
  · refine ⟨_, ht, ?_⟩
    intro v m e he
    simp only [List.mem_singleton] at he
    cases he
  · refine ⟨_, ht, ?_⟩
    intro v m e he
    simp only [List.mem_cons, List.mem_singleton, List.not_mem_nil, or_false] at he
    rcases he with h | h
    · cases h
    · injection h with h1 h2 h3
      exact ⟨h1, h2⟩

/-- The calls of `progress` made by the delete loop: the total is the `count`
field converted to `int`, the completed count is the running count converted
to `int`. -/
theorem deleteLoop_progress {σ : Type} (sys : Sys σ) (count : Nat) (startTime : Int) :
    ∀ (files : List File) (lastProgress : Int) (currentCount : Nat) (w : World σ),
    ∃ t, (deleteLoop sys count startTime files lastProgress currentCount w).2.trace
        = w.trace ++ t ∧
      ∀ v m e, Event.progress v m e ∈ t →
        m = toInt count ∧ ∃ k, currentCount < k ∧ k ≤ currentCount + files.length ∧ v = toInt k
  | [], _, _, w => ⟨[], by simp [deleteLoop], by simp⟩
  | f :: rest, lastProgress, currentCount, w => by
    by_cases h0 : (prim sys f w.fs).1 = 0
    · obtain ⟨tt, htt, hq⟩ := deleteTick_progress sys count startTime lastProgress
        (currentCount + 1) (afterPrim sys f w)
      have hpre : ∀ v m e, Event.progress v m e ∈ [primEvent f (prim sys f w.fs).1] ++ tt →
          m = toInt count ∧
            ∃ k, currentCount < k ∧ k ≤ currentCount + (f :: rest).length ∧ v = toInt k := by
        intro v m e he
        simp only [List.mem_append, List.mem_singleton] at he
        rcases he with h | h
        · exact absurd h (primEvent_ne_progress _ _ _ _ _)
        · obtain ⟨hv, hm⟩ := hq v m e h
          exact ⟨hm, currentCount + 1, by omega, by simp, hv⟩
      cases hdt : (deleteTick sys count startTime lastProgress (currentCount + 1)
          (afterPrim sys f w)).1 with
      | none =>
        rw [deleteLoop_cons_trap sys count startTime f rest lastProgress currentCount w h0 hdt]
        exact ⟨[primEvent f (prim sys f w.fs).1] ++ tt,
          by rw [htt, afterPrim_trace, List.append_assoc], hpre⟩
      | some last =>
        rw [deleteLoop_cons_step sys count startTime f rest lastProgress currentCount w last
          h0 hdt]
        obtain ⟨t, ht, hp⟩ := deleteLoop_progress sys count startTime rest last
          (currentCount + 1)
          (deleteTick sys count startTime lastProgress (currentCount + 1)
            (afterPrim sys f w)).2
        refine ⟨[primEvent f (prim sys f w.fs).1] ++ tt ++ t, ?_, ?_⟩
        · rw [ht, htt, afterPrim_trace]; simp
        · intro v m e he
          rcases List.mem_append.1 he with h | h
          · exact hpre v m e h
          · obtain ⟨hm, k, hk1, hk2, hk3⟩ := hp v m e h
            exact ⟨hm, k, by omega, by simp only [List.length_cons]; omega, hk3⟩
    · rw [deleteLoop_cons_fail sys count startTime f rest lastProgress currentCount w h0]
      refine ⟨[primEvent f (prim sys f w.fs).1, Event.perror (primName f)],
        by simp [World.emit, afterPrim_trace], ?_⟩
      intro v m e he
      simp only [List.mem_cons, List.mem_singleton, List.not_mem_nil, or_false] at he
      rcases he with h | h
      · exact absurd h (primEvent_ne_progress _ _ _ _ _)
      · cases h

/-- When the delete loop is stopped inside a call of `progress`, that call is
the last event of the trace. -/
theorem deleteLoop_killed_last {σ : Type} (sys : Sys σ) (count : Nat) (startTime : Int) :
    ∀ (files : List File) (lastProgress : Int) (currentCount : Nat) (w : World σ),
    (deleteLoop sys count startTime files lastProgress currentCount w).1 = none →
    ∃ v m e, (deleteLoop sys count startTime files lastProgress currentCount w).2.trace.getLast?
      = some (Event.progress v m e)
  | [], _, _, w, h => by simp [deleteLoop] at h
  | f :: rest, lastProgress, currentCount, w, h => by
    by_cases h0 : (prim sys f w.fs).1 = 0
    · cases hdt : (deleteTick sys count startTime lastProgress (currentCount + 1)
          (afterPrim sys f w)).1 with
      | none =>
        rw [deleteLoop_cons_trap sys count startTime f rest lastProgress currentCount w h0 hdt]
        rcases deleteTick_cases sys count startTime lastProgress (currentCount + 1)
          (afterPrim sys f w) with ⟨_, h1, _⟩ | ⟨_, _, ht⟩
        · rw [hdt] at h1; cases h1
        · exact ⟨toInt (currentCount + 1), toInt count,
            sys.time (afterPrim sys f w).ticks - startTime, by rw [ht]; simp⟩
      | some last =>
        rw [deleteLoop_cons_step sys count startTime f rest lastProgress currentCount w last
          h0 hdt] at h ⊢
        exact deleteLoop_killed_last sys count startTime rest last (currentCount + 1) _ h
    · rw [deleteLoop_cons_fail sys count startTime f rest lastProgress currentCount w h0] at h
      cases h

theorem scanQuiet_ne_progress {x : Event} (h : x.scanQuiet = true) (v m e : Int) :
    Event.progress v m e ≠ x := by
  intro hx
  subst hx
  simp [Event.scanQuiet] at h

/-- What a successful scan started by `main` leaves behind, in terms of the
plan `scanFiles`. -/
theorem scan_result {σ : Type} (sys : Sys σ) (tree : Node) (path : CStr) (w : World σ)
    (hok : (loadFileList sys path tree (scanStart path w)).1 = true) :
    (scanFiles path tree).1 = true ∧
    (loadFileList sys path tree (scanStart path w)).2.fl.files = (scanFiles path tree).2 ∧
    (loadFileList sys path tree (scanStart path w)).2.fl.count
      = (scanFiles path tree).2.length ∧
    1 ≤ (scanFiles path tree).2.length ∧
    (loadFileList sys path tree (scanStart path w)).2.world.fs = w.fs ∧
    ∃ ts, (loadFileList sys path tree (scanStart path w)).2.world.trace =
        w.trace ++ ([Event.stdout ("Scanning \"".toList ++ path ++ "\"\n".toList)] ++ ts) ∧
      (∀ x ∈ ts, x.scanQuiet = true) := by
  obtain ⟨ts, hrel, _, _, hq, _⟩ := loadFileList_rel sys tree path (scanStart path w)
  obtain ⟨hflag, hfiles, hcount, hfs⟩ := loadFileList_pure sys path tree (scanStart path w)
  have hs : (scanFiles path tree).1 = true := by rw [← hflag]; exact hok
  refine ⟨hs, by rw [hfiles]; simp [scanStart], by rw [hcount]; simp [scanStart], ?_, hfs,
    ts, by rw [hrel.trace]; simp [scanStart, World.emit], hq hok⟩
  obtain ⟨es, _, _, h2⟩ := scanFiles_ok_dir hs
  rw [h2]; simp

/-- The trace of the delete phase up to the return of `recursiveDelete`. -/
theorem recursiveDelete_progress {σ : Type} (sys : Sys σ) (s : Scan σ) :
    ∃ t, (recursiveDelete sys s.fl (sys.time s.world.ticks) (deleteStart sys s)).2.trace
        = s.world.trace ++ t ∧
      ∀ v m e, Event.progress v m e ∈ t →
        m = toInt s.fl.count ∧ ∃ k, 1 ≤ k ∧ k ≤ s.fl.files.length ∧ v = toInt k := by
  obtain ⟨tl, htl, hp⟩ := deleteLoop_progress sys s.fl.count (sys.time s.world.ticks)
    s.fl.files (sys.time s.world.ticks) 0 ((deleteStart sys s).emit (.stdout "\n".toList))
  refine ⟨[Event.stdout (totalText s.fl.count), Event.time (sys.time s.world.ticks),
    Event.stdout "\n".toList] ++ tl, ?_, ?_⟩
  · rw [recursiveDelete, htl]
    simp [World.emit, deleteStart_trace]
  · intro v m e he
    simp only [List.mem_append, List.mem_cons, List.mem_singleton, List.not_mem_nil,
      or_false] at he
    rcases he with (h | h | h) | h
    · cases h
    · cases h
    · cases h
    · obtain ⟨hm, k, hk1, hk2, hk3⟩ := hp v m e h
      exact ⟨hm, k, by omega, by omega, hk3⟩

/-- Every call of `progress` in a run whose scan succeeds: the total is the
length `n` of the plan converted to `int`, the completed count is a number
`k` between 1 and `n` converted to `int`. -/
theorem main_progress_calls {σ : Type} (sys : Sys σ) (tree : Node) (program path : CStr)
    (w : World σ) (hok : (loadFileList sys path tree (scanStart path w)).1 = true) :
    ∃ t, (main sys tree program [path] w).2.trace = w.trace ++ t ∧
      ∀ v m e, Event.progress v m e ∈ t →
        m = toInt (scanFiles path tree).2.length ∧
        ∃ k, 1 ≤ k ∧ k ≤ (scanFiles path tree).2.length ∧ v = toInt k := by
  obtain ⟨_, hfiles, hcount, hpos, _, ts, hts, hq⟩ := scan_result sys tree path w hok
  rw [main_scan_ok sys tree program path w hok]
  generalize loadFileList sys path tree (scanStart path w) = r at hfiles hcount hts
  obtain ⟨ok, s⟩ := r
  simp only at hfiles hcount hts ⊢
  obtain ⟨t, ht, hp⟩ := recursiveDelete_progress sys s
  rw [hcount, hfiles] at hp
  have hmem : ∀ v m e, Event.progress v m e ∈
      ([Event.stdout ("Scanning \"".toList ++ path ++ "\"\n".toList)] ++ ts) ++ t →
        m = toInt (scanFiles path tree).2.length ∧
        ∃ k, 1 ≤ k ∧ k ≤ (scanFiles path tree).2.length ∧ v = toInt k := by
    intro v m e he
    simp only [List.mem_append, List.mem_singleton] at he
    rcases he with (h | h) | h
    · cases h
    · exact absurd rfl (scanQuiet_ne_progress (hq _ h) v m e)
    · exact hp v m e h
  rw [hts] at ht
  rcases option_bool_cases (recursiveDelete sys s.fl (sys.time s.world.ticks)
    (deleteStart sys s)).1 with h | h | h
  · rw [deletePhase_killed sys s h]
    exact ⟨_, by rw [ht, List.append_assoc], hmem⟩
  · rw [deletePhase_failed sys s h]
    exact ⟨_, by rw [ht, List.append_assoc], hmem⟩
  · rw [deletePhase_done sys s h, finalRender_trace, ht, hcount]
    refine ⟨(([Event.stdout ("Scanning \"".toList ++ path ++ "\"\n".toList)] ++ ts) ++ t) ++
      [Event.time (sys.time (recursiveDelete sys s.fl (sys.time s.world.ticks)
          (deleteStart sys s)).2.ticks),
        Event.progress (toInt (scanFiles path tree).2.length)
          (toInt (scanFiles path tree).2.length)
          (sys.time (recursiveDelete sys s.fl (sys.time s.world.ticks)
            (deleteStart sys s)).2.ticks - sys.time s.world.ticks)],
      by simp only [List.append_assoc], ?_⟩
    intro v m e he
    rcases List.mem_append.1 he with h1 | h1
    · exact hmem v m e h1
    · simp only [List.mem_cons, List.mem_singleton, List.not_mem_nil, or_false] at h1
      rcases h1 with h1 | h1
      · cases h1
      · injection h1 with h2 h3 h4
        exact ⟨h3, (scanFiles path tree).2.length, hpos, le_refl _, h2⟩

/-- A run whose scan succeeds and whose removal primitives all succeed calls
`progress` at least once: the forced final call when the loop returns, a
throttled call when the loop is stopped inside it. -/
theorem main_makes_a_call {σ : Type} (sys : Sys σ) (tree : Node) (program path : CStr)
    (w : World σ) (hok : (loadFileList sys path tree (scanStart path w)).1 = true)
    (hp : PrimsSucceed sys (scanFiles path tree).2 w.fs) :
    ∃ v m e, (main sys tree program [path] w).2.trace.getLast? = some (Event.progress v m e) := by
  obtain ⟨_, hfiles, _, _, hfs, _⟩ := scan_result sys tree path w hok
  rw [main_scan_ok sys tree program path w hok]
  generalize loadFileList sys path tree (scanStart path w) = r at hfiles hfs
  obtain ⟨ok, s⟩ := r
  simp only at hfiles hfs ⊢
  rcases option_bool_cases (recursiveDelete sys s.fl (sys.time s.world.ticks)
    (deleteStart sys s)).1 with h | h | h
  · rw [deletePhase_killed sys s h]
    exact deleteLoop_killed_last sys s.fl.count (sys.time s.world.ticks) s.fl.files
      (sys.time s.world.ticks) 0 ((deleteStart sys s).emit (.stdout "\n".toList)) h
  · exact absurd h (deleteLoop_not_false sys s.fl.count (sys.time s.world.ticks) s.fl.files
      (sys.time s.world.ticks) 0 ((deleteStart sys s).emit (.stdout "\n".toList))
      (by
        show PrimsSucceed sys s.fl.files s.world.fs
        rw [hfiles, hfs]; exact hp))
  · rw [deletePhase_done sys s h, finalRender_trace]
    exact ⟨toInt s.fl.count, toInt s.fl.count,
      sys.time (recursiveDelete sys s.fl (sys.time s.world.ticks) (deleteStart sys s)).2.ticks
        - sys.time s.world.ticks, by simp⟩

theorem scanEntries_wide (q : CStr) : ∀ k : Nat,
    (scanEntries q (wideEntries k)).1 = true ∧ (scanEntries q (wideEntries k)).2.length = k
  | 0 => by
    rw [wideEntries, scanEntries_pseudo _ _ _ _ (by decide),
      scanEntries_pseudo _ _ _ _ (by decide)]
    simp [scanEntries]
  | k + 1 => by
    rw [wideEntries, scanEntries_file q ('f' :: Nat.toDigits 10 k) Node.file (wideEntries k)
      (by simp [notPseudo, dot, dotdot]) rfl]
    exact ⟨(scanEntries_wide q k).1, by simp [(scanEntries_wide q k).2]⟩

theorem scanFiles_wide (q : CStr) (k : Nat) :
    (scanFiles q (wideTree k)).1 = true ∧ (scanFiles q (wideTree k)).2.length = k + 1 := by
  rw [wideTree, scanFiles_dir]
  simp [(scanEntries_wide q k).1, (scanEntries_wide q k).2]

theorem PrimsSucceed_okSys : ∀ (files : List File) (st : Unit), PrimsSucceed okSys files st
  | [], _ => trivial
  | f :: rest, st => by
    refine ⟨?_, PrimsSucceed_okSys rest _⟩
    unfold prim okSys
    split <;> rfl

theorem progress_zero_total (w value elapsed : Int) : progress w value 0 elapsed = none := by
  unfold progress
  cases progress_status value 0 elapsed with
  | none => rfl
  | some status => simp [progress_bar, progress_width, toSize]

theorem loadFileList_wide {σ : Type} (sys : Sys σ) (q : CStr) (k : Nat) (s : Scan σ) :
    (loadFileList sys q (wideTree k) s).1 = true := by
  rw [(loadFileList_pure sys q (wideTree k) s).1]
  exact (scanFiles_wide q k).1

/-- With a plan whose length converts to the `int` 0, a run whose scan
succeeds and whose primitives all succeed never reaches a `return` of `main`:
the first call of `progress` made divides by zero. -/
theorem main_killed_of_zero_total {σ : Type} (sys : Sys σ) (tree : Node)
    (program path : CStr) (w : World σ)
    (hok : (loadFileList sys path tree (scanStart path w)).1 = true)
    (hp : PrimsSucceed sys (scanFiles path tree).2 w.fs)
    (hz : toInt (scanFiles path tree).2.length = 0) :
    (main sys tree program [path] w).1 = none := by
  obtain ⟨_, hfiles, hcount, _, hfs, _⟩ := scan_result sys tree path w hok
  rw [main_scan_ok sys tree program path w hok]
  generalize loadFileList sys path tree (scanStart path w) = r at hfiles hcount hfs
  obtain ⟨ok, s⟩ := r
  simp only at hfiles hcount hfs ⊢
  rcases option_bool_cases (recursiveDelete sys s.fl (sys.time s.world.ticks)
    (deleteStart sys s)).1 with h | h | h
  · rw [deletePhase_killed sys s h]
  · exact absurd h (deleteLoop_not_false sys s.fl.count (sys.time s.world.ticks) s.fl.files
      (sys.time s.world.ticks) 0 ((deleteStart sys s).emit (.stdout "\n".toList))
      (by
        show PrimsSucceed sys s.fl.files s.world.fs
        rw [hfiles, hfs]; exact hp))
  · rw [deletePhase_done sys s h, finalRender_exit, hcount, hz, progress_zero_total]
    rfl

/-! ## The final render (C13) -/

/-- C17. The claim fails on a directory holding 2^32 - 1 files: the plan has
2^32 entries, the run does call `progress`, and every call of `progress` in
the run receives the total 0, because the count is converted from `size_t` to
`int`; with total 0 the call divides by zero, whatever the other arguments, so
the process never reaches a `return` of `main`. -/
theorem C17_total_truncated_to_zero :
    (scanFiles "d".toList (wideTree (2 ^ 32 - 1))).2.length = 2 ^ 32 ∧
    (∀ v m e, Event.progress v m e ∈ (main okSys (wideTree (2 ^ 32 - 1)) "eraser".toList
        ["d".toList] (emptyWorld ())).2.trace → m = 0) ∧
    (∃ v e, Event.progress v 0 e ∈ (main okSys (wideTree (2 ^ 32 - 1)) "eraser".toList
        ["d".toList] (emptyWorld ())).2.trace) ∧
    (∀ w v e, progress w v 0 e = none) ∧
    (main okSys (wideTree (2 ^ 32 - 1)) "eraser".toList ["d".toList] (emptyWorld ())).1
      = none := by
  have hlen : (scanFiles "d".toList (wideTree (2 ^ 32 - 1))).2.length = 2 ^ 32 := by
    rw [(scanFiles_wide "d".toList (2 ^ 32 - 1)).2]; norm_num
  have hz : toInt (2 ^ 32) = 0 := by decide
  have hok := loadFileList_wide okSys "d".toList (2 ^ 32 - 1)
    (scanStart "d".toList (emptyWorld ()))
  have hall : ∀ v m e, Event.progress v m e ∈ (main okSys (wideTree (2 ^ 32 - 1))
      "eraser".toList ["d".toList] (emptyWorld ())).2.trace → m = 0 := by
    obtain ⟨t, ht, hp⟩ := main_progress_calls okSys (wideTree (2 ^ 32 - 1))
      "eraser".toList "d".toList (emptyWorld ()) hok
    intro v m e he
    rw [ht] at he
    have hm := (hp v m e (by simpa [emptyWorld] using he)).1
    rw [hlen, hz] at hm
    exact hm
  refine ⟨hlen, hall, ?_, progress_zero_total, ?_⟩
  · obtain ⟨v, m, e, h⟩ := main_makes_a_call okSys (wideTree (2 ^ 32 - 1))
      "eraser".toList "d".toList (emptyWorld ()) hok
      (@PrimsSucceed_okSys (scanFiles "d".toList (wideTree (2 ^ 32 - 1))).2 ())
    have hmem := List.mem_of_getLast?_eq_some h
    have hm := hall v m e hmem
    subst hm
    exact ⟨v, e, hmem⟩
  · exact main_killed_of_zero_total okSys (wideTree (2 ^ 32 - 1)) "eraser".toList
      "d".toList (emptyWorld ()) hok
      (@PrimsSucceed_okSys (scanFiles "d".toList (wideTree (2 ^ 32 - 1))).2 ())
      (by rw [hlen]; exact hz)

/-! ## The throttle (C12) -/

theorem renderTimesAux_append (b : List Event) (hb : ∀ x, renderTimesAux x b = renderTimes b) :
    ∀ (a : List Event) (now : Int),
      renderTimesAux now (a ++ b) = renderTimesAux now a ++ renderTimes b
  | [], now => by simp [renderTimesAux, hb]
  | e :: a, now => by
    cases e <;> simp [renderTimesAux, renderTimesAux_append b hb a]

theorem getLastD_append {α : Type} : ∀ (l1 l2 : List α) (a : α),
    (l1 ++ l2).getLastD a = l2.getLastD (l1.getLastD a)
  | [], _, _ => rfl
  | x :: l1, l2, a => by
    simp only [List.cons_append, List.getLastD_cons]
    exact getLastD_append l1 l2 x

theorem chain_append_getLastD {α : Type} {R : α → α → Prop} : ∀ (l1 l2 : List α) (a : α),
    List.Chain R a l1 → List.Chain R (l1.getLastD a) l2 → List.Chain R a (l1 ++ l2)
  | [], _, _, _, h2 => h2
  | x :: l1, l2, a, h1, h2 => by
    rw [List.chain_cons] at h1
    rw [List.cons_append, List.chain_cons]
    rw [List.getLastD_cons] at h2
    exact ⟨h1.1, chain_append_getLastD l1 l2 x h1.2 h2⟩

theorem Throttled_refl (last : Int) : Throttled last [] last :=
  ⟨fun _ => rfl, List.Chain.nil, rfl⟩

theorem Throttled_trans {a b c : Int} {t u : List Event} (h : Throttled a t b)
    (h1 : Throttled b u c) : Throttled a (t ++ u) c := by
  have happ : renderTimes (t ++ u) = renderTimes t ++ renderTimes u := by
    rw [renderTimes, renderTimesAux_append u h1.indep t 0]; rfl
  refine ⟨fun now => ?_, ?_, ?_⟩
  · rw [renderTimesAux_append u h1.indep t now, h.indep now, happ]
  · rw [happ]
    refine chain_append_getLastD _ _ _ h.chain ?_
    rw [← h.final]; exact h1.chain
  · rw [happ, getLastD_append, ← h.final]; exact h1.final

/-- An event that is neither a reading of the clock nor a render. -/
theorem Throttled_other (last : Int) (e : Event) (he : ∀ now, renderTimesAux now [e] = []) :
    Throttled last [e] last :=
  ⟨fun now => by rw [renderTimes, he now, he 0], by rw [renderTimes, he 0]; exact List.Chain.nil,
    by rw [renderTimes, he 0]; rfl⟩

theorem ScanThrottled_refl {σ : Type} (s : Scan σ) : ScanThrottled s s :=
  ⟨[], by simp, Throttled_refl _⟩

theorem ScanThrottled_trans {σ : Type} {a b c : Scan σ} (h : ScanThrottled a b)
    (h1 : ScanThrottled b c) : ScanThrottled a c := by
  obtain ⟨t, ht, hT⟩ := h
  obtain ⟨u, hu, hU⟩ := h1
  exact ⟨t ++ u, by rw [hu, ht, List.append_assoc], Throttled_trans hT hU⟩

theorem ScanThrottled_emit {σ : Type} (s : Scan σ) (e : Event)
    (he : ∀ now, renderTimesAux now [e] = []) :
    ScanThrottled s { s with world := s.world.emit e } :=
  ⟨[e], rfl, Throttled_other _ e he⟩

theorem ScanThrottled_add {σ : Type} (s : Scan σ) (f : File) : ScanThrottled s (s.add f) :=
  ⟨[Event.add f], rfl, Throttled_other _ _ (fun _ => rfl)⟩

theorem ScanThrottled_openFailed {σ : Type} (s : Scan σ) (path : CStr) :
    ScanThrottled s { s with world := openFailed path s.world } :=
  ScanThrottled_trans (ScanThrottled_trans
    (ScanThrottled_emit s (.opendir path false) (fun _ => rfl))
    (ScanThrottled_emit _ (.perror "opendir".toList) (fun _ => rfl)))
    (ScanThrottled_emit _ (.stderr (pathDiagnostic path)) (fun _ => rfl))

theorem ScanThrottled_tick {σ : Type} (sys : Sys σ) (s : Scan σ) :
    ScanThrottled s (scanTick sys s) := by
  unfold scanTick
  by_cases h : (s.world.now sys).1 - s.lastProgress > 1
  · simp only [h, if_true]
    refine ⟨[Event.time (sys.time s.world.ticks), Event.scanProgress s.fl.count],
      by simp [World.now, World.emit], fun _ => rfl, ?_, rfl⟩
    exact List.Chain.cons h List.Chain.nil
  · simp only [h, if_false]
    exact ⟨[Event.time (sys.time s.world.ticks)], by simp [World.now], fun _ => rfl,
      List.Chain.nil, rfl⟩

mutual
theorem loadFileList_throttled {σ : Type} (sys : Sys σ) :
    ∀ (n : Node) (path : CStr) (s : Scan σ), ScanThrottled s (loadFileList sys path n s).2
  | .file, path, s => by
    simpa [loadFileList] using ScanThrottled_openFailed s path
  | .dir false es, path, s => by
    simpa [loadFileList] using ScanThrottled_openFailed s path
  | .dir true es, path, s => by
    have h0 := ScanThrottled_emit s (.opendir path true) (fun _ => rfl)
    have h1 := readdirLoop_throttled sys es path
      { s with world := s.world.emit (.opendir path true) }
    cases hr : readdirLoop sys path es { s with world := s.world.emit (.opendir path true) } with
    | mk ok s1 =>
      rw [hr] at h1
      cases ok with
      | false =>
        rw [loadFileList_loop_fail sys path es s s1 hr]
        exact ScanThrottled_trans h0 h1
      | true =>
        rw [loadFileList_loop_ok sys path es s s1 hr]
        exact ScanThrottled_trans (ScanThrottled_trans (ScanThrottled_trans h0 h1)
          (ScanThrottled_emit s1 (.closedir path) (fun _ => rfl))) (ScanThrottled_add _ _)
theorem readdirLoop_throttled {σ : Type} (sys : Sys σ) :
    ∀ (es : List (CStr × Node)) (path : CStr) (s : Scan σ),
      ScanThrottled s (readdirLoop sys path es s).2
  | [], path, s => by
    simpa [readdirLoop] using ScanThrottled_refl s
  | (name, n) :: rest, path, s => by
    by_cases hn : notPseudo name = true
    · by_cases hd : n.isDir = true
      · have h1 := loadFileList_throttled sys n (childPath path name) s
        cases hr : loadFileList sys (childPath path name) n s with
        | mk ok s1 =>
          rw [hr] at h1
          cases ok with
          | false =>
            rw [readdirLoop_dir_fail sys path name n rest s s1 hn hd hr]
            exact ScanThrottled_trans h1
              (ScanThrottled_emit s1 (.closedir path) (fun _ => rfl))
          | true =>
            rw [readdirLoop_dir_ok sys path name n rest s s1 hn hd hr]
            exact ScanThrottled_trans (ScanThrottled_trans h1 (ScanThrottled_tick sys s1))
              (readdirLoop_throttled sys rest path (scanTick sys s1))
      · have hd2 : n.isDir = false := by simpa using hd
        rw [readdirLoop_file sys path name n rest s hn hd2]
        exact ScanThrottled_trans
          (ScanThrottled_trans (ScanThrottled_add s _) (ScanThrottled_tick sys _))
          (readdirLoop_throttled sys rest path (scanTick sys (s.add _)))
    · have hn2 : notPseudo name = false := by simpa using hn
      rw [readdirLoop_pseudo sys path name n rest s hn2]
      exact ScanThrottled_trans (ScanThrottled_tick sys s)
        (readdirLoop_throttled sys rest path (scanTick sys s))
end

theorem deleteTick_throttled {σ : Type} (sys : Sys σ) (count : Nat)
    (startTime lastProgress : Int) (currentCount : Nat) (w : World σ) :
    ∃ t last1, (deleteTick sys count startTime lastProgress currentCount w).2.trace
        = w.trace ++ t ∧ Throttled lastProgress t last1 ∧
      ∀ last, (deleteTick sys count startTime lastProgress currentCount w).1 = some last →
        last = last1 := by
  rcases deleteTick_cases sys count startTime lastProgress currentCount w with
    ⟨_, h1, h2⟩ | ⟨h, h1, h2⟩
  · refine ⟨_, lastProgress, h2, ⟨fun _ => rfl, List.Chain.nil, rfl⟩, ?_⟩
    intro last hl
    rw [h1] at hl
    exact (Option.some.inj hl).symm
  · refine ⟨_, sys.time w.ticks, h2, ⟨fun _ => rfl, List.Chain.cons h List.Chain.nil, rfl⟩, ?_⟩
    intro last hl
    rw [h1] at hl
    cases hp : progress (termWidth sys w.ticks) (toInt currentCount) (toInt count)
      (sys.time w.ticks - startTime) with
    | none => rw [hp] at hl; cases hl
    | some line => rw [hp] at hl; exact (Option.some.inj hl).symm

theorem primEvent_other (f : File) (ret : Int) :
    ∀ now, renderTimesAux now [primEvent f ret] = [] := by
  intro now
  unfold primEvent
  split <;> rfl

/-- The delete loop keeps the throttle invariant. -/
theorem deleteLoop_throttled {σ : Type} (sys : Sys σ) (count : Nat) (startTime : Int) :
    ∀ (files : List File) (lastProgress : Int) (currentCount : Nat) (w : World σ),
    ∃ t last1, (deleteLoop sys count startTime files lastProgress currentCount w).2.trace
        = w.trace ++ t ∧ Throttled lastProgress t last1
  | [], lastProgress, _, w => ⟨[], lastProgress, by simp [deleteLoop], Throttled_refl _⟩
  | f :: rest, lastProgress, currentCount, w => by
    by_cases h0 : (prim sys f w.fs).1 = 0
    · obtain ⟨tt, l1, htt, hq, hl⟩ := deleteTick_throttled sys count startTime lastProgress
        (currentCount + 1) (afterPrim sys f w)
      rw [afterPrim_trace] at htt
      cases ho : (deleteTick sys count startTime lastProgress (currentCount + 1)
          (afterPrim sys f w)).1 with
      | none =>
        rw [deleteLoop_cons_trap sys count startTime f rest lastProgress currentCount w h0 ho]
        exact ⟨[primEvent f (prim sys f w.fs).1] ++ tt, l1, by rw [htt]; simp,
          Throttled_trans (Throttled_other _ _ (primEvent_other f _)) hq⟩
      | some last =>
        rw [deleteLoop_cons_step sys count startTime f rest lastProgress currentCount w last
          h0 ho]
        have hlast := hl last ho
        subst hlast
        obtain ⟨t, last1, ht, hp⟩ := deleteLoop_throttled sys count startTime rest last
          (currentCount + 1)
          (deleteTick sys count startTime lastProgress (currentCount + 1)
            (afterPrim sys f w)).2
        refine ⟨[primEvent f (prim sys f w.fs).1] ++ tt ++ t, last1, ?_, ?_⟩
        · rw [ht, htt]; simp
        · exact Throttled_trans
            (Throttled_trans (Throttled_other _ _ (primEvent_other f _)) hq) hp
    · rw [deleteLoop_cons_fail sys count startTime f rest lastProgress currentCount w h0]
      exact ⟨[primEvent f (prim sys f w.fs).1, Event.perror (primName f)], lastProgress,
        by simp [World.emit, afterPrim_trace],
        Throttled_trans (Throttled_other _ _ (primEvent_other f _))
          (Throttled_other _ (Event.perror (primName f)) (fun _ => rfl))⟩

theorem chain_gap_pairwise (a : Int) (l : List Int)
    (h : List.Chain (fun a b => b - a > 1) a l) :
    List.Pairwise (fun a b => b - a > 1) (a :: l) := by
  haveI : IsTrans Int (fun a b => b - a > 1) := ⟨fun a b c h1 h2 => by omega⟩
  exact List.chain_iff_pairwise.1 h

/-- C12. For every clock (so for every non-decreasing sequence of readings), in
the trace `t` that `loadFileList` adds and in the trace that `recursiveDelete`
adds, the timestamps of the throttled renders, preceded by the initial value
of the last-render timestamp (`*lastProgress` for the scan, `startTime` for the
delete loop), are pairwise more than one second apart, each render later
than every earlier one; the scan leaves in `*lastProgress` the timestamp of
its last render, or the initial value when it rendered nothing. At one
iteration (lines 84-88 and 169-173) the last-render timestamp either keeps its
value or a render is emitted right after the reading of the clock, and the
timestamp becomes that reading; in the delete loop the render is a call of
`progress`, and the timestamp is assigned when that call returns. -/
theorem C12_throttled_renders {σ : Type} (sys : Sys σ) :
    (∀ (path : CStr) (n : Node) (s : Scan σ),
      ∃ t, (loadFileList sys path n s).2.world.trace = s.world.trace ++ t ∧
        List.Pairwise (fun a b => b - a > 1) (s.lastProgress :: renderTimes t) ∧
        (loadFileList sys path n s).2.lastProgress = (renderTimes t).getLastD s.lastProgress) ∧
    (∀ (lst : FileList) (startTime : Int) (w : World σ),
      ∃ t, (recursiveDelete sys lst startTime w).2.trace = w.trace ++ t ∧
        List.Pairwise (fun a b => b - a > 1) (startTime :: renderTimes t)) ∧
    (∀ s : Scan σ, (scanTick sys s).lastProgress = s.lastProgress ∨
      ((scanTick sys s).world.trace = s.world.trace ++
          [Event.time (scanTick sys s).lastProgress, Event.scanProgress s.fl.count] ∧
        (scanTick sys s).lastProgress - s.lastProgress > 1)) ∧
    (∀ (count : Nat) (startTime lastProgress : Int) (currentCount : Nat) (w : World σ),
      (deleteTick sys count startTime lastProgress currentCount w).1 = some lastProgress ∨
      ∃ now, (deleteTick sys count startTime lastProgress currentCount w).2.trace = w.trace ++
          [Event.time now,
            Event.progress (toInt currentCount) (toInt count) (now - startTime)] ∧
        now - lastProgress > 1 ∧
        (deleteTick sys count startTime lastProgress currentCount w).1 =
          (progress (termWidth sys w.ticks) (toInt currentCount) (toInt count)
            (now - startTime)).map (fun _ => now)) := by
  refine ⟨?_, ?_, ?_, ?_⟩
  · intro path n s
    obtain ⟨t, ht, hT⟩ := loadFileList_throttled sys n path s
    exact ⟨t, ht, chain_gap_pairwise _ _ hT.chain, hT.final⟩
  · intro lst startTime w
    obtain ⟨t, last1, ht, hT⟩ := deleteLoop_throttled sys lst.count startTime lst.files
      startTime 0 (w.emit (.stdout "\n".toList))
    refine ⟨[Event.stdout "\n".toList] ++ t, by rw [recursiveDelete, ht]; simp [World.emit], ?_⟩
    exact chain_gap_pairwise _ _
      (Throttled_trans (Throttled_other startTime (Event.stdout "\n".toList) (fun _ => rfl))
        hT).chain
  · intro s
    by_cases h : (s.world.now sys).1 - s.lastProgress > 1
    · right
      simp only [scanTick]
      rw [if_pos h]
      exact ⟨by simp [World.now, World.emit], h⟩
    · left
      simp only [scanTick]
      rw [if_neg h]
  · intro count startTime lastProgress currentCount w
    rcases deleteTick_cases sys count startTime lastProgress currentCount w with
      ⟨_, h1, _⟩ | ⟨h, h1, h2⟩
    · exact Or.inl h1
    · exact Or.inr ⟨sys.time w.ticks, h2, h, h1⟩

/-- C12 on the scenario with the clock that advances one second per reading:
the scan of `a` reads the clock at 0, 1, ..., 5 and prints its counter at 2
and 4; a delete loop started at 5 reads 5, 6, 7 and renders at 7 only. -/
theorem C12_throttled_renders_witness :
    renderTimes (loadFileList okSys "a".toList demoTree
      (scanStart "a".toList (emptyWorld ()))).2.world.trace = [2, 4] ∧
    renderTimes (recursiveDelete okSys ⟨demoPlan, 3⟩ 5
      { fs := (), ticks := 5, trace := [] }).2.trace = [7] ∧
    (∃ t, (loadFileList okSys "a".toList demoTree
        (scanStart "a".toList (emptyWorld ()))).2.world.trace =
          (scanStart "a".toList (emptyWorld ())).world.trace ++ t ∧
        List.Pairwise (fun a b => b - a > 1)
          ((scanStart "a".toList (emptyWorld ())).lastProgress :: renderTimes t) ∧
        (loadFileList okSys "a".toList demoTree
          (scanStart "a".toList (emptyWorld ()))).2.lastProgress =
            (renderTimes t).getLastD (scanStart "a".toList (emptyWorld ())).lastProgress) :=
  ⟨by decide, by decide,
    (C12_throttled_renders okSys).1 "a".toList demoTree (scanStart "a".toList (emptyWorld ()))⟩

/-! ## One entry per node (C20) -/

mutual
/-- When a scan succeeds on a tree with legal, distinct names, the tree is
well formed: every directory the scan meets can be opened. -/
theorem wf_of_namesOk : ∀ (n : Node) (q : CStr), n.namesOk = true →
    (n.isDir = true → (scanFiles q n).1 = true) → n.wf = true
  | .file, _, _, _ => rfl
  | .dir false es, q, _, h => by
    have := h rfl
    simp [scanFiles] at this
  | .dir true es, q, hn, h => by
    have hs := h rfl
    rw [scanFiles_dir] at hs
    simp only at hs
    have hes : namesOkEntries es = true := by simpa [Node.namesOk] using hn
    simpa [Node.wf] using wfEntries_of_namesOk es q hes hs
theorem wfEntries_of_namesOk : ∀ (es : List (CStr × Node)) (q : CStr),
    namesOkEntries es = true → (scanEntries q es).1 = true → wfEntries es = true
  | [], _, _, _ => rfl
  | (name, n) :: rest, q, hn, hs => by
    rw [namesOkEntries] at hn
    simp only [Bool.and_eq_true] at hn
    by_cases hp : notPseudo name = true
    · have h1 := hn.1
      rw [if_pos hp] at h1
      simp only [Bool.and_eq_true] at h1
      have hsub : n.isDir = true → (scanFiles (childPath q name) n).1 = true := by
        intro hd
        cases hf : (scanFiles (childPath q name) n).1 with
        | true => rfl
        | false =>
          rw [scanEntries_dir_fail q name n rest hp hd hf] at hs
          cases hs
      have hrest : (scanEntries q rest).1 = true := by
        rw [scanEntries_cons_plan q name n rest hp hsub] at hs
        exact hs
      rw [wfEntries, if_pos hp]
      simp only [Bool.and_eq_true]
      exact ⟨⟨⟨h1.1.1, wf_of_namesOk n _ h1.1.2 hsub⟩, h1.2⟩,
        wfEntries_of_namesOk rest q hn.2 hrest⟩
    · have hp2 : notPseudo name = false := by simpa using hp
      rw [scanEntries_pseudo q name n rest hp2] at hs
      rw [wfEntries, if_neg hp]
      simpa using wfEntries_of_namesOk rest q hn.2 hs
end

mutual
/-- The entries a successful scan appends are, up to order, the nodes of the
tree with their paths and kinds. -/
theorem scanFiles_perm : ∀ (n : Node) (q : CStr), (scanFiles q n).1 = true →
    ((scanFiles q n).2.map (fun f => (f.filename, f.isDir))).Perm (treeEntries q n)
  | .file, q, h => by simp [scanFiles] at h
  | .dir false es, q, h => by simp [scanFiles] at h
  | .dir true es, q, h => by
    rw [scanFiles_dir] at h ⊢
    simp only at h
    rw [treeEntries_dir]
    simp only [h, if_true, List.map_append, List.map_cons, List.map_nil]
    exact (List.perm_append_singleton _ _).trans ((scanEntries_perm es q h).cons _)
theorem scanEntries_perm : ∀ (es : List (CStr × Node)) (q : CStr),
    (scanEntries q es).1 = true →
    ((scanEntries q es).2.map (fun f => (f.filename, f.isDir))).Perm (childEntries q es)
  | [], q, _ => by simp [scanEntries, childEntries]
  | (name, n) :: rest, q, hs => by
    rw [childEntries_cons]
    by_cases hp : notPseudo name = true
    · rw [if_pos hp]
      by_cases hd : n.isDir = true
      · cases hf : (scanFiles (childPath q name) n).1 with
        | false =>
          rw [scanEntries_dir_fail q name n rest hp hd hf] at hs
          cases hs
        | true =>
          rw [scanEntries_dir_ok q name n rest hp hd hf] at hs ⊢
          simp only [List.map_append]
          exact (scanFiles_perm n _ hf).append (scanEntries_perm rest q hs)
      · have hd2 : n.isDir = false := by simpa using hd
        rw [scanEntries_file q name n rest hp hd2] at hs ⊢
        cases n with
        | file =>
          rw [treeEntries_file]
          simp only [List.map_cons, List.singleton_append]
          exact (scanEntries_perm rest q hs).cons _
        | dir o es => cases hd2
    · have hp2 : notPseudo name = false := by simpa using hp
      rw [scanEntries_pseudo q name n rest hp2] at hs ⊢
      rw [if_neg hp]
      simpa using scanEntries_perm rest q hs
end

mutual
/-- In a well-formed tree no path belongs to two nodes. -/
theorem treeEntries_nodup : ∀ (n : Node) (q : CStr), n.wf = true →
    ((treeEntries q n).map Prod.fst).Nodup
  | .file, q, _ => by rw [treeEntries_file]; simp
  | .dir o es, q, hwf => by
    rw [treeEntries_dir, List.map_cons, List.nodup_cons]
    refine ⟨?_, childEntries_nodup es q (wf_dir hwf).2⟩
    intro hmem
    obtain ⟨e, he, heq⟩ := List.mem_map.1 hmem
    obtain ⟨name, n, _, _, hv, _, _, hu⟩ := childEntries_under es q (wf_dir hwf).2 e he
    have := Under.length_lt hv hu
    rw [heq] at this
    exact lt_irrefl _ this
theorem childEntries_nodup : ∀ (es : List (CStr × Node)) (q : CStr), wfEntries es = true →
    ((childEntries q es).map Prod.fst).Nodup
  | [], q, _ => by simp [childEntries]
  | (name, n) :: rest, q, hwf => by
    obtain ⟨hrest, hhead⟩ := wfEntries_cons hwf
    rw [childEntries_cons]
    by_cases hp : notPseudo name = true
    · rw [if_pos hp, List.map_append, List.nodup_append]
      obtain ⟨hv, hnwf, hdist⟩ := hhead hp
      refine ⟨treeEntries_nodup n _ hnwf, childEntries_nodup rest q hrest, ?_⟩
      intro x hx1 hx2
      obtain ⟨e1, he1, heq1⟩ := List.mem_map.1 hx1
      obtain ⟨e2, he2, heq2⟩ := List.mem_map.1 hx2
      have hu1 := treeEntries_under hv hnwf he1
      obtain ⟨name2, n2, hm2, _, hv2, _, _, hu2⟩ := childEntries_under rest q hrest e2 he2
      rw [heq1] at hu1
      rw [heq2] at hu2
      exact hdist (name2, n2) hm2 (Under.name_eq hv2 hv hu2 hu1)
    · rw [if_neg hp]
      simpa using childEntries_nodup rest q hrest
end

mutual
/-- Every entry of a well-formed tree is a node of the tree, with its kind. -/
theorem treeEntries_inTree : ∀ (n : Node) (q : CStr), n.wf = true →
    ∀ e ∈ treeEntries q n, ∃ m, InTree (q, n) (e.1, m) ∧ e.2 = m.isDir
  | .file, q, _, e, he => by
    rw [treeEntries_file] at he
    simp only [List.mem_singleton] at he
    subst he
    exact ⟨Node.file, Relation.ReflTransGen.refl, rfl⟩
  | .dir o es, q, hwf, e, he => by
    obtain ⟨ho, hes⟩ := wf_dir hwf
    subst ho
    rw [treeEntries_dir] at he
    rcases List.mem_cons.1 he with rfl | hc
    · exact ⟨Node.dir true es, Relation.ReflTransGen.refl, rfl⟩
    · obtain ⟨name, n, hm, hp, m, hin, hk⟩ := childEntries_inTree es q hes e hc
      exact ⟨m, Relation.ReflTransGen.head (Child.mk q es name n hm hp) hin, hk⟩
theorem childEntries_inTree : ∀ (es : List (CStr × Node)) (q : CStr), wfEntries es = true →
    ∀ e ∈ childEntries q es, ∃ name n, (name, n) ∈ es ∧ notPseudo name = true ∧
      ∃ m, InTree (childPath q name, n) (e.1, m) ∧ e.2 = m.isDir
  | [], q, _, e, he => by simp [childEntries] at he
  | (name, n) :: rest, q, hwf, e, he => by
    obtain ⟨hrest, hhead⟩ := wfEntries_cons hwf
    rw [childEntries_cons] at he
    rcases List.mem_append.1 he with h | h
    · by_cases hp : notPseudo name = true
      · rw [if_pos hp] at h
        obtain ⟨m, hin, hk⟩ := treeEntries_inTree n (childPath q name) (hhead hp).2.1 e h
        exact ⟨name, n, List.mem_cons_self _ _, hp, m, hin, hk⟩
      · rw [if_neg hp] at h
        cases h
    · obtain ⟨name2, n2, hm, hp2, m, hin, hk⟩ := childEntries_inTree rest q hrest e h
      exact ⟨name2, n2, List.mem_cons_of_mem _ hm, hp2, m, hin, hk⟩
end

/-- C20. For every tree whose entry names contain no `/` and are pairwise
distinct among siblings (`namesOk`; the names are those of directory entries,
so none is empty), a successful scan started by `main`
produces a plan in which no path occurs twice; the (path, kind) pairs of the
plan are, up to order, the nodes of the tree listed once each with their
paths; every node of the tree has its entry, of kind Directory exactly when the
node is a directory; and every entry of the plan is the entry of a node of the
tree, with that node's kind. -/
theorem C20_one_entry_per_node {σ : Type} (sys : Sys σ) (path : CStr) (root : Node)
    (w : World σ) (hnames : root.namesOk = true)
    (hok : (loadFileList sys path root (scanStart path w)).1 = true) :
    ((loadFileList sys path root (scanStart path w)).2.fl.files.map File.filename).Nodup ∧
    ((loadFileList sys path root (scanStart path w)).2.fl.files.map
      (fun f => (f.filename, f.isDir))).Perm (treeEntries path root) ∧
    (∀ (q : CStr) (n : Node), InTree (path, root) (q, n) →
      File.mk q n.isDir ∈ (loadFileList sys path root (scanStart path w)).2.fl.files) ∧
    (∀ f ∈ (loadFileList sys path root (scanStart path w)).2.fl.files,
      ∃ n, InTree (path, root) (f.filename, n) ∧ f.isDir = n.isDir) := by
  obtain ⟨hflag, hfiles, _, _⟩ := loadFileList_pure sys path root (scanStart path w)
  have hplan : (loadFileList sys path root (scanStart path w)).2.fl.files
      = (scanFiles path root).2 := by
    rw [hfiles]; simp [scanStart]
  have hs : (scanFiles path root).1 = true := by rw [← hflag]; exact hok
  have hwf : root.wf = true := wf_of_namesOk root path hnames (fun _ => hs)
  have hperm := scanFiles_perm root path hs
  rw [hplan]
  refine ⟨?_, hperm, ?_, ?_⟩
  · have h1 : ((scanFiles path root).2.map File.filename) =
        ((scanFiles path root).2.map (fun f => (f.filename, f.isDir))).map Prod.fst := by
      rw [List.map_map]; rfl
    rw [h1]
    exact (hperm.map Prod.fst).nodup_iff.2 (treeEntries_nodup root path hwf)
  · intro q n hin
    obtain ⟨hsub, pre, post, hblock⟩ := inTree_block hin hs
    obtain ⟨init, hinit⟩ := entryPlan_last hsub
    simp only at hblock hinit
    rw [hblock, hinit]
    simp
  · intro f hf
    have hmem : (f.filename, f.isDir) ∈ treeEntries path root :=
      hperm.subset (List.mem_map.2 ⟨f, hf, rfl⟩)
    exact treeEntries_inTree root path hwf _ hmem

/-- C20 on the scenario: the plan of `a` is `[a/b.txt, a/c, a]`, three
distinct paths for the three nodes. -/
theorem C20_one_entry_per_node_witness :
    (demoScan.2.fl.files.map File.filename).Nodup ∧
    (demoScan.2.fl.files.map (fun f => (f.filename, f.isDir))).Perm
      (treeEntries "a".toList demoTree) ∧
    (∀ (q : CStr) (n : Node), InTree ("a".toList, demoTree) (q, n) →
      File.mk q n.isDir ∈ demoScan.2.fl.files) ∧
    (∀ f ∈ demoScan.2.fl.files,
      ∃ n, InTree ("a".toList, demoTree) (f.filename, n) ∧ f.isDir = n.isDir) :=
  C20_one_entry_per_node okSys "a".toList demoTree (emptyWorld ()) (by decide) (by decide)

/-! ## Independence of the order of the listing (C15) -/

theorem scanEntries_cons_flag (q name : CStr) (n : Node) (rest : List (CStr × Node)) :
    (scanEntries q ((name, n) :: rest)).1 = true ↔
      (notPseudo name = true → n.isDir = true → (scanFiles (childPath q name) n).1 = true) ∧
        (scanEntries q rest).1 = true := by
  by_cases hp : notPseudo name = true
  · by_cases hd : n.isDir = true
    · cases hf : (scanFiles (childPath q name) n).1 with
      | false =>
        rw [scanEntries_dir_fail q name n rest hp hd hf]
        simp [hp, hd]
      | true =>
        rw [scanEntries_dir_ok q name n rest hp hd hf]
        simp
    · have hd2 : n.isDir = false := by simpa using hd
      rw [scanEntries_file q name n rest hp hd2]
      simp [hd2]
  · have hp2 : notPseudo name = false := by simpa using hp
    rw [scanEntries_pseudo q name n rest hp2]
    simp [hp2]

theorem scanEntries_cons_files (q name : CStr) (n : Node) (rest : List (CStr × Node))
    (h : (scanEntries q ((name, n) :: rest)).1 = true) :
    (scanEntries q ((name, n) :: rest)).2 =
      (if notPseudo name then entryPlan (childPath q name) n else []) ++
        (scanEntries q rest).2 := by
  obtain ⟨h1, _⟩ := (scanEntries_cons_flag q name n rest).1 h
  by_cases hp : notPseudo name = true
  · rw [scanEntries_cons_plan q name n rest hp (h1 hp), if_pos hp]
  · have hp2 : notPseudo name = false := by simpa using hp
    rw [scanEntries_pseudo q name n rest hp2, if_neg hp]
    rfl

theorem sameTree_isDir {a b : Node} (h : SameTree a b) : a.isDir = b.isDir := by
  induction h with
  | refl n => rfl
  | swap o a b es => rfl
  | cons o name _ _ _ _ => rfl
  | trans _ _ ih1 ih2 => rw [ih1, ih2]

/-- Any reordering of the entries of one directory is covered by `SameTree`. -/
theorem sameTree_of_perm (o : Bool) {es es1 : List (CStr × Node)} (h : es.Perm es1) :
    SameTree (.dir o es) (.dir o es1) := by
  induction h with
  | nil => exact SameTree.refl _
  | cons x _ ih =>
    obtain ⟨name, n⟩ := x
    exact SameTree.cons o name (SameTree.refl n) ih
  | swap x y l => exact SameTree.swap o y x l
  | trans _ _ ih1 ih2 => exact SameTree.trans ih1 ih2

theorem scanFiles_dir_flag (q : CStr) (es : List (CStr × Node)) :
    (scanFiles q (.dir true es)).1 = (scanEntries q es).1 := by
  rw [scanFiles_dir]

theorem scanFiles_dir_files (q : CStr) (es : List (CStr × Node))
    (h : (scanEntries q es).1 = true) :
    (scanFiles q (.dir true es)).2 = (scanEntries q es).2 ++ [{ filename := q, isDir := true }] := by
  rw [scanFiles_dir]
  simp [h]

theorem scanFiles_closed (q : CStr) (es : List (CStr × Node)) :
    (scanFiles q (.dir false es)).1 = false := by
  simp [scanFiles]

/-- Listings of the same tree in different orders: the scans succeed or fail
together, and when they succeed their entries are the same up to order. -/
theorem sameTree_scan {a b : Node} (h : SameTree a b) :
    ∀ q : CStr, ((scanFiles q a).1 = true ↔ (scanFiles q b).1 = true) ∧
      ((scanFiles q a).1 = true → (scanFiles q a).2.Perm (scanFiles q b).2) := by
  induction h with
  | refl n => exact fun q => ⟨Iff.rfl, fun _ => List.Perm.refl _⟩
  | swap o x y es =>
    intro q
    obtain ⟨nx, x⟩ := x
    obtain ⟨ny, y⟩ := y
    cases o with
    | false => simp [scanFiles_closed]
    | true =>
      have hflag : (scanEntries q ((nx, x) :: (ny, y) :: es)).1 = true ↔
          (scanEntries q ((ny, y) :: (nx, x) :: es)).1 = true := by
        rw [scanEntries_cons_flag, scanEntries_cons_flag, scanEntries_cons_flag q ny,
          scanEntries_cons_flag q nx]
        tauto
      rw [scanFiles_dir_flag, scanFiles_dir_flag]
      refine ⟨hflag, fun h => ?_⟩
      have h2 := hflag.1 h
      rw [scanFiles_dir_files q _ h, scanFiles_dir_files q _ h2]
      have h3 := ((scanEntries_cons_flag q nx x _).1 h).2
      have h4 := ((scanEntries_cons_flag q ny y _).1 h2).2
      rw [scanEntries_cons_files q nx x _ h, scanEntries_cons_files q ny y _ h3,
        scanEntries_cons_files q ny y _ h2, scanEntries_cons_files q nx x _ h4]
      exact (List.perm_append_comm_assoc _ _ _).append_right _
  | @cons o name n n1 es es1 hn hes ihn ihes =>
    intro q
    cases o with
    | false => simp [scanFiles_closed]
    | true =>
      have hdir := sameTree_isDir hn
      have hsub := ihn (childPath q name)
      have hrest := ihes q
      rw [scanFiles_dir_flag, scanFiles_dir_flag] at hrest
      have hflag : (scanEntries q ((name, n) :: es)).1 = true ↔
          (scanEntries q ((name, n1) :: es1)).1 = true := by
        rw [scanEntries_cons_flag, scanEntries_cons_flag, hdir, hsub.1, hrest.1]
      rw [scanFiles_dir_flag, scanFiles_dir_flag]
      refine ⟨hflag, fun h => ?_⟩
      have h2 := hflag.1 h
      obtain ⟨hn1, hr1⟩ := (scanEntries_cons_flag q name n es).1 h
      have hr2 := hrest.1.1 hr1
      rw [scanFiles_dir_files q _ h, scanFiles_dir_files q _ h2,
        scanEntries_cons_files q name n es h, scanEntries_cons_files q name n1 es1 h2]
      have hrp : (scanEntries q es).2.Perm (scanEntries q es1).2 := by
        have := hrest.2 hr1
        rw [scanFiles_dir_files q _ hr1, scanFiles_dir_files q _ hr2] at this
        exact (List.perm_append_right_iff _).1 this
      refine List.Perm.append_right _ (List.Perm.append ?_ hrp)
      by_cases hp : notPseudo name = true
      · rw [if_pos hp, if_pos hp]
        cases hd : n.isDir with
        | true =>
          rw [entryPlan_of_isDir hd, entryPlan_of_isDir (hdir ▸ hd)]
          exact hsub.2 (hn1 hp hd)
        | false =>
          have hd1 : n1.isDir = false := hdir ▸ hd
          simp [entryPlan, hd, hd1]
      · rw [if_neg hp, if_neg hp]
  | trans _ _ ih1 ih2 =>
    intro q
    exact ⟨(ih1 q).1.trans (ih2 q).1, fun h => ((ih1 q).2 h).trans ((ih2 q).2 ((ih1 q).1.1 h))⟩

theorem demoTree_swapped_same : SameTree demoTree demoTreeSwapped :=
  SameTree.cons true dot (SameTree.refl _) (SameTree.cons true dotdot (SameTree.refl _)
    (SameTree.trans
      (SameTree.swap true ("b.txt".toList, Node.file)
        ("c".toList, Node.dir true [(dot, .dir true []), (dotdot, .dir true [])]) [])
      (SameTree.cons true "c".toList
        (SameTree.swap true (dot, .dir true []) (dotdot, .dir true []) [])
        (SameTree.refl _))))

/-- C15. For two listings `a` and `b` of the same tree that differ only in the
order in which the reader yields the entries of each directory, scanned from
the state in which `main` starts the scan, with any clocks and any outside
worlds: the two scans return the same flag; when they succeed, the two plans
are permutations of one another (equal multisets of (path, kind) entries,
hence of paths), have the same length and the same `count`; and for an
unchanged listing (`a = b`, the tree scanned twice) the two plans and counts
are identical, whether the scans succeed or not. -/
theorem C15_scan_order_independent {σ σ1 : Type} (sys : Sys σ) (sys1 : Sys σ1) (path : CStr)
    (a b : Node) (w : World σ) (w1 : World σ1) (h : SameTree a b) :
    (loadFileList sys path a (scanStart path w)).1 =
      (loadFileList sys1 path b (scanStart path w1)).1 ∧
    ((loadFileList sys path a (scanStart path w)).1 = true →
      (loadFileList sys path a (scanStart path w)).2.fl.files.Perm
        (loadFileList sys1 path b (scanStart path w1)).2.fl.files ∧
      ((loadFileList sys path a (scanStart path w)).2.fl.files.map File.filename).Perm
        ((loadFileList sys1 path b (scanStart path w1)).2.fl.files.map File.filename) ∧
      (loadFileList sys path a (scanStart path w)).2.fl.files.length =
        (loadFileList sys1 path b (scanStart path w1)).2.fl.files.length ∧
      (loadFileList sys path a (scanStart path w)).2.fl.count =
        (loadFileList sys1 path b (scanStart path w1)).2.fl.count) ∧
    (a = b →
      (loadFileList sys path a (scanStart path w)).2.fl.files =
        (loadFileList sys1 path b (scanStart path w1)).2.fl.files ∧
      (loadFileList sys path a (scanStart path w)).2.fl.count =
        (loadFileList sys1 path b (scanStart path w1)).2.fl.count) := by
  obtain ⟨hf, hfiles, hcount, _⟩ := loadFileList_pure sys path a (scanStart path w)
  obtain ⟨hf1, hfiles1, hcount1, _⟩ := loadFileList_pure sys1 path b (scanStart path w1)
  have e : (loadFileList sys path a (scanStart path w)).2.fl.files = (scanFiles path a).2 := by
    rw [hfiles]; simp [scanStart]
  have e1 : (loadFileList sys1 path b (scanStart path w1)).2.fl.files
      = (scanFiles path b).2 := by
    rw [hfiles1]; simp [scanStart]
  have c : (loadFileList sys path a (scanStart path w)).2.fl.count
      = (scanFiles path a).2.length := by
    rw [hcount]; simp [scanStart]
  have c1 : (loadFileList sys1 path b (scanStart path w1)).2.fl.count
      = (scanFiles path b).2.length := by
    rw [hcount1]; simp [scanStart]
  obtain ⟨hiff, hperm⟩ := sameTree_scan h path
  rw [hf, hf1, e, e1, c, c1]
  refine ⟨Bool.eq_iff_iff.2 hiff, fun hok => ?_, fun hab => ?_⟩
  · have hp := hperm hok
    exact ⟨hp, hp.map _, hp.length_eq, hp.length_eq⟩
  · subst hab
    exact ⟨rfl, rfl⟩

/-- C15 on the scenario: the directory `a` listed as `b.txt`, `c` and listed
as `c`, `b.txt` gives the plans `[a/b.txt, a/c, a]` and `[a/c, a/b.txt, a]`. -/
theorem C15_scan_order_independent_witness :
    SameTree demoTree demoTreeSwapped ∧
    (loadFileList okSys "a".toList demoTree
      (scanStart "a".toList (emptyWorld ()))).2.fl.files =
        [⟨"a/b.txt".toList, false⟩, ⟨"a/c".toList, true⟩, ⟨"a".toList, true⟩] ∧
    (loadFileList okSys "a".toList demoTreeSwapped
      (scanStart "a".toList (emptyWorld ()))).2.fl.files =
        [⟨"a/c".toList, true⟩, ⟨"a/b.txt".toList, false⟩, ⟨"a".toList, true⟩] ∧
    (loadFileList okSys "a".toList demoTree (scanStart "a".toList (emptyWorld ()))).1 =
      (loadFileList okSys "a".toList demoTreeSwapped
        (scanStart "a".toList (emptyWorld ()))).1 :=
  ⟨demoTree_swapped_same, by decide, by decide,
    (C15_scan_order_independent okSys okSys "a".toList demoTree demoTreeSwapped
      (emptyWorld ()) (emptyWorld ()) demoTree_swapped_same).1⟩

/-! ## Runs on a plan of 2^32 entries (C2, C4, C8, C14)

The length of the plan reaches `progress` through an `int` parameter (lines
172 and 250). The directory `wideTree (2 ^ 32 - 1)` has a plan of `2 ^ 32`
entries, which converts to 0: the first call of `progress` divides by zero. -/

theorem digitChar_toNat (m : Nat) (h : m < 10) : (Nat.digitChar m).toNat - 48 = m := by
  interval_cases m <;> rfl

theorem digitChar_ne_slash (m : Nat) (h : m < 10) : Nat.digitChar m ≠ '/' := by
  interval_cases m <;> decide

theorem toDigitsCore_no_slash : ∀ (fuel n : Nat) (ds : List Char), '/' ∉ ds →
    '/' ∉ Nat.toDigitsCore 10 fuel n ds
  | 0, _, _, h => by simpa [Nat.toDigitsCore] using h
  | fuel + 1, n, ds, h => by
    have hd : '/' ∉ Nat.digitChar (n % 10) :: ds := by
      simp only [List.mem_cons, not_or]
      exact ⟨fun e => digitChar_ne_slash _ (Nat.mod_lt _ (by decide)) e.symm, h⟩
    rw [Nat.toDigitsCore]
    split
    · exact hd
    · exact toDigitsCore_no_slash fuel _ _ hd

/-- Reading a list of decimal digits back, from the most significant one. -/
theorem toDigitsCore_decode : ∀ (fuel n : Nat) (ds : List Char), n < fuel →
    ∃ xs, Nat.toDigitsCore 10 fuel n ds = xs ++ ds ∧
      xs.foldl (fun acc c => 10 * acc + (c.toNat - 48)) 0 = n
  | 0, _, _, h => absurd h (Nat.not_lt_zero _)
  | fuel + 1, n, ds, h => by
    rw [Nat.toDigitsCore]
    split
    · rename_i h0
      refine ⟨[Nat.digitChar (n % 10)], rfl, ?_⟩
      simp only [List.foldl, Nat.mul_zero, Nat.zero_add]
      rw [digitChar_toNat _ (Nat.mod_lt _ (by decide))]
      omega
    · rename_i h0
      obtain ⟨xs, hx, hv⟩ := toDigitsCore_decode fuel (n / 10)
        (Nat.digitChar (n % 10) :: ds) (by omega)
      refine ⟨xs ++ [Nat.digitChar (n % 10)], by rw [hx]; simp, ?_⟩
      rw [List.foldl_append, hv]
      simp only [List.foldl]
      rw [digitChar_toNat _ (Nat.mod_lt _ (by decide))]
      omega

/-- Different numbers have different decimal representations. -/
theorem toDigits_injective {a b : Nat} (h : Nat.toDigits 10 a = Nat.toDigits 10 b) : a = b := by
  obtain ⟨xs, hx, hv⟩ := toDigitsCore_decode (a + 1) a [] (Nat.lt_succ_self a)
  obtain ⟨ys, hy, hw⟩ := toDigitsCore_decode (b + 1) b [] (Nat.lt_succ_self b)
  rw [Nat.toDigits, Nat.toDigits, hx, hy, List.append_nil, List.append_nil] at h
  rw [← hv, ← hw, h]

theorem wideName_valid (k : Nat) : validName ('f' :: Nat.toDigits 10 k) = true := by
  have h := toDigitsCore_no_slash (k + 1) k [] (by simp)
  simp only [validName, Bool.and_eq_true, decide_eq_true_eq]
  refine ⟨by simp, ?_⟩
  simp only [List.mem_cons, not_or]
  exact ⟨by decide, h⟩

theorem wideEntries_names : ∀ (k : Nat) (e : CStr × Node), e ∈ wideEntries k →
    e.1 = dot ∨ e.1 = dotdot ∨ ∃ j, j < k ∧ e.1 = 'f' :: Nat.toDigits 10 j
  | 0, e, h => by
    simp only [wideEntries, List.mem_cons, List.mem_singleton, List.not_mem_nil, or_false] at h
    rcases h with h | h
    · exact Or.inl (by rw [h])
    · exact Or.inr (Or.inl (by rw [h]))
  | k + 1, e, h => by
    rw [wideEntries, List.mem_cons] at h
    rcases h with h | h
    · exact Or.inr (Or.inr ⟨k, Nat.lt_succ_self k, by rw [h]⟩)
    · rcases wideEntries_names k e h with h1 | h1 | ⟨j, hj, h1⟩
      · exact Or.inl h1
      · exact Or.inr (Or.inl h1)
      · exact Or.inr (Or.inr ⟨j, Nat.lt_succ_of_lt hj, h1⟩)

theorem wideEntries_wf : ∀ k : Nat, wfEntries (wideEntries k) = true
  | 0 => by decide
  | k + 1 => by
    rw [wideEntries, wfEntries]
    have hn : notPseudo ('f' :: Nat.toDigits 10 k) = true := by simp [notPseudo, dot, dotdot]
    simp only [hn, if_true, Bool.and_eq_true, wideName_valid, Node.wf, wideEntries_wf k,
      List.all_eq_true, decide_eq_true_eq, and_true, true_and]
    intro e he
    rcases wideEntries_names k e he with h1 | h1 | ⟨j, hj, h1⟩
    · rw [h1]; simp [dot]
    · rw [h1]; simp [dotdot]
    · rw [h1]
      intro hc
      have := toDigits_injective (List.cons.inj hc).2
      omega

/-- The directory with `k` files satisfies the conditions on trees: it can be
opened and the names of its entries are valid and pairwise distinct. -/
theorem wideTree_wf (k : Nat) : (wideTree k).wf = true := by
  rw [wideTree, Node.wf, wideEntries_wf k]; rfl

/-- The plan of a directory with at least one file starts with the entry of
the file the reader yields first. -/
theorem scanFiles_wide_head (q : CStr) (k : Nat) (hk : 0 < k) :
    (scanFiles q (wideTree k)).2 =
      { filename := childPath q ('f' :: Nat.toDigits 10 (k - 1)), isDir := false } ::
        (scanFiles q (wideTree (k - 1))).2 := by
  obtain ⟨j, rfl⟩ : ∃ j, k = j + 1 := ⟨k - 1, by omega⟩
  rw [Nat.add_sub_cancel, wideTree, wideTree, scanFiles_dir, scanFiles_dir, wideEntries,
    scanEntries_file q ('f' :: Nat.toDigits 10 j) Node.file (wideEntries j)
      (by simp [notPseudo, dot, dotdot]) rfl]
  simp [(scanEntries_wide q j).1]

theorem PrimsSucceed_slowSys : ∀ (files : List File) (st : Unit), PrimsSucceed slowSys files st
  | [], _ => trivial
  | f :: rest, st => by
    refine ⟨?_, PrimsSucceed_slowSys rest _⟩
    unfold prim slowSys
    split <;> rfl

/-- On the model filesystem holding a directory of `k` files and nothing else
below it, every primitive of the plan, called in plan order, succeeds. -/
theorem model_prims_wide (time : Nat → Int) (tty : Nat → Option (Option (Nat × Nat)))
    (q : CStr) (k : Nat) :
    PrimsSucceed (modelSys time tty) (scanFiles q (wideTree k)).2
      (treeEntries q (wideTree k)) := by
  have h := (model_run_node time tty (wideTree k) q (treeEntries q (wideTree k))
    (wideTree_wf k) (fun _ h => h) (fun _ h _ => h)).2.1
  rw [entryPlan_of_isDir (by rfl)] at h
  exact h

/-- The first entry of the list is removed, more than one second has passed,
and the count converts to the `int` 0: the call of `progress` made after this
first removal divides by zero, and the loop goes no further. -/
theorem deleteLoop_killed_first {σ : Type} (sys : Sys σ) (count : Nat) (startTime : Int)
    (f : File) (rest : List File) (lastProgress : Int) (currentCount : Nat) (w : World σ)
    (h0 : (prim sys f w.fs).1 = 0) (hz : toInt count = 0)
    (hgap : sys.time w.ticks - lastProgress > 1) :
    (deleteLoop sys count startTime (f :: rest) lastProgress currentCount w).1 = none ∧
    (deleteLoop sys count startTime (f :: rest) lastProgress currentCount w).2.fs
      = (prim sys f w.fs).2 ∧
    (deleteLoop sys count startTime (f :: rest) lastProgress currentCount w).2.trace
      = w.trace ++ [primEvent f 0, Event.time (sys.time w.ticks),
          Event.progress (toInt (currentCount + 1)) 0 (sys.time w.ticks - startTime)] := by
  rcases deleteTick_cases sys count startTime lastProgress (currentCount + 1)
    (afterPrim sys f w) with ⟨h, _, _⟩ | ⟨_, h1, h2⟩
  · exact absurd hgap h
  · rw [hz, progress_zero_total] at h1
    rw [deleteLoop_cons_trap sys count startTime f rest lastProgress currentCount w h0 h1]
    refine ⟨rfl, ?_, ?_⟩
    · rw [deleteTick_fs, afterPrim_fs]
    · rw [h2, afterPrim_trace, afterPrim_ticks, h0, hz]
      simp

/-- The same for `recursiveDelete`: of a list whose count converts to 0, only
the first entry is removed when the clock has advanced by more than one second
at the first reading. -/
theorem recursiveDelete_killed_first {σ : Type} (sys : Sys σ) (lst : FileList)
    (startTime : Int) (w : World σ) (f : File) (rest : List File)
    (hfiles : lst.files = f :: rest) (h0 : (prim sys f w.fs).1 = 0)
    (hz : toInt lst.count = 0) (hgap : sys.time w.ticks - startTime > 1) :
    (recursiveDelete sys lst startTime w).1 = none ∧
    (recursiveDelete sys lst startTime w).2.fs = (prim sys f w.fs).2 ∧
    (recursiveDelete sys lst startTime w).2.trace
      = w.trace ++ [Event.stdout "\n".toList, primEvent f 0, Event.time (sys.time w.ticks),
          Event.progress 1 0 (sys.time w.ticks - startTime)] := by
  obtain ⟨a, b, c⟩ := deleteLoop_killed_first sys lst.count startTime f rest startTime 0
    (w.emit (.stdout "\n".toList)) h0 hz hgap
  rw [recursiveDelete, hfiles]
  refine ⟨a, b, ?_⟩
  rw [c]
  simp [World.emit, toInt]

/-- A run of `main` on a tree whose plan has a length that converts to 0, with
a clock that advances by more than one second per reading: when the scan and
the first removal succeed, the run is killed right after the first removal. -/
theorem main_killed_first {σ : Type} (sys : Sys σ) (tree : Node) (program path : CStr)
    (w : World σ) (f : File) (rest : List File)
    (hok : (loadFileList sys path tree (scanStart path w)).1 = true)
    (hplan : (scanFiles path tree).2 = f :: rest)
    (h0 : (prim sys f w.fs).1 = 0)
    (hz : toInt (scanFiles path tree).2.length = 0)
    (hgap : ∀ t, sys.time (t + 1) - sys.time t > 1) :
    (main sys tree program [path] w).1 = none ∧
    (main sys tree program [path] w).2.fs = (prim sys f w.fs).2 ∧
    (main sys tree program [path] w).2.trace.filter Event.isRemoval
      = w.trace.filter Event.isRemoval ++ [primEvent f 0] ∧
    ∃ pre tnow e, (main sys tree program [path] w).2.trace
      = pre ++ [primEvent f 0, Event.time tnow, Event.progress 1 0 e] := by
  obtain ⟨_, hfiles, hcount, _, hfs, _⟩ := scan_result sys tree path w hok
  obtain ⟨t, ht, hnr, _⟩ := loadFileList_no_removal sys path tree (scanStart path w)
  rw [main_scan_ok sys tree program path w hok]
  generalize loadFileList sys path tree (scanStart path w) = r at hfiles hcount hfs ht
  obtain ⟨ok, s⟩ := r
  simp only at hfiles hcount hfs ht ⊢
  obtain ⟨a, b, c⟩ := recursiveDelete_killed_first sys s.fl (sys.time s.world.ticks)
    (deleteStart sys s) f rest (by rw [hfiles, hplan])
    (by rw [deleteStart_fs, hfs]; exact h0) (by rw [hcount]; exact hz)
    (by rw [deleteStart_ticks]; exact hgap _)
  rw [deletePhase_killed sys s a]
  refine ⟨rfl, by rw [b, deleteStart_fs, hfs], ?_, ?_⟩
  · rw [c, deleteStart_trace, ht]
    have e1 : t.filter Event.isRemoval = [] :=
      List.filter_eq_nil_iff.2 (fun e he => by simp [hnr e he])
    have e2 : (primEvent f 0).isRemoval = true := primEvent_isRemoval f 0
    have e3 : ∀ x : CStr, (Event.stdout x).isRemoval = false := fun _ => rfl
    have e4 : ∀ x : Int, (Event.time x).isRemoval = false := fun _ => rfl
    have e5 : ∀ x y z : Int, (Event.progress x y z).isRemoval = false := fun _ _ _ => rfl
    simp [List.filter_append, List.filter_cons, e1, e2, e3, e4, e5, scanStart, World.emit]
  · exact ⟨(deleteStart sys s).trace ++ [Event.stdout "\n".toList],
      sys.time (deleteStart sys s).ticks,
      sys.time (deleteStart sys s).ticks - sys.time s.world.ticks, by rw [c]; simp⟩

/-- The call of `recursiveDelete` that `main` makes after a successful scan, in
the situation of `main_killed_first`: it does not return, and its only removal
call is the one for the first entry of the plan. -/
theorem delete_after_scan_killed_first {σ : Type} (sys : Sys σ) (tree : Node) (path : CStr)
    (w : World σ) (f : File) (rest : List File)
    (hok : (loadFileList sys path tree (scanStart path w)).1 = true)
    (hplan : (scanFiles path tree).2 = f :: rest)
    (h0 : (prim sys f w.fs).1 = 0)
    (hz : toInt (scanFiles path tree).2.length = 0)
    (hgap : ∀ t, sys.time (t + 1) - sys.time t > 1) :
    (recursiveDelete sys (loadFileList sys path tree (scanStart path w)).2.fl
      (sys.time (loadFileList sys path tree (scanStart path w)).2.world.ticks)
      (deleteStart sys (loadFileList sys path tree (scanStart path w)).2)).1 = none ∧
    (recursiveDelete sys (loadFileList sys path tree (scanStart path w)).2.fl
      (sys.time (loadFileList sys path tree (scanStart path w)).2.world.ticks)
      (deleteStart sys (loadFileList sys path tree (scanStart path w)).2)).2.fs
        = (prim sys f w.fs).2 ∧
    (recursiveDelete sys (loadFileList sys path tree (scanStart path w)).2.fl
      (sys.time (loadFileList sys path tree (scanStart path w)).2.world.ticks)
      (deleteStart sys (loadFileList sys path tree (scanStart path w)).2)).2.trace.filter
        Event.isRemoval = w.trace.filter Event.isRemoval ++ [primEvent f 0] := by
  obtain ⟨_, hfiles, hcount, _, hfs, _⟩ := scan_result sys tree path w hok
  obtain ⟨t, ht, hnr, _⟩ := loadFileList_no_removal sys path tree (scanStart path w)
  generalize loadFileList sys path tree (scanStart path w) = r at hfiles hcount hfs ht
  obtain ⟨ok, s⟩ := r
  simp only at hfiles hcount hfs ht ⊢
  obtain ⟨a, b, c⟩ := recursiveDelete_killed_first sys s.fl (sys.time s.world.ticks)
    (deleteStart sys s) f rest (by rw [hfiles, hplan])
    (by rw [deleteStart_fs, hfs]; exact h0) (by rw [hcount]; exact hz)
    (by rw [deleteStart_ticks]; exact hgap _)
  refine ⟨a, by rw [b, deleteStart_fs, hfs], ?_⟩
  rw [c, deleteStart_trace, ht]
  have e1 : t.filter Event.isRemoval = [] :=
    List.filter_eq_nil_iff.2 (fun e he => by simp [hnr e he])
  have e2 : (primEvent f 0).isRemoval = true := primEvent_isRemoval f 0
  have e3 : ∀ x : CStr, (Event.stdout x).isRemoval = false := fun _ => rfl
  have e4 : ∀ x : Int, (Event.time x).isRemoval = false := fun _ => rfl
  have e5 : ∀ x y z : Int, (Event.progress x y z).isRemoval = false := fun _ _ _ => rfl
  simp [List.filter_append, List.filter_cons, e1, e2, e3, e4, e5, scanStart, World.emit]

/-- C14. The claim fails on the plan of a directory `d` holding 2^32 - 1
files, with primitives that all succeed and a clock that advances two seconds
per reading. The plan has 2^32 entries, so the claim promises 2^32 calls. The
count reaches `progress` as the `int` 0 (line 172), the call of `progress` made
after the first removal divides by zero, and `recursiveDelete` never returns:
the only removal call of the run is `unlink("d/f4294967294")`. On the plan of
the scenario, `[a/b.txt, a/c, a]`, the calls follow the plan. -/
theorem C14_calls_follow_plan_killed :
    (scanFiles "d".toList (wideTree (2 ^ 32 - 1))).2.length = 2 ^ 32 ∧
    PrimsSucceed slowSys (scanFiles "d".toList (wideTree (2 ^ 32 - 1))).2 () ∧
    (recursiveDelete slowSys
      { files := (scanFiles "d".toList (wideTree (2 ^ 32 - 1))).2, count := 2 ^ 32 } 0
      { fs := (), ticks := 1, trace := [] }).1 = none ∧
    (recursiveDelete slowSys
      { files := (scanFiles "d".toList (wideTree (2 ^ 32 - 1))).2, count := 2 ^ 32 } 0
      { fs := (), ticks := 1, trace := [] }).2.trace =
      [Event.stdout "\n".toList, Event.unlink "d/f4294967294".toList 0, Event.time 2,
        Event.progress 1 0 2] ∧
    (recursiveDelete okSys { files := demoPlan, count := 3 } 0 (emptyWorld ())).1 = some true ∧
    (recursiveDelete okSys { files := demoPlan, count := 3 } 0 (emptyWorld ())).2.trace.filter
      Event.isRemoval =
      [Event.unlink "a/b.txt".toList 0, Event.rmdir "a/c".toList 0, Event.rmdir "a".toList 0] := by
  have hlen : (scanFiles "d".toList (wideTree (2 ^ 32 - 1))).2.length = 2 ^ 32 := by
    rw [(scanFiles_wide "d".toList (2 ^ 32 - 1)).2]; norm_num
  have hplan := scanFiles_wide_head "d".toList (2 ^ 32 - 1) (by norm_num)
  refine ⟨hlen, @PrimsSucceed_slowSys (scanFiles "d".toList (wideTree (2 ^ 32 - 1))).2 (),
    ?_, ?_, by decide, by decide⟩
  · rw [hplan]
    exact (recursiveDelete_killed_first slowSys _ 0 { fs := (), ticks := 1, trace := [] }
      { filename := childPath "d".toList ('f' :: Nat.toDigits 10 (2 ^ 32 - 1 - 1)),
        isDir := false }
      (scanFiles "d".toList (wideTree (2 ^ 32 - 1 - 1))).2 rfl rfl (by decide) (by decide)).1
  · rw [hplan, (recursiveDelete_killed_first slowSys _ 0 { fs := (), ticks := 1, trace := [] }
      { filename := childPath "d".toList ('f' :: Nat.toDigits 10 (2 ^ 32 - 1 - 1)),
        isDir := false }
      (scanFiles "d".toList (wideTree (2 ^ 32 - 1 - 1))).2 rfl rfl (by decide)
      (by decide)).2.2]
    decide

/-- C4. The claim fails on the plan of a directory `d` holding 2^32 - 1 files
when the third removal fails (position k = 3: the first two primitives succeed,
the third reports failure) and the clock reads two seconds after the start at
the first entry. The claim promises calls on entries 1 to 3 and the result
`false`. The count reaches `progress` as the `int` 0 (line 172), the call of
`progress` made after the first removal divides by zero, and `recursiveDelete`
never returns: the only removal call is the one on entry 1, entries 2 and 3 are
never attempted and no failure is returned. On the five-entry plan of the
claim's own witness, entries 1 to 3 are attempted and the result is `false`. -/
theorem C4_fail_fast_killed :
    (scanFiles "d".toList (wideTree (2 ^ 32 - 1))).2 =
      [{ filename := "d/f4294967294".toList, isDir := false },
        { filename := "d/f4294967293".toList, isDir := false }] ++
      { filename := "d/f4294967292".toList, isDir := false } ::
        (scanFiles "d".toList (wideTree (2 ^ 32 - 1 - 1 - 1 - 1))).2 ∧
    (scanFiles "d".toList (wideTree (2 ^ 32 - 1))).2.length = 2 ^ 32 ∧
    PrimsSucceed thirdFails
      [{ filename := "d/f4294967294".toList, isDir := false },
        { filename := "d/f4294967293".toList, isDir := false }] 0 ∧
    (prim thirdFails { filename := "d/f4294967292".toList, isDir := false }
      (fsAfter thirdFails
        [{ filename := "d/f4294967294".toList, isDir := false },
          { filename := "d/f4294967293".toList, isDir := false }] 0)).1 ≠ 0 ∧
    (recursiveDelete thirdFails
      { files := (scanFiles "d".toList (wideTree (2 ^ 32 - 1))).2, count := 2 ^ 32 } 0
      { fs := 0, ticks := 2, trace := [] }).1 = none ∧
    (recursiveDelete thirdFails
      { files := (scanFiles "d".toList (wideTree (2 ^ 32 - 1))).2, count := 2 ^ 32 } 0
      { fs := 0, ticks := 2, trace := [] }).2.trace =
      [Event.stdout "\n".toList, Event.unlink "d/f4294967294".toList 0, Event.time 2,
        Event.progress 1 0 2] ∧
    (recursiveDelete thirdFails { files := fivePlan, count := 5 } 0 (emptyWorld 0)).1
      = some false ∧
    (recursiveDelete thirdFails { files := fivePlan, count := 5 } 0
      (emptyWorld 0)).2.trace.filter Event.isRemoval =
      [Event.unlink "d/1".toList 0, Event.unlink "d/2".toList 0,
        Event.unlink "d/3".toList (-1)] := by
  have hlen : (scanFiles "d".toList (wideTree (2 ^ 32 - 1))).2.length = 2 ^ 32 := by
    rw [(scanFiles_wide "d".toList (2 ^ 32 - 1)).2]; norm_num
  have hplan := scanFiles_wide_head "d".toList (2 ^ 32 - 1) (by norm_num)
  have hplan2 := scanFiles_wide_head "d".toList (2 ^ 32 - 1 - 1) (by norm_num)
  have hplan3 := scanFiles_wide_head "d".toList (2 ^ 32 - 1 - 1 - 1) (by norm_num)
  have n1 : childPath "d".toList ('f' :: Nat.toDigits 10 (2 ^ 32 - 1 - 1))
      = "d/f4294967294".toList := by decide
  have n2 : childPath "d".toList ('f' :: Nat.toDigits 10 (2 ^ 32 - 1 - 1 - 1))
      = "d/f4294967293".toList := by decide
  have n3 : childPath "d".toList ('f' :: Nat.toDigits 10 (2 ^ 32 - 1 - 1 - 1 - 1))
      = "d/f4294967292".toList := by decide
  rw [n1] at hplan
  rw [n2] at hplan2
  rw [n3] at hplan3
  refine ⟨?_, hlen, by decide, by decide, ?_, ?_, by decide, by decide⟩
  · rw [hplan, hplan2, hplan3]; rfl
  · rw [hplan]
    exact (recursiveDelete_killed_first thirdFails _ 0 { fs := 0, ticks := 2, trace := [] }
      { filename := "d/f4294967294".toList, isDir := false }
      (scanFiles "d".toList (wideTree (2 ^ 32 - 1 - 1))).2 rfl rfl (by decide) (by decide)).1
  · rw [hplan, (recursiveDelete_killed_first thirdFails _ 0
      { fs := 0, ticks := 2, trace := [] }
      { filename := "d/f4294967294".toList, isDir := false }
      (scanFiles "d".toList (wideTree (2 ^ 32 - 1 - 1))).2 rfl rfl (by decide)
      (by decide)).2.2]
    decide

/-- C8. The claim fails on a directory `d` holding 2^32 - 1 files: one
argument is given, the scan succeeds and every removal primitive of the plan
succeeds, so the claim promises exit code 0. The length of the plan reaches
`progress` as the `int` 0 (lines 172 and 250), the first call of `progress`
divides by zero, and `main` returns neither 0 nor 1: the process is killed. The
rest of the claim holds on the scenario: with no argument and with two
arguments `main` only prints `Usage: eraser <filename>` to standard output and
returns 1; with the argument `a` it returns 0; when the scan fails or a removal
fails it returns 1. -/
theorem C8_exit_code_killed :
    (loadFileList okSys "d".toList (wideTree (2 ^ 32 - 1))
      (scanStart "d".toList (emptyWorld ()))).1 = true ∧
    (loadFileList okSys "d".toList (wideTree (2 ^ 32 - 1))
      (scanStart "d".toList (emptyWorld ()))).2.fl.files
        = (scanFiles "d".toList (wideTree (2 ^ 32 - 1))).2 ∧
    PrimsSucceed okSys (scanFiles "d".toList (wideTree (2 ^ 32 - 1))).2 () ∧
    (main okSys (wideTree (2 ^ 32 - 1)) "eraser".toList ["d".toList] (emptyWorld ())).1
      = none ∧
    (main okSys demoTree "eraser".toList [] (emptyWorld ())).1 = some 1 ∧
    (main okSys demoTree "eraser".toList [] (emptyWorld ())).2.trace
      = [Event.stdout "Usage: eraser <filename>\n".toList] ∧
    (main okSys demoTree "eraser".toList ["a".toList, "b".toList] (emptyWorld ())).1
      = some 1 ∧
    (main okSys demoTree "eraser".toList ["a".toList, "b".toList] (emptyWorld ())).2.trace
      = [Event.stdout "Usage: eraser <filename>\n".toList] ∧
    (main okSys demoTree "eraser".toList ["a".toList] (emptyWorld ())).1 = some 0 ∧
    (main okSys lockedTree "eraser".toList ["a".toList] (emptyWorld ())).1 = some 1 ∧
    (main unlinkFails oneFileTree "eraser".toList ["a".toList] (emptyWorld ())).1 = some 1 := by
  have hlen : (scanFiles "d".toList (wideTree (2 ^ 32 - 1))).2.length = 2 ^ 32 := by
    rw [(scanFiles_wide "d".toList (2 ^ 32 - 1)).2]; norm_num
  have hz : toInt (2 ^ 32) = 0 := by decide
  have hok := loadFileList_wide okSys "d".toList (2 ^ 32 - 1)
    (scanStart "d".toList (emptyWorld ()))
  refine ⟨hok, (scan_result okSys (wideTree (2 ^ 32 - 1)) "d".toList (emptyWorld ()) hok).2.1,
    @PrimsSucceed_okSys (scanFiles "d".toList (wideTree (2 ^ 32 - 1))).2 (), ?_,
    by decide, by decide, by decide, by decide, by decide, by decide, by decide⟩
  exact main_killed_of_zero_total okSys (wideTree (2 ^ 32 - 1)) "eraser".toList
    "d".toList (emptyWorld ()) hok
    (@PrimsSucceed_okSys (scanFiles "d".toList (wideTree (2 ^ 32 - 1))).2 ())
    (by rw [hlen]; exact hz)

/-- On the model filesystem that holds a directory of `k` files, with
`k + 1` converting to the `int` 0 and a clock that advances two seconds per
reading: the tree satisfies the conditions on trees, the scan succeeds, every
primitive of the plan would succeed in plan order, but the run of
`recursiveDelete` is killed after the first removal, and the directory itself
is still there. -/
theorem wideModelRun_killed (k : Nat) (hk : 0 < k) (hz : toInt (k + 1) = 0) :
    (wideTree k).wf = true ∧
    (wideModelScan k).1 = true ∧
    (wideModelScan k).2.fl.files = (scanFiles "d".toList (wideTree k)).2 ∧
    (wideModelScan k).2.fl.count = k + 1 ∧
    PrimsSucceed slowModelSys (wideModelScan k).2.fl.files (wideFS k) ∧
    (wideModelRun k).1 = none ∧
    (wideModelRun k).2.trace.filter Event.isRemoval =
      [Event.unlink (childPath "d".toList ('f' :: Nat.toDigits 10 (k - 1))) 0] ∧
    ("d".toList, true) ∈ (wideModelRun k).2.fs := by
  have hok : (wideModelScan k).1 = true :=
    loadFileList_wide slowModelSys "d".toList k _
  obtain ⟨_, hfiles, hcount, _, _, _⟩ :=
    scan_result slowModelSys (wideTree k) "d".toList (emptyWorld (wideFS k)) hok
  have hlen := (scanFiles_wide "d".toList k).2
  have hplan := scanFiles_wide_head "d".toList k hk
  have hps : PrimsSucceed slowModelSys (scanFiles "d".toList (wideTree k)).2 (wideFS k) :=
    model_prims_wide (fun k => 2 * k) tty80 "d".toList k
  have hps2 := hps
  rw [hplan] at hps2
  obtain ⟨a, b, c⟩ := delete_after_scan_killed_first slowModelSys (wideTree k) "d".toList
    (emptyWorld (wideFS k))
    { filename := childPath "d".toList ('f' :: Nat.toDigits 10 (k - 1)), isDir := false }
    (scanFiles "d".toList (wideTree (k - 1))).2 hok hplan hps2.1 (by rw [hlen]; exact hz)
    (by
      intro t
      show (2 * ((t + 1 : Nat) : Int)) - 2 * (t : Int) > 1
      push_cast
      omega)
  refine ⟨wideTree_wf k, hok, hfiles, hcount.trans hlen, ?_, a, ?_, ?_⟩
  · show PrimsSucceed slowModelSys (loadFileList slowModelSys "d".toList (wideTree k)
      (scanStart "d".toList (emptyWorld (wideFS k)))).2.fl.files (wideFS k)
    rw [hfiles]; exact hps
  · exact c.trans rfl
  · have hb : (wideModelRun k).2.fs =
        (modelUnlink (childPath "d".toList ('f' :: Nat.toDigits 10 (k - 1))) (wideFS k)).2 := b
    rw [hb]
    unfold modelUnlink
    have hroot : ("d".toList, true) ∈ wideFS k := by
      rw [wideFS, wideTree, treeEntries]; exact List.mem_cons_self _ _
    split
    · exact List.mem_filter.2 ⟨hroot, by simp⟩
    · exact hroot

/-- C2. The claim fails on a directory `d` holding 2^32 - 1 files, placed
alone on the model filesystem, with a clock that advances two seconds per
reading. The directory can be opened and the names of its entries are distinct;
the scan succeeds with a plan of 2^32 entries, and every primitive of the plan,
called in plan order, would succeed. The count reaches `progress` as the `int`
0 (line 172), the call of `progress` made after the first removal divides by
zero, and `recursiveDelete` never returns: the only removal call is
`unlink("d/f4294967294")`, and `d` is still on the filesystem. On the tree of
the scenario the plan is executed entirely and only the file outside the tree
is left. -/
theorem C2_plan_execution_killed :
    ((wideTree (2 ^ 32 - 1)).wf = true ∧
    (wideModelScan (2 ^ 32 - 1)).1 = true ∧
    (wideModelScan (2 ^ 32 - 1)).2.fl.files = (scanFiles "d".toList (wideTree (2 ^ 32 - 1))).2 ∧
    (wideModelScan (2 ^ 32 - 1)).2.fl.count = 2 ^ 32 ∧
    PrimsSucceed slowModelSys (wideModelScan (2 ^ 32 - 1)).2.fl.files (wideFS (2 ^ 32 - 1)) ∧
    (wideModelRun (2 ^ 32 - 1)).1 = none ∧
    (wideModelRun (2 ^ 32 - 1)).2.trace.filter Event.isRemoval =
      [Event.unlink "d/f4294967294".toList 0] ∧
    ("d".toList, true) ∈ (wideModelRun (2 ^ 32 - 1)).2.fs) ∧
    demoTree.wf = true ∧
    demoModelScan.1 = true ∧
    (recursiveDelete (modelSys (fun k => k) tty80) demoModelScan.2.fl 0
      demoModelScan.2.world).1 = some true ∧
    (recursiveDelete (modelSys (fun k => k) tty80) demoModelScan.2.fl 0
      demoModelScan.2.world).2.fs = [("z".toList, false)] := by
  have h := wideModelRun_killed (2 ^ 32 - 1) (by norm_num) (by decide)
  have n1 : childPath "d".toList ('f' :: Nat.toDigits 10 (2 ^ 32 - 1 - 1))
      = "d/f4294967294".toList := by decide
  have e : (2 : Nat) ^ 32 - 1 + 1 = 2 ^ 32 := by norm_num
  rw [n1, e] at h
  exact ⟨h, by decide, by decide, by decide, by decide⟩

end Eraser
